import Mathlib

/-!
Verification of the gtools group-discovery / sort / summarize core.

The C sources embedded here are:
* `src/plugin/hash/gtools_sort.c` (`mf_radix_sort_index`, `mf_radix_sort_index_pass`,
  `mf_counting_sort_index`, `mf_panelsetup128`, `mf_check_allequal`, `mf_panelsetup`);
* `src/plugin/parallel/hash/gtools_sort.c` (`gf_sort_hash`, `gf_radix_sort8`,
  `gf_radix_sort16`, `gf_radix_psort16`, `gf_radix_counts16`, `gf_counting_sort`);
* `src/plugin/tools/gtools_math.c` (the range reducers and the function-code dispatch).

Modelling conventions:
* `uint64_t` / `size_t` values are `ℕ`; the one place where 64-bit overflow can matter
  (`exp *= shift` in the radix-pass driver, and the `range = max - min + 1` dispatch
  quantity) is reduced `% 2 ^ 64` explicitly.
* C arrays are `List ℕ`; in-place writes at computed positions are modelled by folding
  a state whose output arrays are functions `ℕ → ℕ` updated with `Function.update`,
  and reading positions `0, …, N-1` back at the end.
* C `double` is modelled by `ℚ`: every concrete computation appearing in the claims
  (quantiles of small integer vectors, integer function codes) is exact in binary
  floating point, so the rational model is faithful on those inputs.  `sqrt` is
  modelled by `Rat.sqrt`, `floor` by `Int.floor`.
* The panel builders read their input through `List.get?`: a `none` result models an
  out-of-bounds array read (the `do/while` loops read `h1[i]` before testing `i < N`).
* Heap allocation is modelled separately: the `_alloc` variants take one `Bool` per
  `calloc`/`malloc` in source order; `false` means that allocation returned `NULL`.
-/

set_option linter.unusedVariables false

namespace Gtools

universe u
variable {α : Type u} {β : Type u}

/-! ## Generic machinery: stable sorting and stable bucket distribution -/

/-- Stable insertion of `a` into `l` by the key `f`: `a` goes before the first element
whose key is not smaller, preserving input order among equal keys. -/
def sinsert (f : α → ℕ) (a : α) : List α → List α
  | [] => [a]
  | b :: t => if f b < f a then b :: sinsert f a t else a :: b :: t

/-- Reference stable sort by the key `f` (insertion sort).  Every sorting routine of
the engine is proved equal to `istab` of the appropriate key. -/
def istab (f : α → ℕ) : List α → List α
  | [] => []
  | a :: t => sinsert f a (istab f t)

/-- Exclusive prefix sum of a histogram: `ebase c d = c 0 + c 1 + ⋯ + c (d-1)`. -/
def ebase (c : ℕ → ℕ) : ℕ → ℕ
  | 0 => 0
  | d + 1 => ebase c d + c d

/-- Histogram loop: one `count[key e]++` per element of `l`, starting from `c0`. -/
def histFold (key : α → ℕ) (l : List α) (c0 : ℕ → ℕ) : ℕ → ℕ :=
  l.foldl (fun c e => Function.update c (key e) (c (key e) + 1)) c0

/-- Running-offset (exclusive scan) conversion of a histogram, mirroring the C idiom
`byte = offset + counts[i]; counts[i] = offset; offset = byte` over `i < size`.
Returns the converted table and the final offset. -/
def exscan1 (c0 : ℕ → ℕ) (size : ℕ) : (ℕ → ℕ) × ℕ :=
  (List.range size).foldl (fun s i => (Function.update s.1 i s.2, s.2 + s.1 i)) (c0, 0)

/-- In-place inclusive prefix sum, mirroring `for (i = 1; i < r; i++) count[i] += count[i-1]`. -/
def incscan (c0 : ℕ → ℕ) (r : ℕ) : ℕ → ℕ :=
  (List.range' 1 (r - 1)).foldl (fun c i => Function.update c i (c i + c (i - 1))) c0

/-- State threaded through a distribution pass: the count table and the two output
arrays (keys and indices) being written in place. -/
structure DistState where
  cnt : ℕ → ℕ
  outH : ℕ → ℕ
  outI : ℕ → ℕ

/-- One write of a forward distribution loop (used by the counting sorts and by the
`gf_radix_sort8/16` passes): read the running offset of the element's bucket, write
the key and index values there, post-increment the offset. -/
def distStep (bucket wH wI : α → ℕ) (st : DistState) (e : α) : DistState :=
  let s := st.cnt (bucket e)
  ⟨Function.update st.cnt (bucket e) (s + 1),
   Function.update st.outH s (wH e),
   Function.update st.outI s (wI e)⟩

/-- One write of the backward distribution loop of `mf_radix_sort_index_pass`:
`index[c = count[xmod[i]]-- - 1] = outi[i]; x[c] = outx[i]` (inclusive bases,
pre-decremented positions, input consumed from the back). -/
def distStepB (bucket wH wI : α → ℕ) (st : DistState) (e : α) : DistState :=
  let c := st.cnt (bucket e) - 1
  ⟨Function.update st.cnt (bucket e) c,
   Function.update st.outH c (wH e),
   Function.update st.outI c (wI e)⟩

/-- One stable redistribution pass as the parallel file writes them: scatter the
pairs of `h` and `i` by bucket into two output arrays initialized from `oH0`/`oI0`,
reading back `N` positions. -/
def distPass (N : ℕ) (dg : ℕ → ℕ) (cnt0 oH0 oI0 : ℕ → ℕ) (h i : List ℕ) :
    List ℕ × List ℕ :=
  let st := (h.zip i).foldl (distStep (fun p => dg p.1) (fun p => p.1) (fun p => p.2))
    ⟨cnt0, oH0, oI0⟩
  ((List.range N).map st.outH, (List.range N).map st.outI)

/-! ## `src/plugin/hash/gtools_sort.c` -/

/-- Modelled from the spec: `mf_max` (declared in a header not present in the sources)
computes the maximum of the key array, used as `max(H)` by the sort dispatcher. -/
def mf_max (x : List ℕ) : ℕ := x.foldl max 0

/-- Modelled from the spec: `mf_min` computes the minimum of the key array, used as
`min(H)` by the sort dispatcher. -/
def mf_min (x : List ℕ) : ℕ := x.foldl min (x.headD 0)

/-- `mf_counting_sort_index`: counting sort of `x` into the dense range `[mn, mx]`,
carrying `index` alongside.  The biased copy `xcopy[i] = x[i] + 1 - mn` is counted,
the histogram is turned into an inclusive prefix sum over `[1, range)`, and the
forward placement loop reads the running position at `xcopy[i] - 1`. -/
def mf_counting_sort_index (x index : List ℕ) (mn mx : ℕ) : List ℕ × List ℕ :=
  let N := x.length
  let range := mx - mn + 1
  let xcopy := x.map fun v => v + 1 - mn
  let icopy := index
  let count := incscan (histFold (fun v => v) xcopy fun _ => 0) range
  let st := (xcopy.zip icopy).foldl
    (distStep (fun p => p.1 - 1) (fun p => p.1 - 1 + mn) (fun p => p.2))
    ⟨count, (fun i => x.getD i 0), (fun i => index.getD i 0)⟩
  ((List.range N).map st.outH, (List.range N).map st.outI)

/-- `mf_radix_sort_index_pass`: one LSD pass of the radix sort, a counting sort on the
digit `xmod[i] = (x[i] / exp) % shift`.  The placement loop runs backward from
`i = N - 1` with pre-decremented inclusive bases. -/
def mf_radix_sort_index_pass (x index : List ℕ) (exp shift : ℕ) : List ℕ × List ℕ :=
  let N := x.length
  let xmod := x.map fun v => v / exp % shift
  let count := incscan (histFold (fun v => v) xmod fun _ => 0) shift
  let st := ((xmod.zip (x.zip index)).reverse).foldl
    (distStepB (fun t => t.1) (fun t => t.2.1) (fun t => t.2.2))
    ⟨count, (fun i => x.getD i 0), (fun i => index.getD i 0)⟩
  ((List.range N).map st.outH, (List.range N).map st.outI)

/-- The `do { pass } while ((max > (exp *= shift)) & (nloops++ < loops))` driver of
`mf_radix_sort_index`.  `rem = loops - nloops` counts the remaining allowed passes;
`exp` is a `uint64_t` and the update wraps modulo `2 ^ 64`. -/
def mf_radix_passes (shift maxv : ℕ) : ℕ → ℕ → List ℕ → List ℕ → List ℕ × List ℕ
  | rem, exp, x, index =>
    let p := mf_radix_sort_index_pass x index exp shift
    let exp2 := exp * shift % 2 ^ 64
    match rem with
    | 0 => p
    | r + 1 => if exp2 < maxv then mf_radix_passes shift maxv r exp2 p.1 p.2 else p

/-- Modelled from the spec: `RADIX_SHIFT` is defined in a header not present in the
sources; the spec's radix-sort section uses 16-bit digits. -/
def RADIX_SHIFT : ℕ := 16

/-- `mf_radix_sort_index`: the single-threaded sort entry point.  It overwrites
`index` with the identity permutation, then dispatches on
`range = max - min + 1`: counting sort below `2 ^ 24`, LSD radix passes otherwise.
In the `raw` case the C code computes `loops = log(max) / log(dshift)` with floating
logarithms; this is modelled by `Nat.log dshift maxv`. -/
def mf_radix_sort_index (x index : List ℕ) (dshift : ℕ) (raw : Bool) : List ℕ × List ℕ :=
  let N := x.length
  let maxv := mf_max x
  let minv := mf_min x
  let range := (maxv - minv + 1) % 2 ^ 64
  let ctol := 2 ^ 24
  let shift := if raw then dshift else 2 ^ dshift
  let loops := if raw then Nat.log dshift maxv else 64 / dshift - 1
  let index := List.range N
  if range < ctol then mf_counting_sort_index x index minv maxv
  else mf_radix_passes shift maxv loops 1 x index

/-- `mf_check_allequal`: whether `hash[start..endp)` is constant. -/
def mf_check_allequal (hash : List ℕ) (start endp : ℕ) : Bool :=
  let first := hash.getD start 0
  (List.range' (start + 1) (endp - (start + 1))).all fun i => hash.getD i 0 == first

/-- The loop body of `mf_panelsetup`: a `do/while` that reads `h1[i]` first and only
then tests `i < N`, so it dereferences `h1[1]` even when `N = 1`.  A `none` result
models that out-of-bounds read.  The fuel argument only bounds recursion; `fuel = N`
is always enough. -/
def mf_ps_loop (h1 : List ℕ) (N : ℕ) : ℕ → ℕ → ℕ → List ℕ → Option (List ℕ)
  | 0, _, _, _ => none
  | fuel + 1, i, el, info =>
    match h1.get? i with
    | none => none
    | some v =>
      let s := if v ≠ el then (info ++ [i], v) else (info, el)
      if i + 1 < N then mf_ps_loop h1 N fuel (i + 1) s.2 s.1
      else some s.1

/-- `mf_panelsetup`: walk the sorted 64-bit keys and emit the group-boundary array
`info` together with the group count `J`.  Reading `el = h1[0]` with `N = 0` is out
of bounds, modelled by `none`. -/
def mf_panelsetup (h1 : List ℕ) : Option (List ℕ × ℕ) :=
  let N := h1.length
  match h1.get? 0 with
  | none => none
  | some el =>
    match mf_ps_loop h1 N N 1 el [0] with
    | none => none
    | some info => some (info ++ [N], info.length)

/-- The intra-block refinement of `mf_panelsetup128`: extract `h2[start_l..i)`, sort it
with `mf_radix_sort_index` (the scratch index array is `calloc`d, hence zero), translate
the local permutation through `index[start_l..i)` and splice it back. -/
def mf_ps128_refine (h2 index : List ℕ) (start_l i : ℕ) : List ℕ :=
  let range_l := i - start_l
  let h2_l := (h2.drop start_l).take range_l
  let sorted := mf_radix_sort_index h2_l (List.replicate range_l 0) RADIX_SHIFT false
  let ix_c := sorted.2.map fun t => index.getD (t + start_l) 0
  index.take start_l ++ ix_c ++ index.drop i

/-- The loop body of `mf_panelsetup128`.  The `h2` all-equal check (and refinement)
runs only when a block boundary is declared, i.e. when a fresh `h1` value appears;
the block that is still open when the loop ends is never checked.  As in
`mf_ps_loop`, reads go through `List.get?` and `none` models going out of bounds. -/
def mf_ps128_loop (h1 h2 : List ℕ) (N : ℕ) :
    ℕ → ℕ → ℕ → List ℕ → List ℕ → ℕ → Option (List ℕ × List ℕ × ℕ)
  | 0, _, _, _, _, _ => none
  | fuel + 1, i, el, info, index, coll =>
    match h1.get? i with
    | none => none
    | some v =>
      if v ≠ el then
        let start_l := info.getLastD 0
        let s :=
          if mf_check_allequal h2 start_l i then (index, coll)
          else (mf_ps128_refine h2 index start_l i, coll + 1)
        let info2 := info ++ [i]
        if i + 1 < N then mf_ps128_loop h1 h2 N fuel (i + 1) v info2 s.1 s.2
        else some (info2, s.1, s.2)
      else if i + 1 < N then mf_ps128_loop h1 h2 N fuel (i + 1) el info index coll
      else some (info, index, coll)

/-- `mf_panelsetup128`: group boundaries over the first hash half, refining `index`
inside a block when the second half is not constant there.  Returns
`(info, J, index, collision64)`; the collision counter is the observability counter
printed by the C code. -/
def mf_panelsetup128 (h1 h2 index : List ℕ) : Option (List ℕ × ℕ × List ℕ × ℕ) :=
  let N := h1.length
  match h1.get? 0 with
  | none => none
  | some el =>
    match mf_ps128_loop h1 h2 N N 1 el [0] index 0 with
    | none => none
    | some s => some (s.1 ++ [N], s.1.length, s.2.1, s.2.2)

/-! ## `src/plugin/parallel/hash/gtools_sort.c` -/

/-- The four 65536-entry digit histograms of `gf_radix_sort16`. -/
structure radixCounts16 where
  c1 : ℕ → ℕ
  c2 : ℕ → ℕ
  c3 : ℕ → ℕ
  c4 : ℕ → ℕ

/-- One iteration of the single count-accumulation loop of `gf_radix_sort16`: all four
16-bit digits of `hash[i]` are extracted and their histograms bumped. -/
def gf16_countStep (c : radixCounts16) (h : ℕ) : radixCounts16 :=
  let byte4 := h % 65536
  let byte3 := h / 2 ^ 16 % 65536
  let byte2 := h / 2 ^ 32 % 65536
  let byte1 := h / 2 ^ 48 % 65536
  ⟨Function.update c.c1 byte1 (c.c1 byte1 + 1),
   Function.update c.c2 byte2 (c.c2 byte2 + 1),
   Function.update c.c3 byte3 (c.c3 byte3 + 1),
   Function.update c.c4 byte4 (c.c4 byte4 + 1)⟩

/-- State of the interleaved counts-to-offsets loop of `gf_radix_sort16`. -/
structure OffState16 where
  c : radixCounts16
  o1 : ℕ
  o2 : ℕ
  o3 : ℕ
  o4 : ℕ

/-- One iteration of the interleaved offsets conversion of `gf_radix_sort16`. -/
def gf16_offsetStep (s : OffState16) (i : ℕ) : OffState16 :=
  ⟨⟨Function.update s.c.c1 i s.o1, Function.update s.c.c2 i s.o2,
    Function.update s.c.c3 i s.o3, Function.update s.c.c4 i s.o4⟩,
   s.o1 + s.c.c1 i, s.o2 + s.c.c2 i, s.o3 + s.c.c3 i, s.o4 + s.c.c4 i⟩

/-- The count-and-offset phase of `gf_radix_sort16`: one scan fills the four 16-bit
digit histograms, then `size` iterations convert each histogram to running offsets
in place. -/
def gf16_counts (hash : List ℕ) : radixCounts16 :=
  ((List.range 65536).foldl gf16_offsetStep
    ⟨hash.foldl gf16_countStep ⟨(fun _ => 0), (fun _ => 0), (fun _ => 0), (fun _ => 0)⟩, 0, 0, 0, 0⟩).c

/-- `gf_radix_sort16`: stable LSD radix sort, 16 bits at a time, four redistribution
passes (`distPass`) alternating between the caller arrays and the scratch copies;
pass 4 writes into the zeroed scratch, pass 3 back over the caller arrays, and the
last two inherit the stale copies as initial output contents. -/
def gf_radix_sort16 (hash index : List ℕ) : List ℕ × List ℕ :=
  let N := hash.length
  let counts := gf16_counts hash
  let p4 := distPass N (fun w => w % 65536) counts.c4 (fun _ => 0) (fun _ => 0) hash index
  let p3 := distPass N (fun w => w / 2 ^ 16 % 65536) counts.c3 (fun i => hash.getD i 0)
    (fun i => index.getD i 0) p4.1 p4.2
  let p2 := distPass N (fun w => w / 2 ^ 32 % 65536) counts.c2 (fun i => p4.1.getD i 0)
    (fun i => p4.2.getD i 0) p3.1 p3.2
  let p1 := distPass N (fun w => w / 2 ^ 48 % 65536) counts.c1 (fun i => p3.1.getD i 0)
    (fun i => p3.2.getD i 0) p2.1 p2.2
  p1

/-- The eight 256-entry digit histograms of `gf_radix_sort8` (a stack struct zeroed
with `memset`). -/
structure radixCounts8 where
  c1 : ℕ → ℕ
  c2 : ℕ → ℕ
  c3 : ℕ → ℕ
  c4 : ℕ → ℕ
  c5 : ℕ → ℕ
  c6 : ℕ → ℕ
  c7 : ℕ → ℕ
  c8 : ℕ → ℕ

/-- One iteration of the count loop of `gf_radix_sort8`: all eight bytes extracted. -/
def gf8_countStep (c : radixCounts8) (h : ℕ) : radixCounts8 :=
  let byte8 := h % 256
  let byte7 := h / 2 ^ 8 % 256
  let byte6 := h / 2 ^ 16 % 256
  let byte5 := h / 2 ^ 24 % 256
  let byte4 := h / 2 ^ 32 % 256
  let byte3 := h / 2 ^ 40 % 256
  let byte2 := h / 2 ^ 48 % 256
  let byte1 := h / 2 ^ 56 % 256
  ⟨Function.update c.c1 byte1 (c.c1 byte1 + 1),
   Function.update c.c2 byte2 (c.c2 byte2 + 1),
   Function.update c.c3 byte3 (c.c3 byte3 + 1),
   Function.update c.c4 byte4 (c.c4 byte4 + 1),
   Function.update c.c5 byte5 (c.c5 byte5 + 1),
   Function.update c.c6 byte6 (c.c6 byte6 + 1),
   Function.update c.c7 byte7 (c.c7 byte7 + 1),
   Function.update c.c8 byte8 (c.c8 byte8 + 1)⟩

/-- State of the interleaved counts-to-offsets loop of `gf_radix_sort8`. -/
structure OffState8 where
  c : radixCounts8
  o1 : ℕ
  o2 : ℕ
  o3 : ℕ
  o4 : ℕ
  o5 : ℕ
  o6 : ℕ
  o7 : ℕ
  o8 : ℕ

/-- One iteration of the interleaved offsets conversion of `gf_radix_sort8`. -/
def gf8_offsetStep (s : OffState8) (i : ℕ) : OffState8 :=
  ⟨⟨Function.update s.c.c1 i s.o1, Function.update s.c.c2 i s.o2,
    Function.update s.c.c3 i s.o3, Function.update s.c.c4 i s.o4,
    Function.update s.c.c5 i s.o5, Function.update s.c.c6 i s.o6,
    Function.update s.c.c7 i s.o7, Function.update s.c.c8 i s.o8⟩,
   s.o1 + s.c.c1 i, s.o2 + s.c.c2 i, s.o3 + s.c.c3 i, s.o4 + s.c.c4 i,
   s.o5 + s.c.c5 i, s.o6 + s.c.c6 i, s.o7 + s.c.c7 i, s.o8 + s.c.c8 i⟩

/-- The count-and-offset phase of `gf_radix_sort8`: one scan fills the eight 8-bit
digit histograms, then 256 iterations convert each to running offsets in place. -/
def gf8_counts (hash : List ℕ) : radixCounts8 :=
  ((List.range 256).foldl gf8_offsetStep
    ⟨hash.foldl gf8_countStep ⟨(fun _ => 0), (fun _ => 0), (fun _ => 0), (fun _ => 0),
      (fun _ => 0), (fun _ => 0), (fun _ => 0), (fun _ => 0)⟩, 0, 0, 0, 0, 0, 0, 0, 0⟩).c

/-- `gf_radix_sort8`: stable LSD radix sort, 8 bits at a time, eight redistribution
passes alternating between the caller arrays and the scratch copies. -/
def gf_radix_sort8 (hash index : List ℕ) : List ℕ × List ℕ :=
  let N := hash.length
  let counts := gf8_counts hash
  let p8 := distPass N (fun w => w % 256) counts.c8 (fun _ => 0) (fun _ => 0) hash index
  let p7 := distPass N (fun w => w / 2 ^ 8 % 256) counts.c7 (fun i => hash.getD i 0)
    (fun i => index.getD i 0) p8.1 p8.2
  let p6 := distPass N (fun w => w / 2 ^ 16 % 256) counts.c6 (fun i => p8.1.getD i 0)
    (fun i => p8.2.getD i 0) p7.1 p7.2
  let p5 := distPass N (fun w => w / 2 ^ 24 % 256) counts.c5 (fun i => p7.1.getD i 0)
    (fun i => p7.2.getD i 0) p6.1 p6.2
  let p4 := distPass N (fun w => w / 2 ^ 32 % 256) counts.c4 (fun i => p6.1.getD i 0)
    (fun i => p6.2.getD i 0) p5.1 p5.2
  let p3 := distPass N (fun w => w / 2 ^ 40 % 256) counts.c3 (fun i => p5.1.getD i 0)
    (fun i => p5.2.getD i 0) p4.1 p4.2
  let p2 := distPass N (fun w => w / 2 ^ 48 % 256) counts.c2 (fun i => p4.1.getD i 0)
    (fun i => p4.2.getD i 0) p3.1 p3.2
  let p1 := distPass N (fun w => w / 2 ^ 56 % 256) counts.c1 (fun i => p3.1.getD i 0)
    (fun i => p3.2.getD i 0) p2.1 p2.2
  p1

/-- `gf_radix_counts16`: the worker-thread body of the parallel count phase.  Thread
`t` owns digit position `t`, scans all of `hash` into its private histogram, then
converts it to running offsets.  The four workers touch disjoint buffers and join
before any redistribution, so running them sequentially is a faithful model. -/
def gf_radix_counts16 (hash : List ℕ) (thread : ℕ) : ℕ → ℕ :=
  let bits := 16 * thread
  (exscan1 (histFold (fun h => if bits = 0 then h % 65536 else h / 2 ^ bits % 65536)
    hash (fun _ => 0)) 65536).1

/-- `gf_radix_psort16`: identical redistribution passes to `gf_radix_sort16`, but the
four offset tables are produced by the four parallel workers. -/
def gf_radix_psort16 (hash index : List ℕ) : List ℕ × List ℕ :=
  let N := hash.length
  let pcounts4 := gf_radix_counts16 hash 0
  let pcounts3 := gf_radix_counts16 hash 1
  let pcounts2 := gf_radix_counts16 hash 2
  let pcounts1 := gf_radix_counts16 hash 3
  let p4 := distPass N (fun w => w % 65536) pcounts4 (fun _ => 0) (fun _ => 0) hash index
  let p3 := distPass N (fun w => w / 2 ^ 16 % 65536) pcounts3 (fun i => hash.getD i 0)
    (fun i => index.getD i 0) p4.1 p4.2
  let p2 := distPass N (fun w => w / 2 ^ 32 % 65536) pcounts2 (fun i => p4.1.getD i 0)
    (fun i => p4.2.getD i 0) p3.1 p3.2
  let p1 := distPass N (fun w => w / 2 ^ 48 % 65536) pcounts1 (fun i => p3.1.getD i 0)
    (fun i => p3.2.getD i 0) p2.1 p2.2
  p1

/-- `gf_counting_sort` in the parallel file is line-for-line the same routine as
`mf_counting_sort_index` (only the integer typedefs differ). -/
def gf_counting_sort (hash index : List ℕ) (mn mx : ℕ) : List ℕ × List ℕ :=
  mf_counting_sort_index hash index mn mx

/-- `gf_sort_hash`: the dispatcher of the parallel file.  Below `2 ^ 24` of range it
counting-sorts; otherwise it copies `hash, index` to private heap buffers, runs
`gf_radix_psort16` on the copies (for timing), and then runs the single-threaded
`gf_radix_sort16` on the caller's arrays, which is what the caller observes. -/
def gf_sort_hash (hash index : List ℕ) : List ℕ × List ℕ :=
  let minv := mf_min hash
  let maxv := mf_max hash
  let range := (maxv - minv + 1) % 2 ^ 64
  let ctol := 2 ^ 24
  if range < ctol then gf_counting_sort hash index minv maxv
  else
    let copy_hash := hash
    let copy_index := index
    let pres := gf_radix_psort16 copy_hash copy_index
    gf_radix_sort16 hash index

/-! ## `src/plugin/tools/gtools_math.c` -/

/-- `mf_array_dsum_range`: straight accumulation of `v[start..endp)`. -/
def mf_array_dsum_range (v : List ℚ) (start endp : ℕ) : ℚ :=
  (List.range' start (endp - start)).foldl (fun s i => s + v.getD i 0) 0

/-- `mf_array_dmean_range`: `sum / (end - start)`. -/
def mf_array_dmean_range (v : List ℚ) (start endp : ℕ) : ℚ :=
  mf_array_dsum_range v start endp / ((endp - start : ℕ) : ℚ)

/-- `mf_array_dsd_range`: two-pass standard deviation,
`sqrt(Σ (v[i] - mean)² / (end - start - 1))`, with C `sqrt` modelled by `Rat.sqrt`. -/
def mf_array_dsd_range (v : List ℚ) (start endp : ℕ) : ℚ :=
  let vmean := mf_array_dmean_range v start endp
  let vvar := (List.range' start (endp - start)).foldl
    (fun s i => s + (v.getD i 0 - vmean) * (v.getD i 0 - vmean)) 0
  Rat.sqrt (vvar / ((endp - start - 1 : ℕ) : ℚ))

/-- `mf_array_dmin_range`: linear minimum initialized from `v[start]`. -/
def mf_array_dmin_range (v : List ℚ) (start endp : ℕ) : ℚ :=
  (List.range' (start + 1) (endp - (start + 1))).foldl
    (fun m i => if m > v.getD i 0 then v.getD i 0 else m) (v.getD start 0)

/-- `mf_array_dmax_range`: linear maximum initialized from `v[start]`. -/
def mf_array_dmax_range (v : List ℚ) (start endp : ℕ) : ℚ :=
  (List.range' (start + 1) (endp - (start + 1))).foldl
    (fun m i => if m < v.getD i 0 then v.getD i 0 else m) (v.getD start 0)

/-- Insertion step for the order-statistic model of `qselect.c`. -/
def qinsert (a : ℚ) : List ℚ → List ℚ
  | [] => [a]
  | b :: t => if b ≤ a then b :: qinsert a t else a :: b :: t

/-- Sorted copy of a rational list (insertion sort), used to read off order
statistics. -/
def qsortQ : List ℚ → List ℚ
  | [] => []
  | a :: t => qinsert a (qsortQ t)

/-- Modelled from the spec: `mf_qselect_range` lives in `qselect.c`, which is not
among the sources.  Per the spec it places the `k`-th order statistic of
`v[left..right)` at position `k` by in-place partition selection and returns it; the
returned value is the `k`-th smallest element of the slice, and since the routine
only permutes within the slice, a later call on the permuted slice returns the same
order statistic.  It is therefore modelled as reading position `k` of a sorted copy
of the slice. -/
def mf_qselect_range (v : List ℚ) (left right k : ℕ) : ℚ :=
  (qsortQ ((v.drop left).take (right - left))).getD k 0

/-- `mf_array_dquantile_range`: `qth = floor(quantile * N / 100)` (a `size_t`, modelled
with `Int.toNat`); special cases for `N = 1`, `N = 2` and `qth = 0`; otherwise select
the `qth` order statistic (the maximum when `qth = N - 1`), and average it with the
`(qth - 1)`-th whenever `quantile * N / 100` is an exact integer. -/
def mf_array_dquantile_range (v : List ℚ) (start endp : ℕ) (quantile : ℚ) : ℚ :=
  let N := endp - start
  let qth : ℕ := (⌊quantile * (N : ℚ) / 100⌋).toNat
  if N = 1 then v.getD start 0
  else if N = 2 then
    if 50 < quantile then
      if v.getD start 0 > v.getD (endp - 1) 0 then v.getD start 0 else v.getD (endp - 1) 0
    else if quantile < 50 then
      if v.getD start 0 > v.getD (endp - 1) 0 then v.getD (endp - 1) 0 else v.getD start 0
    else (v.getD start 0 + v.getD (endp - 1) 0) / 2
  else if qth = 0 then mf_array_dmin_range v start endp
  else
    let left := start
    let right := endp
    let dmax := qth = N - 1
    let q := if dmax then mf_array_dmax_range v left right else mf_qselect_range v left right qth
    if (qth : ℚ) = quantile * (N : ℚ) / 100 then
      (q + mf_qselect_range v left right (qth - 1)) / 2
    else q

/-- `mf_array_dmedian_range`: `quantile(50)`. -/
def mf_array_dmedian_range (v : List ℚ) (start endp : ℕ) : ℚ :=
  mf_array_dquantile_range v start endp 50

/-- `mf_array_diqr_range`: `quantile(75) - quantile(25)`. -/
def mf_array_diqr_range (v : List ℚ) (start endp : ℕ) : ℚ :=
  mf_array_dquantile_range v start endp 75 - mf_array_dquantile_range v start endp 25

/-- Digit value of a character, used to model C `atof` on the integer percentile
strings the claims need. -/
def digitVal (c : Char) : ℕ :=
  if c = '0' then 0 else if c = '1' then 1 else if c = '2' then 2 else if c = '3' then 3
  else if c = '4' then 4 else if c = '5' then 5 else if c = '6' then 6 else if c = '7' then 7
  else if c = '8' then 8 else if c = '9' then 9 else 0

/-- Modelled from the spec: C `atof` (libc).  A literal numeric string parses to its
value (integer percentile strings suffice for the claims); anything else yields 0. -/
def atofQ (s : String) : ℚ := ((s.data.foldl (fun a c => a * 10 + digitVal c) 0 : ℕ) : ℚ)

/-- `mf_code_fun`: name-to-code mapping.  Named reducers get small negative codes,
`median` is coded 50, and a bare numeric string is passed through when positive. -/
def mf_code_fun (fname : String) : ℚ :=
  if fname = "sum" then -1
  else if fname = "mean" then -2
  else if fname = "sd" then -3
  else if fname = "max" then -4
  else if fname = "min" then -5
  else if fname = "count" then -6
  else if fname = "percent" then -7
  else if fname = "median" then 50
  else if fname = "iqr" then -9
  else if fname = "first" then -10
  else if fname = "firstnm" then -11
  else if fname = "last" then -12
  else if fname = "lastnm" then -13
  else
    let q := atofQ fname
    if 0 < q then q else 0

/-- `mf_switch_fun_code`: code-to-reducer dispatch.  Only codes −1…−5 and −9 have
cases; every other code (including −6, −7, −10…−13) falls through to the quantile
routine with the code as the percentile. -/
def mf_switch_fun_code (fcode : ℚ) (v : List ℚ) (start endp : ℕ) : ℚ :=
  if fcode = -1 then mf_array_dsum_range v start endp
  else if fcode = -2 then mf_array_dmean_range v start endp
  else if fcode = -3 then mf_array_dsd_range v start endp
  else if fcode = -4 then mf_array_dmax_range v start endp
  else if fcode = -5 then mf_array_dmin_range v start endp
  else if fcode = -9 then mf_array_diqr_range v start endp
  else mf_array_dquantile_range v start endp fcode

/-! ## Allocation-failure models -/

/-- Outcome of a sort routine under an allocation oracle: a clean result, an
out-of-memory return with the caller arrays as the routine left them, or a crash
(dereference of a `NULL` pointer that was never checked). -/
inductive AllocOutcome where
  | ok : List ℕ → List ℕ → AllocOutcome
  | oom : ℕ → List ℕ → List ℕ → AllocOutcome
  | crash : AllocOutcome
deriving DecidableEq

/-- Modelled from the spec: `sf_oom_error` (host error callback, not in the sources)
signals allocation failure with a nonzero return code. -/
def sf_oom_error_rc : ℕ := 1

/-- `mf_counting_sort_index` under an allocation oracle: `xcopy`, `icopy`, `count` are
allocated and checked, in that order, before any write to the caller's arrays. -/
def mf_counting_sort_index_alloc (axcopy aicopy acount : Bool) (x index : List ℕ)
    (mn mx : ℕ) : AllocOutcome :=
  if axcopy = false then .oom sf_oom_error_rc x index
  else if aicopy = false then .oom sf_oom_error_rc x index
  else if acount = false then .oom sf_oom_error_rc x index
  else
    let r := mf_counting_sort_index x index mn mx
    .ok r.1 r.2

/-- `mf_radix_sort_index_pass` under an allocation oracle: `xmod`, `outx`, `outi` are
allocated and checked before any write to the caller's arrays (the digit histogram
itself is a stack array, not a heap allocation). -/
def mf_radix_sort_index_pass_alloc (axmod aoutx aouti : Bool) (x index : List ℕ)
    (exp shift : ℕ) : AllocOutcome :=
  if axmod = false then .oom sf_oom_error_rc x index
  else if aoutx = false then .oom sf_oom_error_rc x index
  else if aouti = false then .oom sf_oom_error_rc x index
  else
    let r := mf_radix_sort_index_pass x index exp shift
    .ok r.1 r.2

/-- `gf_radix_sort16` under an allocation oracle.  Only `hcopy` and `ixcopy` are
checked; the histogram struct (`malloc`) and its four `calloc`d tables are
dereferenced without any check, so their failure is a crash, not an error return. -/
def gf_radix_sort16_alloc (ahcopy aixcopy acounts ac4 ac3 ac2 ac1 : Bool)
    (hash index : List ℕ) : AllocOutcome :=
  if ahcopy = false then .oom sf_oom_error_rc hash index
  else if aixcopy = false then .oom sf_oom_error_rc hash index
  else if (acounts && ac4 && ac3 && ac2 && ac1) = false then .crash
  else
    let r := gf_radix_sort16 hash index
    .ok r.1 r.2

/-- A pair of original row ids `(i, j)` appears in stable order in the index list
`I`: some position holding `i` precedes some position holding `j`. -/
def stable_pair (I : List ℕ) (i j : ℕ) : Prop :=
  ∃ pa pb : Fin I.length, pa.1 < pb.1 ∧ I.get pa = i ∧ I.get pb = j

/-! ## Properties of the reference stable sort -/

theorem sinsert_perm (f : α → ℕ) (a : α) (l : List α) :
    List.Perm (sinsert f a l) (a :: l) := by
  induction l with
  | nil => simp [sinsert]
  | cons b t ih =>
    by_cases h : f b < f a
    · simpa [sinsert, h] using ((ih.cons b).trans (List.Perm.swap a b t))
    · simp [sinsert, h]

theorem istab_perm (f : α → ℕ) (l : List α) : List.Perm (istab f l) l := by
  induction l with
  | nil => simp [istab]
  | cons a t ih => exact (sinsert_perm f a (istab f t)).trans (ih.cons a)

theorem istab_length (f : α → ℕ) (l : List α) : (istab f l).length = l.length :=
  (istab_perm f l).length_eq

theorem istab_mem (f : α → ℕ) (l : List α) (e : α) : e ∈ istab f l ↔ e ∈ l :=
  (istab_perm f l).mem_iff

theorem sinsert_pairwise (f : α → ℕ) (a : α) (l : List α)
    (h : List.Pairwise (fun x y => f x ≤ f y) l) :
    List.Pairwise (fun x y => f x ≤ f y) (sinsert f a l) := by
  induction l with
  | nil => simp [sinsert]
  | cons b t ih =>
    rcases List.pairwise_cons.1 h with ⟨hb, ht⟩
    by_cases hba : f b < f a
    · rw [sinsert, if_pos hba]
      refine List.pairwise_cons.2 ⟨?_, ih ht⟩
      intro e he
      rcases List.mem_cons.1 ((sinsert_perm f a t).mem_iff.1 he) with h1 | h2
      · exact h1 ▸ le_of_lt hba
      · exact hb e h2
    · rw [sinsert, if_neg hba]
      refine List.pairwise_cons.2 ⟨?_, h⟩
      intro e he
      rcases List.mem_cons.1 he with h1 | h2
      · exact h1 ▸ le_of_not_lt hba
      · exact le_trans (le_of_not_lt hba) (hb e h2)

theorem istab_pairwise (f : α → ℕ) (l : List α) :
    List.Pairwise (fun x y => f x ≤ f y) (istab f l) := by
  induction l with
  | nil => simp [istab]
  | cons a t ih => exact sinsert_pairwise f a (istab f t) ih

theorem sinsert_filter_eq (f : α → ℕ) (a : α) (l : List α) (k : ℕ) (hk : f a = k) :
    (sinsert f a l).filter (fun e => f e == k) = a :: l.filter (fun e => f e == k) := by
  induction l with
  | nil => simp [sinsert, hk]
  | cons b t ih =>
    by_cases hba : f b < f a
    · have hbk : ¬ (f b = k) := by omega
      rw [sinsert, if_pos hba]
      simp only [List.filter_cons]
      rw [if_neg (by simpa using hbk), if_neg (by simpa using hbk)] at *
      exact ih
    · rw [sinsert, if_neg hba]
      simp [List.filter_cons, hk]

theorem sinsert_filter_ne (f : α → ℕ) (a : α) (l : List α) (k : ℕ) (hk : ¬ f a = k) :
    (sinsert f a l).filter (fun e => f e == k) = l.filter (fun e => f e == k) := by
  induction l with
  | nil => simp [sinsert, hk]
  | cons b t ih =>
    by_cases hba : f b < f a
    · rw [sinsert, if_pos hba]
      simp only [List.filter_cons]
      by_cases hbk : f b = k <;> simp [hbk, ih]
    · rw [sinsert, if_neg hba]
      simp [List.filter_cons, hk]

theorem istab_filter (f : α → ℕ) (l : List α) (k : ℕ) :
    (istab f l).filter (fun e => f e == k) = l.filter (fun e => f e == k) := by
  induction l with
  | nil => simp [istab]
  | cons a t ih =>
    by_cases hk : f a = k
    · rw [istab, sinsert_filter_eq f a _ k hk, ih, List.filter_cons, if_pos (by simpa using hk)]
    · rw [istab, sinsert_filter_ne f a _ k hk, ih, List.filter_cons, if_neg (by simpa using hk)]

/-- A sorted list is determined by its family of equal-key fibers: stable sorts are
unique. -/
theorem stable_unique (f : α → ℕ) : ∀ (l1 l2 : List α),
    List.Pairwise (fun x y => f x ≤ f y) l1 →
    List.Pairwise (fun x y => f x ≤ f y) l2 →
    (∀ k, l1.filter (fun e => f e == k) = l2.filter (fun e => f e == k)) →
    l1 = l2 := by
  intro l1
  induction l1 with
  | nil =>
    intro l2 _ _ hfil
    cases l2 with
    | nil => rfl
    | cons b t2 =>
      exfalso
      have := hfil (f b)
      simp [List.filter_cons] at this
  | cons a t1 ih =>
    intro l2 h1 h2 hfil
    cases l2 with
    | nil =>
      exfalso
      have := hfil (f a)
      simp [List.filter_cons] at this
    | cons b t2 =>
      have hab : f a = f b := by
        by_contra hne
        have hba1 : f b ≤ f a := by
          have := hfil (f a)
          rw [List.filter_cons, List.filter_cons] at this
          rw [if_pos (by simp), if_neg (by simpa using (Ne.symm hne))] at this
          have ha2 : a ∈ t2.filter (fun e => f e == f a) := this ▸ List.mem_cons_self a _
          have := (List.pairwise_cons.1 h2).1 a (List.mem_of_mem_filter ha2)
          exact this
        have hab1 : f a ≤ f b := by
          have := hfil (f b)
          rw [List.filter_cons, List.filter_cons] at this
          rw [if_neg (by simpa using hne), if_pos (by simp)] at this
          have hb2 : b ∈ t1.filter (fun e => f e == f b) := by
            rw [this]; exact List.mem_cons_self b _
          exact (List.pairwise_cons.1 h1).1 b (List.mem_of_mem_filter hb2)
        omega
      have haeq : a = b ∧ t1.filter (fun e => f e == f a) = t2.filter (fun e => f e == f a) := by
        have := hfil (f a)
        rw [List.filter_cons, List.filter_cons] at this
        rw [if_pos (by simp), if_pos (by simpa using hab.symm)] at this
        exact ⟨List.head_eq_of_cons_eq this, List.tail_eq_of_cons_eq this⟩
      refine congrArg₂ (· :: ·) haeq.1 (ih t2 (List.pairwise_cons.1 h1).2 (List.pairwise_cons.1 h2).2 ?_)
      intro k
      by_cases hk : f a = k
      · exact hk ▸ haeq.2
      · have := hfil k
        rw [List.filter_cons, List.filter_cons] at this
        rw [if_neg (by simpa using hk), if_neg (by simpa [← hab] using hk)] at this
        exact this

theorem sinsert_congr (f g : α → ℕ) (a : α) (l : List α) (ha : f a = g a)
    (hl : ∀ e ∈ l, f e = g e) : sinsert f a l = sinsert g a l := by
  induction l with
  | nil => simp [sinsert]
  | cons b t ih =>
    have hb : f b = g b := hl b (List.mem_cons_self b t)
    by_cases hba : f b < f a
    · rw [sinsert, if_pos hba, sinsert, if_pos (by omega),
        ih (fun e he => hl e (List.mem_cons_of_mem b he))]
    · rw [sinsert, if_neg hba, sinsert, if_neg (by omega)]

theorem istab_congr (f g : α → ℕ) (l : List α) (h : ∀ e ∈ l, f e = g e) :
    istab f l = istab g l := by
  induction l with
  | nil => simp [istab]
  | cons a t ih =>
    have ht : ∀ e ∈ t, f e = g e := fun e he => h e (List.mem_cons_of_mem a he)
    rw [istab, istab, ih ht]
    exact sinsert_congr f g a _ (h a (List.mem_cons_self a t))
      (fun e he => ht e ((istab_mem g t e).1 he))

/-- Two positions of a list that both satisfy a predicate inherit the pairwise
relation of the filtered list. -/
theorem filter_pairwise_get (R : α → α → Prop) (p : α → Bool) :
    ∀ (l : List α), List.Pairwise R (l.filter p) →
      ∀ (i j : ℕ) (hi : i < l.length) (hj : j < l.length), i < j →
        p (l.get ⟨i, hi⟩) → p (l.get ⟨j, hj⟩) → R (l.get ⟨i, hi⟩) (l.get ⟨j, hj⟩) := by
  intro l
  induction l with
  | nil => intro _ i j hi hj hij hpi hpj; simp at hi
  | cons a t ih =>
    intro hpw i j hi hj hij hpi hpj
    have hpwt : List.Pairwise R (t.filter p) := by
      by_cases hpa : p a
      · rw [List.filter_cons, if_pos hpa] at hpw
        exact (List.pairwise_cons.1 hpw).2
      · rwa [List.filter_cons, if_neg hpa] at hpw
    cases i with
    | zero =>
      have hpa : p a := hpi
      rw [List.filter_cons, if_pos hpa] at hpw
      cases j with
      | zero => omega
      | succ j0 =>
        have hj' : j0 < t.length := by simp at hj; omega
        have hget : (a :: t).get ⟨j0 + 1, hj⟩ = t.get ⟨j0, hj'⟩ := by simp
        rw [hget]
        refine (List.pairwise_cons.1 hpw).1 _ (List.mem_filter.2 ⟨List.get_mem t j0 hj', ?_⟩)
        rw [← hget]; exact hpj
    | succ i0 =>
      cases j with
      | zero => omega
      | succ j0 =>
        have hi' : i0 < t.length := by simp at hi; omega
        have hj' : j0 < t.length := by simp at hj; omega
        simpa using ih hpwt i0 j0 hi' hj' (by omega) (by simpa using hpi) (by simpa using hpj)

/-- Key decomposition: with `h e < E`, the combined key `g e * E + h e` equals `k`
exactly when `g e` and `h e` are the digits of `k`. -/
theorem combined_key_eq (g h : α → ℕ) (E : ℕ) (hEpos : 0 < E) (hh : ∀ e : α, h e < E)
    (k : ℕ) (e : α) :
    ((g e * E + h e == k) : Bool) = ((g e == k / E) && (h e == k % E)) := by
  by_cases he : g e * E + h e = k
  · have h1 : k / E = g e := by
      rw [← he, Nat.mul_comm (g e) E, Nat.mul_add_div hEpos, Nat.div_eq_of_lt (hh e),
        Nat.add_zero]
    have h2 : k % E = h e := by
      rw [← he, Nat.mul_comm (g e) E, Nat.mul_add_mod, Nat.mod_eq_of_lt (hh e)]
    simp [he, h1, h2]
  · have hne : ¬ (g e = k / E ∧ h e = k % E) := by
      rintro ⟨h1, h2⟩
      exact he (by rw [h1, h2]; exact Nat.div_add_mod' k E)
    have hfalse : (g e == k / E && h e == k % E) = false := by
      rcases Decidable.not_and_iff_or_not.1 hne with h1 | h1 <;> simp [h1]
    simp [he, hfalse]

/-- Composition law for stable sorting: a stable sort by a high digit after a stable
sort by the low part is the stable sort by the combined key. -/
theorem istab_comp (g h : α → ℕ) (E : ℕ) (l : List α) (hh : ∀ e : α, h e < E) :
    istab g (istab h l) = istab (fun e => g e * E + h e) l := by
  cases hl : l with
  | nil => simp [istab]
  | cons a0 t0 =>
    have hE : 0 < E := lt_of_le_of_lt (Nat.zero_le _) (hh a0)
    rw [← hl]
    set mid := istab h l with hmid
    set lhs := istab g mid with hlhs
    have hsorted : List.Pairwise (fun x y => g x * E + h x ≤ g y * E + h y) lhs := by
      rw [List.pairwise_iff_get]
      intro i j hij
      have hg : g (lhs.get i) ≤ g (lhs.get j) := by
        have := istab_pairwise g mid
        rw [← hlhs, List.pairwise_iff_get] at this
        exact this i j hij
      rcases Nat.lt_or_ge (g (lhs.get i)) (g (lhs.get j)) with hlt | hge
      · have hmul : g (lhs.get i) * E + E ≤ g (lhs.get j) * E := by
          calc g (lhs.get i) * E + E = (g (lhs.get i) + 1) * E := by ring
          _ ≤ g (lhs.get j) * E := Nat.mul_le_mul_right E hlt
        have := hh (lhs.get i)
        omega
      · have hgeq : g (lhs.get i) = g (lhs.get j) := le_antisymm hg hge
        have hfil2 : lhs.filter (fun e => g e == g (lhs.get i)) =
            mid.filter (fun e => g e == g (lhs.get i)) := istab_filter g mid _
        have hpw : List.Pairwise (fun x y => h x ≤ h y)
            (lhs.filter (fun e => g e == g (lhs.get i))) := by
          rw [hfil2]
          exact (istab_pairwise h l).filter _
        have hle : h (lhs.get i) ≤ h (lhs.get j) :=
          filter_pairwise_get (fun x y => h x ≤ h y) (fun e => g e == g (lhs.get i)) lhs hpw
            i.1 j.1 i.2 j.2 hij (by simp) (by simpa using hgeq.symm)
        rw [hgeq]
        exact Nat.add_le_add_left hle _
    refine stable_unique (fun e => g e * E + h e) lhs (istab (fun e => g e * E + h e) l)
      hsorted (istab_pairwise _ l) ?_
    intro k
    rw [istab_filter (fun e => g e * E + h e) l k]
    have hkeyfun : ∀ (m : List α), m.filter (fun e => g e * E + h e == k) =
        (m.filter (fun e => g e == k / E)).filter (fun e => h e == k % E) := by
      intro m
      rw [List.filter_filter]
      exact List.filter_congr
        (fun e _ => (combined_key_eq g h E hE hh k e).trans (Bool.and_comm _ _))
    have hswap : ∀ (m : List α),
        (m.filter (fun e => g e == k / E)).filter (fun e => h e == k % E) =
        (m.filter (fun e => h e == k % E)).filter (fun e => g e == k / E) := by
      intro m
      rw [List.filter_filter, List.filter_filter]
      exact List.filter_congr (fun e _ => Bool.and_comm _ _)
    calc lhs.filter (fun e => g e * E + h e == k)
        = (lhs.filter (fun e => g e == k / E)).filter (fun e => h e == k % E) := hkeyfun lhs
      _ = (mid.filter (fun e => g e == k / E)).filter (fun e => h e == k % E) := by
          rw [hlhs, istab_filter g mid]
      _ = (mid.filter (fun e => h e == k % E)).filter (fun e => g e == k / E) := hswap mid
      _ = (l.filter (fun e => h e == k % E)).filter (fun e => g e == k / E) := by
          rw [hmid, istab_filter h l]
      _ = (l.filter (fun e => g e == k / E)).filter (fun e => h e == k % E) := (hswap l).symm
      _ = l.filter (fun e => g e * E + h e == k) := (hkeyfun l).symm

/-! ## Histogram and prefix-scan lemmas -/

theorem ebase_congr (c c' : ℕ → ℕ) (d : ℕ) (h : ∀ w, w < d → c w = c' w) :
    ebase c d = ebase c' d := by
  induction d with
  | zero => rfl
  | succ d ih =>
    rw [ebase, ebase, ih (fun w hw => h w (by omega)), h d (by omega)]

theorem ebase_mono (c : ℕ → ℕ) {d1 d2 : ℕ} (h : d1 ≤ d2) : ebase c d1 ≤ ebase c d2 := by
  induction d2 with
  | zero => simp at h; simp [h]
  | succ d ih =>
    rcases Nat.lt_or_ge d1 (d + 1) with hlt | hge
    · exact le_trans (ih (by omega)) (by rw [ebase]; omega)
    · have : d1 = d + 1 := by omega
      simp [this]

theorem ebase_shift (c : ℕ → ℕ) (d : ℕ) :
    c 0 + ebase (fun w => c (w + 1)) d = ebase c (d + 1) := by
  induction d with
  | zero => simp [ebase]
  | succ d ih => rw [ebase, ebase, ← Nat.add_assoc, ih]

theorem histFold_spec (key : α → ℕ) (l : List α) (c0 : ℕ → ℕ) (v : ℕ) :
    histFold key l c0 v = c0 v + l.countP (fun e => key e == v) := by
  induction l generalizing c0 with
  | nil => simp [histFold]
  | cons a t ih =>
    rw [histFold, List.foldl_cons, ← histFold]
    rw [ih, List.countP_cons]
    by_cases hv : key a = v
    · rw [hv, Function.update_same]
      simp
      omega
    · rw [Function.update_noteq (Ne.symm hv)]
      simp [hv]

theorem exscan1_spec (c0 : ℕ → ℕ) (size : ℕ) :
    (∀ v, (exscan1 c0 size).1 v = if v < size then ebase c0 v else c0 v) ∧
    (exscan1 c0 size).2 = ebase c0 size := by
  induction size with
  | zero => simp [exscan1, ebase]
  | succ size ih =>
    have hstep : exscan1 c0 (size + 1) =
        (Function.update (exscan1 c0 size).1 size (exscan1 c0 size).2,
         (exscan1 c0 size).2 + (exscan1 c0 size).1 size) := by
      rw [exscan1, List.range_succ, List.foldl_append, List.foldl_cons, List.foldl_nil,
        ← exscan1]
    constructor
    · intro v
      rw [hstep]
      by_cases hv : v = size
      · subst hv
        simp [Function.update_same, ih.2, if_pos (Nat.lt_succ_self v)]
      · simp only [Function.update_noteq (by exact hv)]
        rw [ih.1 v]
        by_cases hlt : v < size
        · rw [if_pos hlt, if_pos (by omega)]
        · rw [if_neg hlt, if_neg (by omega)]
    · rw [hstep]
      simp only []
      rw [ih.2, ih.1 size, if_neg (by omega), ebase]

theorem incscan_aux (c0 : ℕ → ℕ) (m : ℕ) : ∀ (v : ℕ),
    (List.range' 1 m).foldl (fun c i => Function.update c i (c i + c (i - 1))) c0 v =
    if v ≤ m then ebase c0 (v + 1) else c0 v := by
  induction m with
  | zero =>
    intro v
    simp only [List.range', List.foldl_nil]
    by_cases hv : v ≤ 0
    · have : v = 0 := by omega
      subst this
      simp [ebase]
    · rw [if_neg hv]
  | succ m ih =>
    intro v
    have hconcat : List.range' 1 (m + 1) = List.range' 1 m ++ [m + 1] := by
      rw [List.range'_concat]
      simp [Nat.add_comm]
    rw [hconcat, List.foldl_append, List.foldl_cons, List.foldl_nil]
    set prev := (List.range' 1 m).foldl (fun c i => Function.update c i (c i + c (i - 1))) c0
      with hprev
    by_cases hv : v = m + 1
    · subst hv
      rw [Function.update_same, Nat.add_sub_cancel, ih (m + 1), ih m,
        if_neg (by omega), if_pos (le_refl m), if_pos (le_refl (m + 1))]
      have e1 : ebase c0 (m + 1 + 1) = ebase c0 (m + 1) + c0 (m + 1) := rfl
      have e2 : ebase c0 (m + 1) = ebase c0 m + c0 m := rfl
      omega
    · rw [Function.update_noteq (by exact hv), ih v]
      by_cases hle : v ≤ m
      · rw [if_pos hle, if_pos (by omega)]
      · rw [if_neg hle, if_neg (by omega)]

theorem incscan_spec (c0 : ℕ → ℕ) (r : ℕ) (v : ℕ) :
    incscan c0 r v = if v < r then ebase c0 (v + 1) else c0 v := by
  rw [incscan, incscan_aux]
  rcases Nat.eq_zero_or_pos r with hr | hr
  · subst hr
    by_cases hv : v = 0
    · subst hv
      simp [ebase]
    · rw [if_neg (by omega), if_neg (by omega)]
  · by_cases hv : v < r
    · rw [if_pos (by omega), if_pos hv]
    · rw [if_neg (by omega), if_neg hv]

/-! ## Bucket concatenation equals the stable sort -/

theorem countP_lt_succ (f : α → ℕ) (l : List α) (B : ℕ) :
    l.countP (fun e => f e < B + 1) =
      l.countP (fun e => f e < B) + l.countP (fun e => f e == B) := by
  induction l with
  | nil => simp
  | cons a t ih =>
    rw [List.countP_cons, List.countP_cons, List.countP_cons, ih]
    by_cases h1 : f a < B
    · have ha : f a < B + 1 := by omega
      have hb : ¬ f a = B := by omega
      simp [h1, ha, hb]
      omega
    · by_cases h2 : f a = B
      · have ha : f a < B + 1 := by omega
        simp [h1, h2, ha]
        omega
      · have ha : ¬ f a < B + 1 := by omega
        simp [h1, h2, ha]

theorem ebase_hist_eq_countP (f : α → ℕ) (l : List α) (B : ℕ) :
    ebase (fun d => l.countP (fun e => f e == d)) B = l.countP (fun e => f e < B) := by
  induction B with
  | zero => simp [ebase]
  | succ B ih => rw [ebase, ih, countP_lt_succ]

theorem ebase_hist_total (f : α → ℕ) (l : List α) (B : ℕ) (hbnd : ∀ e ∈ l, f e < B) :
    ebase (fun d => l.countP (fun e => f e == d)) B = l.length := by
  rw [ebase_hist_eq_countP]
  exact List.countP_eq_length.2 (fun e he => by simpa using hbnd e he)

theorem filter_flatMap_single (f : α → ℕ) (l : List α) (k B : ℕ) (hk : k < B) :
    ((List.range B).flatMap fun d => l.filter (fun e => f e == d)).filter
      (fun e => f e == k) = l.filter (fun e => f e == k) := by
  induction B with
  | zero => omega
  | succ B ih =>
    rw [List.range_succ, List.flatMap_append]
    simp only [List.flatMap_cons, List.flatMap_nil, List.append_nil]
    rw [List.filter_append]
    by_cases hkB : k = B
    · subst hkB
      have h1 : ((List.range k).flatMap fun d => l.filter (fun e => f e == d)).filter
          (fun e => f e == k) = [] := by
        rw [List.filter_eq_nil_iff]
        intro e he
        rcases List.mem_flatMap.1 he with ⟨d, hd, hed⟩
        have hdk : d < k := List.mem_range.1 hd
        have : f e = d := by simpa using (List.mem_filter.1 hed).2
        simp
        omega
      rw [h1, List.nil_append, List.filter_filter]
      refine (List.filter_congr ?_).symm
      intro e _
      by_cases hfe : f e = k <;> simp [hfe]
    · have h2 : (l.filter (fun e => f e == B)).filter (fun e => f e == k) = [] := by
        rw [List.filter_filter, List.filter_eq_nil_iff]
        intro e _
        simp
        omega
      rw [h2, List.append_nil, ih (by omega)]

theorem flatMap_filter_pairwise (f : α → ℕ) (l : List α) (B : ℕ) :
    List.Pairwise (fun x y => f x ≤ f y)
      ((List.range B).flatMap fun d => l.filter (fun e => f e == d)) ∧
    (∀ e ∈ (List.range B).flatMap fun d => l.filter (fun e => f e == d), f e < B) := by
  induction B with
  | zero => simp
  | succ B ih =>
    rw [List.range_succ, List.flatMap_append]
    simp only [List.flatMap_cons, List.flatMap_nil, List.append_nil]
    constructor
    · rw [List.pairwise_append]
      refine ⟨ih.1, List.pairwise_of_forall_mem_list ?_, ?_⟩
      · intro a ha b hb
        have h1 : f a = B := by simpa using (List.mem_filter.1 ha).2
        have h2 : f b = B := by simpa using (List.mem_filter.1 hb).2
        omega
      · intro a ha b hb
        have h1 : f a < B := ih.2 a ha
        have h2 : f b = B := by simpa using (List.mem_filter.1 hb).2
        omega
    · intro e he
      rcases List.mem_append.1 he with h1 | h2
      · exact lt_trans (ih.2 e h1) (Nat.lt_succ_self B)
      · have : f e = B := by simpa using (List.mem_filter.1 h2).2
        omega

theorem flatMap_filter_eq_istab (f : α → ℕ) (l : List α) (B : ℕ) (hbnd : ∀ e ∈ l, f e < B) :
    ((List.range B).flatMap fun d => l.filter (fun e => f e == d)) = istab f l := by
  refine stable_unique f _ _ (flatMap_filter_pairwise f l B).1 (istab_pairwise f l) ?_
  intro k
  rw [istab_filter]
  by_cases hk : k < B
  · exact filter_flatMap_single f l k B hk
  · have h1 : ((List.range B).flatMap fun d => l.filter (fun e => f e == d)).filter
        (fun e => f e == k) = [] := by
      rw [List.filter_eq_nil_iff]
      intro e he
      have := (flatMap_filter_pairwise f l B).2 e he
      simp
      omega
    have h2 : l.filter (fun e => f e == k) = [] := by
      rw [List.filter_eq_nil_iff]
      intro e he
      have := hbnd e he
      simp
      omega
    rw [h1, h2]

/-! ## Characterization of the forward distribution loop -/

/-- The forward distribution fold places the elements of bucket `d`, in input order,
at consecutive positions starting from the base `B0 d`, provided the count table
starts at the bases and buckets with smaller digits have disjoint, earlier regions.
Positions outside every bucket region are untouched, and the final count table is
the initial one plus the histogram. -/
theorem distFold_fwd (bucket wH wI : α → ℕ) (dflt : α) :
    ∀ (ps : List α) (st0 : DistState) (B0 : ℕ → ℕ),
      (∀ d, 0 < ps.countP (fun e => bucket e == d) → st0.cnt d = B0 d) →
      (∀ d1 d2, d1 < d2 → 0 < ps.countP (fun e => bucket e == d1) →
        0 < ps.countP (fun e => bucket e == d2) →
        B0 d1 + ps.countP (fun e => bucket e == d1) ≤ B0 d2) →
      (∀ d, (ps.foldl (distStep bucket wH wI) st0).cnt d =
          st0.cnt d + ps.countP (fun e => bucket e == d)) ∧
      (∀ d j, j < ps.countP (fun e => bucket e == d) →
        (ps.foldl (distStep bucket wH wI) st0).outH (B0 d + j) =
          wH ((ps.filter (fun e => bucket e == d)).getD j dflt) ∧
        (ps.foldl (distStep bucket wH wI) st0).outI (B0 d + j) =
          wI ((ps.filter (fun e => bucket e == d)).getD j dflt)) ∧
      (∀ pos, (∀ d, 0 < ps.countP (fun e => bucket e == d) →
          pos < B0 d ∨ B0 d + ps.countP (fun e => bucket e == d) ≤ pos) →
        (ps.foldl (distStep bucket wH wI) st0).outH pos = st0.outH pos ∧
        (ps.foldl (distStep bucket wH wI) st0).outI pos = st0.outI pos) := by
  intro ps
  induction ps with
  | nil =>
    intro st0 B0 hcnt hsep
    refine ⟨fun d => by simp, fun d j hj => by simp at hj, fun pos hpos => ⟨rfl, rfl⟩⟩
  | cons e0 t ih =>
    intro st0 B0 hcnt hsep
    set d0 := bucket e0 with hd0
    have hhist : ∀ d, (e0 :: t).countP (fun e => bucket e == d) =
        t.countP (fun e => bucket e == d) + (if d = d0 then 1 else 0) := by
      intro d
      rw [List.countP_cons]
      by_cases hd : d = d0
      · rw [if_pos hd, if_pos (by simp [hd0] at hd ⊢; omega)]
      · rw [if_neg hd, if_neg (by simp [hd0] at hd ⊢; omega)]
    have hd0pos : 0 < (e0 :: t).countP (fun e => bucket e == d0) := by
      rw [hhist d0, if_pos rfl]
      omega
    have hs : st0.cnt d0 = B0 d0 := hcnt d0 hd0pos
    set st1 := distStep bucket wH wI st0 e0 with hst1
    have hst1cnt : ∀ d, st1.cnt d = if d = d0 then st0.cnt d0 + 1 else st0.cnt d := by
      intro d
      simp only [hst1, distStep, ← hd0]
      by_cases hd : d = d0
      · rw [if_pos hd, hd, Function.update_same]
      · rw [if_neg hd, Function.update_noteq (by exact hd)]
    have hst1outH : ∀ pos, st1.outH pos =
        if pos = B0 d0 then wH e0 else st0.outH pos := by
      intro pos
      simp only [hst1, distStep, ← hd0, hs]
      by_cases hp : pos = B0 d0
      · rw [if_pos hp, hp, Function.update_same]
      · rw [if_neg hp, Function.update_noteq (by exact hp)]
    have hst1outI : ∀ pos, st1.outI pos =
        if pos = B0 d0 then wI e0 else st0.outI pos := by
      intro pos
      simp only [hst1, distStep, ← hd0, hs]
      by_cases hp : pos = B0 d0
      · rw [if_pos hp, hp, Function.update_same]
      · rw [if_neg hp, Function.update_noteq (by exact hp)]
    set B0' := Function.update B0 d0 (B0 d0 + 1) with hB0'
    have hB0'eq : ∀ d, B0' d = if d = d0 then B0 d0 + 1 else B0 d := by
      intro d
      rw [hB0']
      by_cases hd : d = d0
      · rw [if_pos hd, hd, Function.update_same]
      · rw [if_neg hd, Function.update_noteq (by exact hd)]
    have hcnt' : ∀ d, 0 < t.countP (fun e => bucket e == d) → st1.cnt d = B0' d := by
      intro d hd
      rw [hst1cnt d, hB0'eq d]
      by_cases hdd : d = d0
      · rw [if_pos hdd, if_pos hdd, hs]
      · rw [if_neg hdd, if_neg hdd]
        refine hcnt d ?_
        rw [hhist d, if_neg hdd]
        omega
    have hsep' : ∀ d1 d2, d1 < d2 → 0 < t.countP (fun e => bucket e == d1) →
        0 < t.countP (fun e => bucket e == d2) →
        B0' d1 + t.countP (fun e => bucket e == d1) ≤ B0' d2 := by
      intro d1 d2 h12 h1 h2
      have hp1 : 0 < (e0 :: t).countP (fun e => bucket e == d1) := by
        rw [hhist d1]; omega
      have hp2 : 0 < (e0 :: t).countP (fun e => bucket e == d2) := by
        rw [hhist d2]; omega
      have hst := hsep d1 d2 h12 hp1 hp2
      rw [hhist d1] at hst
      rw [hB0'eq d1, hB0'eq d2]
      by_cases hd1 : d1 = d0
      · subst hd1
        rw [if_pos rfl, if_neg (by omega)]
        rw [if_pos rfl] at hst
        omega
      · rw [if_neg hd1]
        rw [if_neg hd1] at hst
        by_cases hd2 : d2 = d0
        · subst hd2
          rw [if_pos rfl]
          omega
        · rw [if_neg hd2]
          omega
    rcases ih st1 B0' hcnt' hsep' with ⟨ih1, ih2, ih3⟩
    have hfold : (e0 :: t).foldl (distStep bucket wH wI) st0 =
        t.foldl (distStep bucket wH wI) st1 := by rw [List.foldl_cons]
    have hfilter : ∀ d, (e0 :: t).filter (fun e => bucket e == d) =
        if d = d0 then e0 :: t.filter (fun e => bucket e == d)
        else t.filter (fun e => bucket e == d) := by
      intro d
      rw [List.filter_cons]
      by_cases hd : d = d0
      · rw [if_pos (by simp [hd0] at hd ⊢; omega), if_pos hd]
      · rw [if_neg (by simp [hd0] at hd ⊢; omega), if_neg hd]
    -- clearance of the head position B0 d0 for the tail fold
    have hhead : ∀ d, 0 < t.countP (fun e => bucket e == d) →
        B0 d0 < B0' d ∨ B0' d + t.countP (fun e => bucket e == d) ≤ B0 d0 := by
      intro d hd
      rw [hB0'eq d]
      by_cases hdd : d = d0
      · rw [if_pos hdd]
        left
        omega
      · rw [if_neg hdd]
        have hpd : 0 < (e0 :: t).countP (fun e => bucket e == d) := by
          rw [hhist d, if_neg hdd]; omega
        rcases Nat.lt_or_ge d d0 with hlt | hge
        · right
          have := hsep d d0 hlt hpd hd0pos
          rw [hhist d, if_neg hdd] at this
          omega
        · left
          have hne : d0 < d := by omega
          have := hsep d0 d hne hd0pos hpd
          rw [hhist d0, if_pos rfl] at this
          omega
    refine ⟨?_, ?_, ?_⟩
    · intro d
      rw [hfold, ih1 d, hst1cnt d, hhist d]
      by_cases hd : d = d0
      · rw [if_pos hd, if_pos hd, hd]
        omega
      · rw [if_neg hd, if_neg hd]
        omega
    · intro d j hj
      rw [hfold]
      by_cases hd : d = d0
      · subst hd
        cases j with
        | zero =>
          have hcl := ih3 (B0 d0 + 0) (by simpa using hhead)
          rw [hcl.1, hcl.2, hst1outH, hst1outI, if_pos (by omega), if_pos (by omega),
            hfilter d0, if_pos rfl]
          exact ⟨rfl, rfl⟩
        | succ j' =>
          have hj' : j' < t.countP (fun e => bucket e == d0) := by
            rw [hhist d0, if_pos rfl] at hj
            omega
          have := ih2 d0 j' hj'
          rw [hB0'eq d0, if_pos rfl] at this
          have hpos : B0 d0 + (j' + 1) = B0 d0 + 1 + j' := by omega
          rw [hpos, hfilter d0, if_pos rfl]
          simpa using this
      · have hj' : j < t.countP (fun e => bucket e == d) := by
          rw [hhist d, if_neg hd] at hj
          omega
        have := ih2 d j hj'
        rw [hB0'eq d, if_neg hd] at this
        rw [hfilter d, if_neg hd]
        exact this
    · intro pos hpos
      rw [hfold]
      have hcl : ∀ d, 0 < t.countP (fun e => bucket e == d) →
          pos < B0' d ∨ B0' d + t.countP (fun e => bucket e == d) ≤ pos := by
        intro d hd
        have hpd : 0 < (e0 :: t).countP (fun e => bucket e == d) := by
          rw [hhist d]; omega
        have := hpos d hpd
        rw [hhist d] at this
        rw [hB0'eq d]
        by_cases hdd : d = d0
        · subst hdd
          rw [if_pos rfl]
          rw [if_pos rfl] at this
          omega
        · rw [if_neg hdd]
          rw [if_neg hdd] at this
          omega
      have hnp : pos ≠ B0 d0 := by
        have := hpos d0 hd0pos
        rw [hhist d0, if_pos rfl] at this
        omega
      have := ih3 pos hcl
      rw [this.1, this.2, hst1outH, hst1outI, if_neg hnp, if_neg hnp]
      exact ⟨rfl, rfl⟩

/-! ## Characterization of the backward distribution loop -/

/-- The backward distribution fold (inclusive bases, pre-decrement, elements consumed
in `qs` order) fills bucket `d`'s region `[B0 d, B0 d + hist d)` from the top down,
so position `B0 d + j` holds the `j`-th element of the reversed processing order of
bucket `d`. -/
theorem distFold_bwd (bucket wH wI : α → ℕ) (dflt : α) :
    ∀ (qs : List α) (st0 : DistState) (B0 : ℕ → ℕ),
      (∀ d, 0 < qs.countP (fun e => bucket e == d) →
        st0.cnt d = B0 d + qs.countP (fun e => bucket e == d)) →
      (∀ d1 d2, d1 < d2 → 0 < qs.countP (fun e => bucket e == d1) →
        0 < qs.countP (fun e => bucket e == d2) →
        B0 d1 + qs.countP (fun e => bucket e == d1) ≤ B0 d2) →
      (∀ d j, j < qs.countP (fun e => bucket e == d) →
        (qs.foldl (distStepB bucket wH wI) st0).outH (B0 d + j) =
          wH (((qs.filter (fun e => bucket e == d)).reverse).getD j dflt) ∧
        (qs.foldl (distStepB bucket wH wI) st0).outI (B0 d + j) =
          wI (((qs.filter (fun e => bucket e == d)).reverse).getD j dflt)) ∧
      (∀ pos, (∀ d, 0 < qs.countP (fun e => bucket e == d) →
          pos < B0 d ∨ B0 d + qs.countP (fun e => bucket e == d) ≤ pos) →
        (qs.foldl (distStepB bucket wH wI) st0).outH pos = st0.outH pos ∧
        (qs.foldl (distStepB bucket wH wI) st0).outI pos = st0.outI pos) := by
  intro qs
  induction qs with
  | nil =>
    intro st0 B0 hcnt hsep
    exact ⟨fun d j hj => by simp at hj, fun pos hpos => ⟨rfl, rfl⟩⟩
  | cons e0 t ih =>
    intro st0 B0 hcnt hsep
    set d0 := bucket e0 with hd0
    have hhist : ∀ d, (e0 :: t).countP (fun e => bucket e == d) =
        t.countP (fun e => bucket e == d) + (if d = d0 then 1 else 0) := by
      intro d
      rw [List.countP_cons]
      by_cases hd : d = d0
      · rw [if_pos hd, if_pos (by simp [hd0] at hd ⊢; omega)]
      · rw [if_neg hd, if_neg (by simp [hd0] at hd ⊢; omega)]
    have hd0pos : 0 < (e0 :: t).countP (fun e => bucket e == d0) := by
      rw [hhist d0, if_pos rfl]
      omega
    have hs : st0.cnt d0 = B0 d0 + (e0 :: t).countP (fun e => bucket e == d0) :=
      hcnt d0 hd0pos
    have hc : st0.cnt d0 - 1 = B0 d0 + t.countP (fun e => bucket e == d0) := by
      rw [hs, hhist d0, if_pos rfl]
      omega
    set st1 := distStepB bucket wH wI st0 e0 with hst1
    have hst1cnt : ∀ d, st1.cnt d = if d = d0 then st0.cnt d0 - 1 else st0.cnt d := by
      intro d
      simp only [hst1, distStepB, ← hd0]
      by_cases hd : d = d0
      · rw [if_pos hd, hd, Function.update_same]
      · rw [if_neg hd, Function.update_noteq (by exact hd)]
    have hst1outH : ∀ pos, st1.outH pos =
        if pos = B0 d0 + t.countP (fun e => bucket e == d0) then wH e0 else st0.outH pos := by
      intro pos
      simp only [hst1, distStepB, ← hd0, hc]
      by_cases hp : pos = B0 d0 + t.countP (fun e => bucket e == d0)
      · rw [if_pos hp, hp, Function.update_same]
      · rw [if_neg hp, Function.update_noteq (by exact hp)]
    have hst1outI : ∀ pos, st1.outI pos =
        if pos = B0 d0 + t.countP (fun e => bucket e == d0) then wI e0 else st0.outI pos := by
      intro pos
      simp only [hst1, distStepB, ← hd0, hc]
      by_cases hp : pos = B0 d0 + t.countP (fun e => bucket e == d0)
      · rw [if_pos hp, hp, Function.update_same]
      · rw [if_neg hp, Function.update_noteq (by exact hp)]
    have hcnt' : ∀ d, 0 < t.countP (fun e => bucket e == d) →
        st1.cnt d = B0 d + t.countP (fun e => bucket e == d) := by
      intro d hd
      rw [hst1cnt d]
      by_cases hdd : d = d0
      · subst hdd
        rw [if_pos rfl, hc]
      · rw [if_neg hdd]
        have := hcnt d (by rw [hhist d, if_neg hdd]; omega)
        rw [hhist d, if_neg hdd] at this
        omega
    have hsep' : ∀ d1 d2, d1 < d2 → 0 < t.countP (fun e => bucket e == d1) →
        0 < t.countP (fun e => bucket e == d2) →
        B0 d1 + t.countP (fun e => bucket e == d1) ≤ B0 d2 := by
      intro d1 d2 h12 h1 h2
      have hst := hsep d1 d2 h12 (by rw [hhist d1]; omega) (by rw [hhist d2]; omega)
      rw [hhist d1] at hst
      omega
    rcases ih st1 B0 hcnt' hsep' with ⟨ih2, ih3⟩
    have hfold : (e0 :: t).foldl (distStepB bucket wH wI) st0 =
        t.foldl (distStepB bucket wH wI) st1 := by rw [List.foldl_cons]
    have hfilter : ∀ d, (e0 :: t).filter (fun e => bucket e == d) =
        if d = d0 then e0 :: t.filter (fun e => bucket e == d)
        else t.filter (fun e => bucket e == d) := by
      intro d
      rw [List.filter_cons]
      by_cases hd : d = d0
      · rw [if_pos (by simp [hd0] at hd ⊢; omega), if_pos hd]
      · rw [if_neg (by simp [hd0] at hd ⊢; omega), if_neg hd]
    have hlenrev : ((t.filter (fun e => bucket e == d0)).reverse).length =
        t.countP (fun e => bucket e == d0) := by
      rw [List.length_reverse, ← List.countP_eq_length_filter]
    -- clearance of the head position for the tail fold
    have hheadpos : ∀ d, 0 < t.countP (fun e => bucket e == d) →
        B0 d0 + t.countP (fun e => bucket e == d0) < B0 d ∨
        B0 d + t.countP (fun e => bucket e == d) ≤ B0 d0 + t.countP (fun e => bucket e == d0) := by
      intro d hd
      by_cases hdd : d = d0
      · subst hdd
        right
        omega
      · have hpd : 0 < (e0 :: t).countP (fun e => bucket e == d) := by
          rw [hhist d, if_neg hdd]; omega
        rcases Nat.lt_or_ge d d0 with hlt | hge
        · right
          have := hsep d d0 hlt hpd hd0pos
          rw [hhist d, if_neg hdd] at this
          omega
        · left
          have hne : d0 < d := by omega
          have := hsep d0 d hne hd0pos hpd
          rw [hhist d0, if_pos rfl] at this
          omega
    refine ⟨?_, ?_⟩
    · intro d j hj
      rw [hfold]
      by_cases hd : d = d0
      · subst hd
        rw [hfilter d0, if_pos rfl, List.reverse_cons]
        rcases Nat.lt_or_ge j (t.countP (fun e => bucket e == d0)) with hjlt | hjge
        · have := ih2 d0 j hjlt
          constructor
          · rw [this.1, List.getD_append _ _ _ _ (by rw [hlenrev]; exact hjlt)]
          · rw [this.2, List.getD_append _ _ _ _ (by rw [hlenrev]; exact hjlt)]
        · have hjeq : j = t.countP (fun e => bucket e == d0) := by
            rw [hhist d0, if_pos rfl] at hj
            omega
          subst hjeq
          have hclear := ih3 (B0 d0 + t.countP (fun e => bucket e == d0)) hheadpos
          have hgetD : (((t.filter (fun e => bucket e == d0)).reverse) ++ [e0]).getD
              (t.countP (fun e => bucket e == d0)) dflt = e0 := by
            rw [List.getD_eq_getElem _ _ (by simp [hlenrev])]
            rw [List.getElem_append_right (by rw [hlenrev])]
            simp [hlenrev]
          rw [hgetD]
          constructor
          · rw [hclear.1, hst1outH, if_pos rfl]
          · rw [hclear.2, hst1outI, if_pos rfl]
      · have hj' : j < t.countP (fun e => bucket e == d) := by
          rw [hhist d, if_neg hd] at hj
          omega
        rw [hfilter d, if_neg hd]
        exact ih2 d j hj'
    · intro pos hpos
      rw [hfold]
      have hcl : ∀ d, 0 < t.countP (fun e => bucket e == d) →
          pos < B0 d ∨ B0 d + t.countP (fun e => bucket e == d) ≤ pos := by
        intro d hd
        have hpd : 0 < (e0 :: t).countP (fun e => bucket e == d) := by
          rw [hhist d]; omega
        have := hpos d hpd
        rw [hhist d] at this
        by_cases hdd : d = d0
        · subst hdd
          omega
        · rw [if_neg hdd] at this
          omega
      have hnp : pos ≠ B0 d0 + t.countP (fun e => bucket e == d0) := by
        have := hpos d0 hd0pos
        rw [hhist d0, if_pos rfl] at this
        omega
      have := ih3 pos hcl
      rw [this.1, this.2, hst1outH, hst1outI, if_neg hnp, if_neg hnp]
      exact ⟨rfl, rfl⟩

/-! ## Extraction: reading the output array back as the stable sort -/

theorem range_flatMap_segments (hist : ℕ → ℕ) (B : ℕ) :
    ((List.range B).flatMap fun d => List.range' (ebase hist d) (hist d)) =
      List.range' 0 (ebase hist B) := by
  induction B with
  | zero => simp [ebase]
  | succ B ih =>
    rw [List.range_succ, List.flatMap_append, ih]
    simp only [List.flatMap_cons, List.flatMap_nil, List.append_nil]
    have := List.range'_append 0 (ebase hist B) (hist B) 1
    rw [Nat.zero_add, Nat.one_mul] at this
    rw [this, ebase, Nat.add_comm (hist B)]

/-- Reading positions `0, …, N-1` of an output array written by a distribution fold
yields the stable sort of the input, mapped through the written-value function. -/
theorem dist_extract (bucket w : α → ℕ) (ps : List α) (o : ℕ → ℕ) (B : ℕ) (dflt : α)
    (hbnd : ∀ e ∈ ps, bucket e < B)
    (hpos : ∀ d j, j < ps.countP (fun e => bucket e == d) →
      o (ebase (fun v => ps.countP (fun e => bucket e == v)) d + j) =
        w ((ps.filter (fun e => bucket e == d)).getD j dflt)) :
    (List.range ps.length).map o = (istab bucket ps).map w := by
  have hlen : ps.length = ebase (fun v => ps.countP (fun e => bucket e == v)) B :=
    (ebase_hist_total bucket ps B hbnd).symm
  have hseg : ∀ d, (List.range' (ebase (fun v => ps.countP (fun e => bucket e == v)) d)
      (ps.countP (fun e => bucket e == d))).map o =
      (ps.filter (fun e => bucket e == d)).map w := by
    intro d
    refine List.ext_getElem ?_ ?_
    · rw [List.length_map, List.length_map, List.length_range',
        List.countP_eq_length_filter]
    · intro j h1 h2
      rw [List.length_map, List.length_range'] at h1
      rw [List.getElem_map, List.getElem_map, List.getElem_range']
      rw [Nat.one_mul, hpos d j h1,
        List.getD_eq_getElem _ _ (by rw [← List.countP_eq_length_filter]; exact h1)]
  calc (List.range ps.length).map o
      = ((List.range B).flatMap fun d =>
          List.range' (ebase (fun v => ps.countP (fun e => bucket e == v)) d)
            (ps.countP (fun e => bucket e == d))).map o := by
        rw [range_flatMap_segments, ← hlen, List.range_eq_range']
    _ = (List.range B).flatMap fun d =>
          (List.range' (ebase (fun v => ps.countP (fun e => bucket e == v)) d)
            (ps.countP (fun e => bucket e == d))).map o := List.map_flatMap o _ _
    _ = (List.range B).flatMap fun d => (ps.filter (fun e => bucket e == d)).map w := by
        refine List.flatMap_congr ?_
        intro d _
        exact hseg d
    _ = ((List.range B).flatMap fun d => ps.filter (fun e => bucket e == d)).map w := by
        rw [List.map_flatMap]
    _ = (istab bucket ps).map w := by rw [flatMap_filter_eq_istab bucket ps B hbnd]

theorem sinsert_map (f : β → ℕ) (g : α → β) (a : α) (l : List α) :
    sinsert f (g a) (l.map g) = (sinsert (fun e => f (g e)) a l).map g := by
  induction l with
  | nil => simp [sinsert]
  | cons b t ih =>
    by_cases hba : f (g b) < f (g a)
    · rw [List.map_cons, sinsert, if_pos hba, sinsert, if_pos hba, List.map_cons, ih]
    · rw [List.map_cons, sinsert, if_neg hba, sinsert, if_neg hba]
      simp

theorem istab_map (f : β → ℕ) (g : α → β) (l : List α) :
    istab f (l.map g) = (istab (fun e => f (g e)) l).map g := by
  induction l with
  | nil => simp [istab]
  | cons a t ih => rw [List.map_cons, istab, ih, istab, sinsert_map]

theorem sinsert_relcongr (f g : α → ℕ) (a : α) (l : List α)
    (h : ∀ b ∈ l, (f b < f a ↔ g b < g a)) :
    sinsert f a l = sinsert g a l := by
  induction l with
  | nil => simp [sinsert]
  | cons b t ih =>
    have hb := h b (List.mem_cons_self b t)
    by_cases hba : f b < f a
    · rw [sinsert, if_pos hba, sinsert, if_pos (hb.1 hba),
        ih (fun e he => h e (List.mem_cons_of_mem b he))]
    · rw [sinsert, if_neg hba, sinsert, if_neg (fun hc => hba (hb.2 hc))]

theorem istab_relcongr (f g : α → ℕ) (l : List α)
    (h : ∀ a ∈ l, ∀ b ∈ l, (f b < f a ↔ g b < g a)) :
    istab f l = istab g l := by
  induction l with
  | nil => simp [istab]
  | cons a t ih =>
    have ht : ∀ a ∈ t, ∀ b ∈ t, (f b < f a ↔ g b < g a) := fun p hp q hq =>
      h p (List.mem_cons_of_mem a hp) q (List.mem_cons_of_mem a hq)
    rw [istab, istab, ih ht]
    refine sinsert_relcongr f g a _ (fun b hb => ?_)
    exact h a (List.mem_cons_self a t) b (List.mem_cons_of_mem a ((istab_mem g t b).1 hb))

/-! ## Characterization of `mf_counting_sort_index` -/

theorem mf_counting_sort_index_char (x index : List ℕ) (mn mx : ℕ)
    (hlen : index.length = x.length)
    (hmn : ∀ v ∈ x, mn ≤ v) (hmx : ∀ v ∈ x, v ≤ mx) :
    mf_counting_sort_index x index mn mx =
      ((istab (fun p : ℕ × ℕ => p.1) (x.zip index)).map Prod.fst,
       (istab (fun p : ℕ × ℕ => p.1) (x.zip index)).map Prod.snd) := by
  have hzlen : (x.zip index).length = x.length := by
    rw [List.length_zip, hlen, Nat.min_self]
  set range := mx - mn + 1 with hrange
  set xc := x.map (fun v => v + 1 - mn) with hxc
  set pairs := xc.zip index with hpairs
  have hplen : pairs.length = x.length := by
    rw [hpairs, List.length_zip, hxc, List.length_map, hlen, Nat.min_self]
  set bucket : ℕ × ℕ → ℕ := fun p => p.1 - 1 with hbucket
  set wH : ℕ × ℕ → ℕ := fun p => p.1 - 1 + mn with hwH
  set wI : ℕ × ℕ → ℕ := fun p => p.2 with hwI
  set c0 : ℕ → ℕ := histFold (fun v => v) xc (fun _ => 0) with hc0
  have hc0spec : ∀ v, c0 v = xc.countP (fun w => w == v) := by
    intro v
    rw [hc0, histFold_spec]
    omega
  have hc00 : c0 0 = 0 := by
    rw [hc0spec 0, List.countP_eq_zero]
    intro w hw
    rw [hxc] at hw
    rcases List.mem_map.1 hw with ⟨v, hv, hveq⟩
    have := hmn v hv
    simp
    omega
  have hmem1 : ∀ p ∈ pairs, 1 ≤ p.1 ∧ p.1 ≤ mx + 1 - mn := by
    intro p hp
    have h1 : p.1 ∈ xc := (List.of_mem_zip (hpairs ▸ hp)).1
    rw [hxc] at h1
    rcases List.mem_map.1 h1 with ⟨v, hv, hveq⟩
    have := hmn v hv
    have := hmx v hv
    omega
  have hhist : ∀ d, pairs.countP (fun p => bucket p == d) = c0 (d + 1) := by
    intro d
    rw [hc0spec (d + 1)]
    have h1 : xc.countP (fun w => w == d + 1) = pairs.countP (fun p => p.1 == d + 1) := by
      have hfst : pairs.map Prod.fst = xc :=
        List.map_fst_zip xc index (by rw [hxc, List.length_map, hlen])
      rw [← hfst, List.countP_map]
      rfl
    rw [h1]
    refine List.countP_congr (fun p hp => ?_)
    have := hmem1 p hp
    rw [hbucket]
    simp
    omega
  have hbnd : ∀ p ∈ pairs, bucket p < range := by
    intro p hp
    have := hmem1 p hp
    rw [hbucket, hrange]
    simp
    omega
  have hcnt : ∀ d, 0 < pairs.countP (fun p => bucket p == d) →
      incscan c0 range d = ebase (fun v => pairs.countP (fun p => bucket p == v)) d := by
    intro d hd
    have hdr : d < range := by
      rcases List.countP_pos.1 hd with ⟨p, hp, hpd⟩
      have := hbnd p hp
      have : bucket p = d := by simpa using hpd
      omega
    rw [incscan_spec, if_pos hdr]
    have hsh : ebase (fun v => pairs.countP (fun p => bucket p == v)) d =
        ebase (fun v => c0 (v + 1)) d := ebase_congr _ _ d (fun w _ => hhist w)
    rw [hsh, ← ebase_shift c0 d, hc00, Nat.zero_add]
  have hsep : ∀ d1 d2, d1 < d2 → 0 < pairs.countP (fun p => bucket p == d1) →
      0 < pairs.countP (fun p => bucket p == d2) →
      ebase (fun v => pairs.countP (fun p => bucket p == v)) d1 +
        pairs.countP (fun p => bucket p == d1) ≤
      ebase (fun v => pairs.countP (fun p => bucket p == v)) d2 := by
    intro d1 d2 h12 _ _
    have h1 : ebase (fun v => pairs.countP (fun p => bucket p == v)) (d1 + 1) =
        ebase (fun v => pairs.countP (fun p => bucket p == v)) d1 +
          pairs.countP (fun p => bucket p == d1) := rfl
    rw [← h1]
    exact ebase_mono _ (by omega)
  have hmain := distFold_fwd bucket wH wI (0, 0) pairs
    ⟨incscan c0 range, (fun i => x.getD i 0), (fun i => index.getD i 0)⟩
    (ebase (fun v => pairs.countP (fun p => bucket p == v))) hcnt hsep
  rcases hmain with ⟨_, hpos, _⟩
  have hH := dist_extract bucket wH pairs
    (pairs.foldl (distStep bucket wH wI)
      ⟨incscan c0 range, (fun i => x.getD i 0), (fun i => index.getD i 0)⟩).outH
    range (0, 0) hbnd (fun d j hj => (hpos d j hj).1)
  have hI := dist_extract bucket wI pairs
    (pairs.foldl (distStep bucket wH wI)
      ⟨incscan c0 range, (fun i => x.getD i 0), (fun i => index.getD i 0)⟩).outI
    range (0, 0) hbnd (fun d j hj => (hpos d j hj).2)
  have hpairs_map : pairs = (x.zip index).map (Prod.map (fun v => v + 1 - mn) id) := by
    rw [hpairs, hxc, List.zip_map_left]
  have histab_eq : istab bucket pairs =
      (istab (fun p : ℕ × ℕ => p.1) (x.zip index)).map (Prod.map (fun v => v + 1 - mn) id) := by
    rw [hpairs_map, istab_map]
    congr 1
    have hcg : istab (fun e : ℕ × ℕ => bucket (Prod.map (fun v => v + 1 - mn) id e)) (x.zip index) =
        istab (fun e : ℕ × ℕ => e.1 - mn) (x.zip index) := by
      refine istab_congr _ _ _ (fun e he => ?_)
      have := hmn e.1 (List.of_mem_zip he).1
      rw [hbucket]
      simp [Prod.map]
      omega
    rw [hcg]
    refine istab_relcongr _ _ _ (fun a ha b hb => ?_)
    have h1 := hmn a.1 (List.of_mem_zip ha).1
    have h2 := hmn b.1 (List.of_mem_zip hb).1
    omega
  have hfinH : (istab bucket pairs).map wH =
      (istab (fun p : ℕ × ℕ => p.1) (x.zip index)).map Prod.fst := by
    rw [histab_eq, List.map_map]
    refine List.map_congr_left (fun p hp => ?_)
    have := hmn p.1 (List.of_mem_zip ((istab_mem _ _ p).1 hp)).1
    simp [hwH, Prod.map]
    omega
  have hfinI : (istab bucket pairs).map wI =
      (istab (fun p : ℕ × ℕ => p.1) (x.zip index)).map Prod.snd := by
    rw [histab_eq, List.map_map]
    exact List.map_congr_left (fun p hp => rfl)
  rw [← hfinH, ← hfinI, ← hH, ← hI]
  simp only [mf_counting_sort_index]
  rw [hplen]

/-! ## Characterization of `mf_radix_sort_index_pass` -/

theorem zip_map_key (dg : ℕ → ℕ) : ∀ (x index : List ℕ),
    (x.map dg).zip (x.zip index) = (x.zip index).map (fun p => (dg p.1, p)) := by
  intro x
  induction x with
  | nil => intro index; simp
  | cons v t ih =>
    intro index
    cases index with
    | nil => simp
    | cons i ti => simp [ih ti]

theorem mf_radix_sort_index_pass_char (x index : List ℕ) (exp shift : ℕ)
    (hlen : index.length = x.length) (hshift : 0 < shift) :
    mf_radix_sort_index_pass x index exp shift =
      ((istab (fun p : ℕ × ℕ => p.1 / exp % shift) (x.zip index)).map Prod.fst,
       (istab (fun p : ℕ × ℕ => p.1 / exp % shift) (x.zip index)).map Prod.snd) := by
  have hzlen : (x.zip index).length = x.length := by
    rw [List.length_zip, hlen, Nat.min_self]
  set dg : ℕ → ℕ := fun v => v / exp % shift with hdg
  set xm := x.map dg with hxm
  set trips := xm.zip (x.zip index) with htrips
  have htlen : trips.length = x.length := by
    rw [htrips, List.length_zip, hxm, List.length_map, hzlen, Nat.min_self]
  set bucket : ℕ × ℕ × ℕ → ℕ := fun t => t.1 with hbucket
  set wH : ℕ × ℕ × ℕ → ℕ := fun t => t.2.1 with hwH
  set wI : ℕ × ℕ × ℕ → ℕ := fun t => t.2.2 with hwI
  set c0 : ℕ → ℕ := histFold (fun v => v) xm (fun _ => 0) with hc0
  have hc0spec : ∀ v, c0 v = xm.countP (fun w => w == v) := by
    intro v
    rw [hc0, histFold_spec]
    omega
  have hfst : trips.map Prod.fst = xm :=
    List.map_fst_zip xm (x.zip index) (by rw [hxm, List.length_map, hzlen])
  have hhist : ∀ d, trips.countP (fun t => bucket t == d) = c0 d := by
    intro d
    rw [hc0spec d, ← hfst, List.countP_map]
    rfl
  have hbnd : ∀ t ∈ trips, bucket t < shift := by
    intro t ht
    have h1 : t.1 ∈ xm := by
      rw [← hfst]
      exact List.mem_map.2 ⟨t, ht, rfl⟩
    rw [hxm] at h1
    rcases List.mem_map.1 h1 with ⟨v, hv, hveq⟩
    have hlt : dg v < shift := Nat.mod_lt _ hshift
    have heq : bucket t = dg v := hveq.symm
    omega
  -- histogram and separation facts for the reversed processing order
  have hhistrev : ∀ d, trips.reverse.countP (fun t => bucket t == d) =
      trips.countP (fun t => bucket t == d) := fun d => List.countP_reverse _ _
  have hcnt : ∀ d, 0 < trips.reverse.countP (fun t => bucket t == d) →
      incscan c0 shift d =
        ebase (fun v => trips.reverse.countP (fun t => bucket t == v)) d +
          trips.reverse.countP (fun t => bucket t == d) := by
    intro d hd
    rw [hhistrev] at hd
    have hdr : d < shift := by
      rcases List.countP_pos.1 hd with ⟨t, ht, htd⟩
      have := hbnd t ht
      have : bucket t = d := by simpa using htd
      omega
    rw [incscan_spec, if_pos hdr]
    have hsh : ebase (fun v => trips.reverse.countP (fun t => bucket t == v)) d =
        ebase c0 d := ebase_congr _ _ d (fun w _ => by rw [hhistrev w, hhist w])
    rw [hsh, hhistrev d, hhist d]
    rfl
  have hsep : ∀ d1 d2, d1 < d2 → 0 < trips.reverse.countP (fun t => bucket t == d1) →
      0 < trips.reverse.countP (fun t => bucket t == d2) →
      ebase (fun v => trips.reverse.countP (fun t => bucket t == v)) d1 +
        trips.reverse.countP (fun t => bucket t == d1) ≤
      ebase (fun v => trips.reverse.countP (fun t => bucket t == v)) d2 := by
    intro d1 d2 h12 _ _
    have h1 : ebase (fun v => trips.reverse.countP (fun t => bucket t == v)) (d1 + 1) =
        ebase (fun v => trips.reverse.countP (fun t => bucket t == v)) d1 +
          trips.reverse.countP (fun t => bucket t == d1) := rfl
    rw [← h1]
    exact ebase_mono _ (by omega)
  have hmain := distFold_bwd bucket wH wI (0, 0, 0) trips.reverse
    ⟨incscan c0 shift, (fun i => x.getD i 0), (fun i => index.getD i 0)⟩
    (ebase (fun v => trips.reverse.countP (fun t => bucket t == v))) hcnt hsep
  rcases hmain with ⟨hpos, _⟩
  have hposH : ∀ d j, j < trips.countP (fun t => bucket t == d) →
      (trips.reverse.foldl (distStepB bucket wH wI)
        ⟨incscan c0 shift, (fun i => x.getD i 0), (fun i => index.getD i 0)⟩).outH
        (ebase (fun v => trips.countP (fun t => bucket t == v)) d + j) =
        wH ((trips.filter (fun t => bucket t == d)).getD j (0, 0, 0)) := by
    intro d j hj
    have heb : ebase (fun v => trips.countP (fun t => bucket t == v)) d =
        ebase (fun v => trips.reverse.countP (fun t => bucket t == v)) d :=
      ebase_congr _ _ d (fun w _ => (hhistrev w).symm)
    have := (hpos d j (by rw [hhistrev]; exact hj)).1
    rw [List.filter_reverse, List.reverse_reverse] at this
    rw [heb]
    exact this
  have hposI : ∀ d j, j < trips.countP (fun t => bucket t == d) →
      (trips.reverse.foldl (distStepB bucket wH wI)
        ⟨incscan c0 shift, (fun i => x.getD i 0), (fun i => index.getD i 0)⟩).outI
        (ebase (fun v => trips.countP (fun t => bucket t == v)) d + j) =
        wI ((trips.filter (fun t => bucket t == d)).getD j (0, 0, 0)) := by
    intro d j hj
    have heb : ebase (fun v => trips.countP (fun t => bucket t == v)) d =
        ebase (fun v => trips.reverse.countP (fun t => bucket t == v)) d :=
      ebase_congr _ _ d (fun w _ => (hhistrev w).symm)
    have := (hpos d j (by rw [hhistrev]; exact hj)).2
    rw [List.filter_reverse, List.reverse_reverse] at this
    rw [heb]
    exact this
  have hH := dist_extract bucket wH trips
    (trips.reverse.foldl (distStepB bucket wH wI)
      ⟨incscan c0 shift, (fun i => x.getD i 0), (fun i => index.getD i 0)⟩).outH
    shift (0, 0, 0) hbnd hposH
  have hI := dist_extract bucket wI trips
    (trips.reverse.foldl (distStepB bucket wH wI)
      ⟨incscan c0 shift, (fun i => x.getD i 0), (fun i => index.getD i 0)⟩).outI
    shift (0, 0, 0) hbnd hposI
  have htrips_map : trips = (x.zip index).map (fun p => (dg p.1, p)) := by
    rw [htrips, hxm, zip_map_key]
  have histab_eq : istab bucket trips =
      (istab (fun p : ℕ × ℕ => dg p.1) (x.zip index)).map (fun p => (dg p.1, p)) := by
    rw [htrips_map, istab_map]
  have hfinH : (istab bucket trips).map wH =
      (istab (fun p : ℕ × ℕ => p.1 / exp % shift) (x.zip index)).map Prod.fst := by
    rw [histab_eq, List.map_map]
    exact List.map_congr_left (fun p hp => rfl)
  have hfinI : (istab bucket trips).map wI =
      (istab (fun p : ℕ × ℕ => p.1 / exp % shift) (x.zip index)).map Prod.snd := by
    rw [histab_eq, List.map_map]
    exact List.map_congr_left (fun p hp => rfl)
  rw [← hfinH, ← hfinI, ← hH, ← hI]
  simp only [mf_radix_sort_index_pass]
  rw [htlen]

/-! ## Generic characterization of one forward radix redistribution pass -/

theorem zip_map_fst_snd : ∀ (L : List (ℕ × ℕ)), (L.map Prod.fst).zip (L.map Prod.snd) = L := by
  intro L
  induction L with
  | nil => rfl
  | cons p t ih => simp [ih]

theorem dist_pass_out (dgf : ℕ → ℕ) (S : ℕ) (hS : ∀ v, dgf v < S)
    (h i : List ℕ) (hlen : i.length = h.length)
    (cnt0 oH0 oI0 : ℕ → ℕ)
    (hcnt0 : ∀ d, d < S → cnt0 d = ebase (fun v => h.countP (fun w => dgf w == v)) d) :
    ((List.range h.length).map
        ((h.zip i).foldl (distStep (fun p => dgf p.1) (fun p => p.1) (fun p => p.2))
          ⟨cnt0, oH0, oI0⟩).outH =
      (istab (fun p : ℕ × ℕ => dgf p.1) (h.zip i)).map Prod.fst) ∧
    ((List.range h.length).map
        ((h.zip i).foldl (distStep (fun p => dgf p.1) (fun p => p.1) (fun p => p.2))
          ⟨cnt0, oH0, oI0⟩).outI =
      (istab (fun p : ℕ × ℕ => dgf p.1) (h.zip i)).map Prod.snd) := by
  have hzlen : (h.zip i).length = h.length := by
    rw [List.length_zip, hlen, Nat.min_self]
  set pairs := h.zip i with hpairs
  set bucket : ℕ × ℕ → ℕ := fun p => dgf p.1 with hbucket
  have hfst : pairs.map Prod.fst = h := List.map_fst_zip h i (by omega)
  have hhist : ∀ v, pairs.countP (fun p => bucket p == v) = h.countP (fun w => dgf w == v) := by
    intro v
    rw [← hfst, List.countP_map]
    rfl
  have hbnd : ∀ p ∈ pairs, bucket p < S := fun p _ => hS p.1
  have hcnt : ∀ d, 0 < pairs.countP (fun p => bucket p == d) →
      cnt0 d = ebase (fun v => pairs.countP (fun p => bucket p == v)) d := by
    intro d hd
    have hdS : d < S := by
      rcases List.countP_pos.1 hd with ⟨p, hp, hpd⟩
      have := hbnd p hp
      have : bucket p = d := by simpa using hpd
      omega
    rw [hcnt0 d hdS]
    exact ebase_congr _ _ d (fun w _ => (hhist w).symm)
  have hsep : ∀ d1 d2, d1 < d2 → 0 < pairs.countP (fun p => bucket p == d1) →
      0 < pairs.countP (fun p => bucket p == d2) →
      ebase (fun v => pairs.countP (fun p => bucket p == v)) d1 +
        pairs.countP (fun p => bucket p == d1) ≤
      ebase (fun v => pairs.countP (fun p => bucket p == v)) d2 := by
    intro d1 d2 h12 _ _
    have h1 : ebase (fun v => pairs.countP (fun p => bucket p == v)) (d1 + 1) =
        ebase (fun v => pairs.countP (fun p => bucket p == v)) d1 +
          pairs.countP (fun p => bucket p == d1) := rfl
    rw [← h1]
    exact ebase_mono _ (by omega)
  have hmain := distFold_fwd bucket (fun p => p.1) (fun p => p.2) (0, 0) pairs
    ⟨cnt0, oH0, oI0⟩ (ebase (fun v => pairs.countP (fun p => bucket p == v))) hcnt hsep
  rcases hmain with ⟨_, hpos, _⟩
  have hH := dist_extract bucket (fun p => p.1) pairs
    (pairs.foldl (distStep bucket (fun p => p.1) (fun p => p.2)) ⟨cnt0, oH0, oI0⟩).outH
    S (0, 0) hbnd (fun d j hj => (hpos d j hj).1)
  have hI := dist_extract bucket (fun p => p.2) pairs
    (pairs.foldl (distStep bucket (fun p => p.1) (fun p => p.2)) ⟨cnt0, oH0, oI0⟩).outI
    S (0, 0) hbnd (fun d j hj => (hpos d j hj).2)
  rw [hzlen] at hH hI
  exact ⟨by rw [hH], by rw [hI]⟩

/-! ## Projections of the interleaved count and offset loops (16-bit) -/

/-- `distPass` at correct exclusive-prefix counts is the stable sort by the digit. -/
theorem distPass_eq (dg : ℕ → ℕ) (S : ℕ) (hS : ∀ v, dg v < S)
    (N : ℕ) (h i : List ℕ) (hN : h.length = N) (hlen : i.length = h.length)
    (cnt0 oH0 oI0 : ℕ → ℕ)
    (hcnt0 : ∀ d, d < S → cnt0 d = ebase (fun v => h.countP (fun w => dg w == v)) d) :
    distPass N dg cnt0 oH0 oI0 h i =
      ((istab (fun p : ℕ × ℕ => dg p.1) (h.zip i)).map Prod.fst,
       (istab (fun p : ℕ × ℕ => dg p.1) (h.zip i)).map Prod.snd) := by
  subst hN
  have hd := dist_pass_out dg S hS h i hlen cnt0 oH0 oI0 hcnt0
  simp only [distPass]
  exact Prod.ext hd.1 hd.2

theorem gf16_count_c4 : ∀ (l : List ℕ) (c : radixCounts16),
    (l.foldl gf16_countStep c).c4 = histFold (fun h => h % 65536) l c.c4 := by
  intro l
  induction l with
  | nil => intro c; rfl
  | cons a t ih => intro c; rw [List.foldl_cons, ih]; rfl

theorem gf16_count_c3 : ∀ (l : List ℕ) (c : radixCounts16),
    (l.foldl gf16_countStep c).c3 = histFold (fun h => h / 2 ^ 16 % 65536) l c.c3 := by
  intro l
  induction l with
  | nil => intro c; rfl
  | cons a t ih => intro c; rw [List.foldl_cons, ih]; rfl

theorem gf16_count_c2 : ∀ (l : List ℕ) (c : radixCounts16),
    (l.foldl gf16_countStep c).c2 = histFold (fun h => h / 2 ^ 32 % 65536) l c.c2 := by
  intro l
  induction l with
  | nil => intro c; rfl
  | cons a t ih => intro c; rw [List.foldl_cons, ih]; rfl

theorem gf16_count_c1 : ∀ (l : List ℕ) (c : radixCounts16),
    (l.foldl gf16_countStep c).c1 = histFold (fun h => h / 2 ^ 48 % 65536) l c.c1 := by
  intro l
  induction l with
  | nil => intro c; rfl
  | cons a t ih => intro c; rw [List.foldl_cons, ih]; rfl

theorem gf16_offsets_c4 : ∀ (l : List ℕ) (s : OffState16),
    ((l.foldl gf16_offsetStep s).c.c4, (l.foldl gf16_offsetStep s).o4) =
      l.foldl (fun q i => (Function.update q.1 i q.2, q.2 + q.1 i)) (s.c.c4, s.o4) := by
  intro l
  induction l with
  | nil => intro s; rfl
  | cons a t ih => intro s; rw [List.foldl_cons, ih, List.foldl_cons]; rfl

theorem gf16_offsets_c3 : ∀ (l : List ℕ) (s : OffState16),
    ((l.foldl gf16_offsetStep s).c.c3, (l.foldl gf16_offsetStep s).o3) =
      l.foldl (fun q i => (Function.update q.1 i q.2, q.2 + q.1 i)) (s.c.c3, s.o3) := by
  intro l
  induction l with
  | nil => intro s; rfl
  | cons a t ih => intro s; rw [List.foldl_cons, ih, List.foldl_cons]; rfl

theorem gf16_offsets_c2 : ∀ (l : List ℕ) (s : OffState16),
    ((l.foldl gf16_offsetStep s).c.c2, (l.foldl gf16_offsetStep s).o2) =
      l.foldl (fun q i => (Function.update q.1 i q.2, q.2 + q.1 i)) (s.c.c2, s.o2) := by
  intro l
  induction l with
  | nil => intro s; rfl
  | cons a t ih => intro s; rw [List.foldl_cons, ih, List.foldl_cons]; rfl

theorem gf16_offsets_c1 : ∀ (l : List ℕ) (s : OffState16),
    ((l.foldl gf16_offsetStep s).c.c1, (l.foldl gf16_offsetStep s).o1) =
      l.foldl (fun q i => (Function.update q.1 i q.2, q.2 + q.1 i)) (s.c.c1, s.o1) := by
  intro l
  induction l with
  | nil => intro s; rfl
  | cons a t ih => intro s; rw [List.foldl_cons, ih, List.foldl_cons]; rfl

/-! ## Characterization of `gf_radix_sort16` -/

theorem istab_comp32 (zl : List (ℕ × ℕ)) :
    istab (fun p : ℕ × ℕ => p.1 / 2 ^ 16 % 65536) (istab (fun p : ℕ × ℕ => p.1 % 65536) zl) =
      istab (fun p : ℕ × ℕ => p.1 % 2 ^ 32) zl := by
  rw [istab_comp (fun p : ℕ × ℕ => p.1 / 2 ^ 16 % 65536) (fun p => p.1 % 65536) 65536 zl
    (fun p => Nat.mod_lt _ (by norm_num))]
  refine istab_congr _ _ _ (fun e _ => ?_)
  have h16 : (2 : ℕ) ^ 16 = 65536 := by norm_num
  have h32 : (2 : ℕ) ^ 32 = 4294967296 := by norm_num
  rw [h16, h32]
  omega

theorem istab_comp48 (zl : List (ℕ × ℕ)) :
    istab (fun p : ℕ × ℕ => p.1 / 2 ^ 32 % 65536) (istab (fun p : ℕ × ℕ => p.1 % 2 ^ 32) zl) =
      istab (fun p : ℕ × ℕ => p.1 % 2 ^ 48) zl := by
  rw [istab_comp (fun p : ℕ × ℕ => p.1 / 2 ^ 32 % 65536) (fun p => p.1 % 2 ^ 32) (2 ^ 32) zl
    (fun p => Nat.mod_lt _ (by norm_num))]
  refine istab_congr _ _ _ (fun e _ => ?_)
  have h32 : (2 : ℕ) ^ 32 = 4294967296 := by norm_num
  have h48 : (2 : ℕ) ^ 48 = 281474976710656 := by norm_num
  rw [h32, h48]
  omega

theorem istab_comp64 (zl : List (ℕ × ℕ)) :
    istab (fun p : ℕ × ℕ => p.1 / 2 ^ 48 % 65536) (istab (fun p : ℕ × ℕ => p.1 % 2 ^ 48) zl) =
      istab (fun p : ℕ × ℕ => p.1 % 2 ^ 64) zl := by
  rw [istab_comp (fun p : ℕ × ℕ => p.1 / 2 ^ 48 % 65536) (fun p => p.1 % 2 ^ 48) (2 ^ 48) zl
    (fun p => Nat.mod_lt _ (by norm_num))]
  refine istab_congr _ _ _ (fun e _ => ?_)
  have h48 : (2 : ℕ) ^ 48 = 281474976710656 := by norm_num
  have h64 : (2 : ℕ) ^ 64 = 18446744073709551616 := by norm_num
  rw [h48, h64]
  omega

theorem istab_zl_facts (f : ℕ → ℕ) (hash index : List ℕ) (hlen : index.length = hash.length) :
    ((istab (fun p : ℕ × ℕ => f p.1) (hash.zip index)).map Prod.snd).length =
      ((istab (fun p : ℕ × ℕ => f p.1) (hash.zip index)).map Prod.fst).length ∧
    ((istab (fun p : ℕ × ℕ => f p.1) (hash.zip index)).map Prod.fst).length = hash.length ∧
    List.Perm ((istab (fun p : ℕ × ℕ => f p.1) (hash.zip index)).map Prod.fst) hash := by
  have hzlen : (hash.zip index).length = hash.length := by
    rw [List.length_zip, hlen, Nat.min_self]
  refine ⟨by rw [List.length_map, List.length_map], ?_, ?_⟩
  · rw [List.length_map, istab_length, hzlen]
  · have h1 : List.Perm (istab (fun p : ℕ × ℕ => f p.1) (hash.zip index)) (hash.zip index) :=
      istab_perm _ _
    have h2 := h1.map Prod.fst
    rwa [List.map_fst_zip hash index (by omega)] at h2

/-- The running-offset fold projected to table `c4` is the exclusive prefix scan. -/
theorem offsets16_exscan_c4 (size : ℕ) (cc : radixCounts16) :
    ((List.range size).foldl gf16_offsetStep ⟨cc, 0, 0, 0, 0⟩).c.c4 =
      (exscan1 cc.c4 size).1 := by
  have h := congrArg Prod.fst (gf16_offsets_c4 (List.range size) ⟨cc, 0, 0, 0, 0⟩)
  exact h

/-- The running-offset fold projected to table `c3` is the exclusive prefix scan. -/
theorem offsets16_exscan_c3 (size : ℕ) (cc : radixCounts16) :
    ((List.range size).foldl gf16_offsetStep ⟨cc, 0, 0, 0, 0⟩).c.c3 =
      (exscan1 cc.c3 size).1 := by
  have h := congrArg Prod.fst (gf16_offsets_c3 (List.range size) ⟨cc, 0, 0, 0, 0⟩)
  exact h

/-- The running-offset fold projected to table `c2` is the exclusive prefix scan. -/
theorem offsets16_exscan_c2 (size : ℕ) (cc : radixCounts16) :
    ((List.range size).foldl gf16_offsetStep ⟨cc, 0, 0, 0, 0⟩).c.c2 =
      (exscan1 cc.c2 size).1 := by
  have h := congrArg Prod.fst (gf16_offsets_c2 (List.range size) ⟨cc, 0, 0, 0, 0⟩)
  exact h

/-- The running-offset fold projected to table `c1` is the exclusive prefix scan. -/
theorem offsets16_exscan_c1 (size : ℕ) (cc : radixCounts16) :
    ((List.range size).foldl gf16_offsetStep ⟨cc, 0, 0, 0, 0⟩).c.c1 =
      (exscan1 cc.c1 size).1 := by
  have h := congrArg Prod.fst (gf16_offsets_c1 (List.range size) ⟨cc, 0, 0, 0, 0⟩)
  exact h

set_option maxHeartbeats 2000000 in
/-- `gf_radix_sort16` is the stable sort of the (hash, index) pairs by the low 64 bits
of the hash: each pass is a stable distribution on one digit, and the LSD
composition of the passes sorts on the full 64-bit key. -/
theorem gf_radix_sort16_char (hash index : List ℕ) (hlen : index.length = hash.length) :
    gf_radix_sort16 hash index =
      ((istab (fun p : ℕ × ℕ => p.1 % 2 ^ 64) (hash.zip index)).map Prod.fst,
       (istab (fun p : ℕ × ℕ => p.1 % 2 ^ 64) (hash.zip index)).map Prod.snd) := by
  have hcnt4 : (hash.foldl gf16_countStep ⟨(fun _ => 0), (fun _ => 0), (fun _ => 0), (fun _ => 0)⟩).c4 =
      histFold (fun h => h % 65536) hash (fun _ => 0) := by
    rw [gf16_count_c4]
  have hc4 : ∀ d, d < 65536 →
      (gf16_counts hash).c4 d = ebase (fun v => hash.countP (fun w => w % 65536 == v)) d := by
    intro d hd
    rw [gf16_counts, offsets16_exscan_c4 65536 (hash.foldl gf16_countStep ⟨(fun _ => 0), (fun _ => 0), (fun _ => 0), (fun _ => 0)⟩), hcnt4,
      (exscan1_spec (histFold (fun h => h % 65536) hash (fun _ => 0)) 65536).1 d,
      if_pos hd]
    refine ebase_congr _ _ d (fun w _ => ?_)
    rw [histFold_spec]
    omega
  have hcnt3 : (hash.foldl gf16_countStep ⟨(fun _ => 0), (fun _ => 0), (fun _ => 0), (fun _ => 0)⟩).c3 =
      histFold (fun h => h / 2 ^ 16 % 65536) hash (fun _ => 0) := by
    rw [gf16_count_c3]
  have hc3 : ∀ d, d < 65536 →
      (gf16_counts hash).c3 d = ebase (fun v => hash.countP (fun w => w / 2 ^ 16 % 65536 == v)) d := by
    intro d hd
    rw [gf16_counts, offsets16_exscan_c3 65536 (hash.foldl gf16_countStep ⟨(fun _ => 0), (fun _ => 0), (fun _ => 0), (fun _ => 0)⟩), hcnt3,
      (exscan1_spec (histFold (fun h => h / 2 ^ 16 % 65536) hash (fun _ => 0)) 65536).1 d,
      if_pos hd]
    refine ebase_congr _ _ d (fun w _ => ?_)
    rw [histFold_spec]
    omega
  have hcnt2 : (hash.foldl gf16_countStep ⟨(fun _ => 0), (fun _ => 0), (fun _ => 0), (fun _ => 0)⟩).c2 =
      histFold (fun h => h / 2 ^ 32 % 65536) hash (fun _ => 0) := by
    rw [gf16_count_c2]
  have hc2 : ∀ d, d < 65536 →
      (gf16_counts hash).c2 d = ebase (fun v => hash.countP (fun w => w / 2 ^ 32 % 65536 == v)) d := by
    intro d hd
    rw [gf16_counts, offsets16_exscan_c2 65536 (hash.foldl gf16_countStep ⟨(fun _ => 0), (fun _ => 0), (fun _ => 0), (fun _ => 0)⟩), hcnt2,
      (exscan1_spec (histFold (fun h => h / 2 ^ 32 % 65536) hash (fun _ => 0)) 65536).1 d,
      if_pos hd]
    refine ebase_congr _ _ d (fun w _ => ?_)
    rw [histFold_spec]
    omega
  have hcnt1 : (hash.foldl gf16_countStep ⟨(fun _ => 0), (fun _ => 0), (fun _ => 0), (fun _ => 0)⟩).c1 =
      histFold (fun h => h / 2 ^ 48 % 65536) hash (fun _ => 0) := by
    rw [gf16_count_c1]
  have hc1 : ∀ d, d < 65536 →
      (gf16_counts hash).c1 d = ebase (fun v => hash.countP (fun w => w / 2 ^ 48 % 65536 == v)) d := by
    intro d hd
    rw [gf16_counts, offsets16_exscan_c1 65536 (hash.foldl gf16_countStep ⟨(fun _ => 0), (fun _ => 0), (fun _ => 0), (fun _ => 0)⟩), hcnt1,
      (exscan1_spec (histFold (fun h => h / 2 ^ 48 % 65536) hash (fun _ => 0)) 65536).1 d,
      if_pos hd]
    refine ebase_congr _ _ d (fun w _ => ?_)
    rw [histFold_spec]
    omega
  simp only [gf_radix_sort16]
  have hp4 := distPass_eq (fun w => w % 65536) 65536 (fun v => Nat.mod_lt _ (by norm_num))
    hash.length hash index rfl hlen (gf16_counts hash).c4
    (fun _ => 0) (fun _ => 0) hc4
  beta_reduce at hp4
  have hp4f : (distPass hash.length (fun w => w % 65536) (gf16_counts hash).c4 (fun _ => 0) (fun _ => 0)
      hash index).1 = ((istab (fun p : ℕ × ℕ => p.1 % 65536) (hash.zip index)).map Prod.fst) := by rw [hp4]
  have hp4s : (distPass hash.length (fun w => w % 65536) (gf16_counts hash).c4 (fun _ => 0) (fun _ => 0)
      hash index).2 = ((istab (fun p : ℕ × ℕ => p.1 % 65536) (hash.zip index)).map Prod.snd) := by rw [hp4]
  rw [hp4f, hp4s]
  have hf4 := istab_zl_facts (fun w => w % 65536) hash index hlen
  have hc3b : ∀ d, d < 65536 → (gf16_counts hash).c3 d =
      ebase (fun v => ((istab (fun p : ℕ × ℕ => p.1 % 65536) (hash.zip index)).map
        Prod.fst).countP (fun w => w / 2 ^ 16 % 65536 == v)) d := by
    intro d hd
    rw [hc3 d hd]
    exact ebase_congr _ _ d (fun w _ => (hf4.2.2.countP_eq _).symm)
  have hp3 := distPass_eq (fun w => w / 2 ^ 16 % 65536) 65536 (fun v => Nat.mod_lt _ (by norm_num))
    hash.length ((istab (fun p : ℕ × ℕ => p.1 % 65536) (hash.zip index)).map Prod.fst) ((istab (fun p : ℕ × ℕ => p.1 % 65536) (hash.zip index)).map Prod.snd) hf4.2.1 hf4.1 (gf16_counts hash).c3
    (fun i => hash.getD i 0) (fun i => index.getD i 0) hc3b
  beta_reduce at hp3
  rw [zip_map_fst_snd, istab_comp32] at hp3
  have hp3f : (distPass hash.length (fun w => w / 2 ^ 16 % 65536) (gf16_counts hash).c3 (fun i => hash.getD i 0) (fun i => index.getD i 0)
      ((istab (fun p : ℕ × ℕ => p.1 % 65536) (hash.zip index)).map Prod.fst) ((istab (fun p : ℕ × ℕ => p.1 % 65536) (hash.zip index)).map Prod.snd)).1 = ((istab (fun p : ℕ × ℕ => p.1 % 2 ^ 32) (hash.zip index)).map Prod.fst) := by rw [hp3]
  have hp3s : (distPass hash.length (fun w => w / 2 ^ 16 % 65536) (gf16_counts hash).c3 (fun i => hash.getD i 0) (fun i => index.getD i 0)
      ((istab (fun p : ℕ × ℕ => p.1 % 65536) (hash.zip index)).map Prod.fst) ((istab (fun p : ℕ × ℕ => p.1 % 65536) (hash.zip index)).map Prod.snd)).2 = ((istab (fun p : ℕ × ℕ => p.1 % 2 ^ 32) (hash.zip index)).map Prod.snd) := by rw [hp3]
  rw [hp3f, hp3s]
  have hf3 := istab_zl_facts (fun w => w % 2 ^ 32) hash index hlen
  have hc2b : ∀ d, d < 65536 → (gf16_counts hash).c2 d =
      ebase (fun v => ((istab (fun p : ℕ × ℕ => p.1 % 2 ^ 32) (hash.zip index)).map
        Prod.fst).countP (fun w => w / 2 ^ 32 % 65536 == v)) d := by
    intro d hd
    rw [hc2 d hd]
    exact ebase_congr _ _ d (fun w _ => (hf3.2.2.countP_eq _).symm)
  have hp2 := distPass_eq (fun w => w / 2 ^ 32 % 65536) 65536 (fun v => Nat.mod_lt _ (by norm_num))
    hash.length ((istab (fun p : ℕ × ℕ => p.1 % 2 ^ 32) (hash.zip index)).map Prod.fst) ((istab (fun p : ℕ × ℕ => p.1 % 2 ^ 32) (hash.zip index)).map Prod.snd) hf3.2.1 hf3.1 (gf16_counts hash).c2
    (fun i => ((istab (fun p : ℕ × ℕ => p.1 % 65536) (hash.zip index)).map Prod.fst).getD i 0) (fun i => ((istab (fun p : ℕ × ℕ => p.1 % 65536) (hash.zip index)).map Prod.snd).getD i 0) hc2b
  beta_reduce at hp2
  rw [zip_map_fst_snd, istab_comp48] at hp2
  have hp2f : (distPass hash.length (fun w => w / 2 ^ 32 % 65536) (gf16_counts hash).c2 (fun i => ((istab (fun p : ℕ × ℕ => p.1 % 65536) (hash.zip index)).map Prod.fst).getD i 0) (fun i => ((istab (fun p : ℕ × ℕ => p.1 % 65536) (hash.zip index)).map Prod.snd).getD i 0)
      ((istab (fun p : ℕ × ℕ => p.1 % 2 ^ 32) (hash.zip index)).map Prod.fst) ((istab (fun p : ℕ × ℕ => p.1 % 2 ^ 32) (hash.zip index)).map Prod.snd)).1 = ((istab (fun p : ℕ × ℕ => p.1 % 2 ^ 48) (hash.zip index)).map Prod.fst) := by rw [hp2]
  have hp2s : (distPass hash.length (fun w => w / 2 ^ 32 % 65536) (gf16_counts hash).c2 (fun i => ((istab (fun p : ℕ × ℕ => p.1 % 65536) (hash.zip index)).map Prod.fst).getD i 0) (fun i => ((istab (fun p : ℕ × ℕ => p.1 % 65536) (hash.zip index)).map Prod.snd).getD i 0)
      ((istab (fun p : ℕ × ℕ => p.1 % 2 ^ 32) (hash.zip index)).map Prod.fst) ((istab (fun p : ℕ × ℕ => p.1 % 2 ^ 32) (hash.zip index)).map Prod.snd)).2 = ((istab (fun p : ℕ × ℕ => p.1 % 2 ^ 48) (hash.zip index)).map Prod.snd) := by rw [hp2]
  rw [hp2f, hp2s]
  have hf2 := istab_zl_facts (fun w => w % 2 ^ 48) hash index hlen
  have hc1b : ∀ d, d < 65536 → (gf16_counts hash).c1 d =
      ebase (fun v => ((istab (fun p : ℕ × ℕ => p.1 % 2 ^ 48) (hash.zip index)).map
        Prod.fst).countP (fun w => w / 2 ^ 48 % 65536 == v)) d := by
    intro d hd
    rw [hc1 d hd]
    exact ebase_congr _ _ d (fun w _ => (hf2.2.2.countP_eq _).symm)
  have hp1 := distPass_eq (fun w => w / 2 ^ 48 % 65536) 65536 (fun v => Nat.mod_lt _ (by norm_num))
    hash.length ((istab (fun p : ℕ × ℕ => p.1 % 2 ^ 48) (hash.zip index)).map Prod.fst) ((istab (fun p : ℕ × ℕ => p.1 % 2 ^ 48) (hash.zip index)).map Prod.snd) hf2.2.1 hf2.1 (gf16_counts hash).c1
    (fun i => ((istab (fun p : ℕ × ℕ => p.1 % 2 ^ 32) (hash.zip index)).map Prod.fst).getD i 0) (fun i => ((istab (fun p : ℕ × ℕ => p.1 % 2 ^ 32) (hash.zip index)).map Prod.snd).getD i 0) hc1b
  beta_reduce at hp1
  rw [zip_map_fst_snd, istab_comp64] at hp1
  rw [hp1]

/-! ## Characterization of `gf_radix_psort16` -/

set_option maxHeartbeats 2000000 in
/-- `gf_radix_psort16` is the stable sort of the (hash, index) pairs by the low 64 bits
of the hash: each pass is a stable distribution on one digit, and the LSD
composition of the passes sorts on the full 64-bit key. -/
theorem gf_radix_psort16_char (hash index : List ℕ) (hlen : index.length = hash.length) :
    gf_radix_psort16 hash index =
      ((istab (fun p : ℕ × ℕ => p.1 % 2 ^ 64) (hash.zip index)).map Prod.fst,
       (istab (fun p : ℕ × ℕ => p.1 % 2 ^ 64) (hash.zip index)).map Prod.snd) := by
  have hth : ∀ (t : ℕ) (kf : ℕ → ℕ),
      (∀ w, (if 16 * t = 0 then w % 65536 else w / 2 ^ (16 * t) % 65536) = kf w) →
      ∀ d, d < 65536 → gf_radix_counts16 hash t d =
        ebase (fun v => hash.countP (fun w => kf w == v)) d := by
    intro t kf hkf d hd
    have hdef : gf_radix_counts16 hash t =
        (exscan1 (histFold (fun h => if 16 * t = 0 then h % 65536
          else h / 2 ^ (16 * t) % 65536) hash (fun _ => 0)) 65536).1 := rfl
    rw [hdef, (exscan1_spec _ 65536).1 d, if_pos hd]
    refine ebase_congr _ _ d (fun w _ => ?_)
    rw [histFold_spec]
    have : ∀ v : ℕ, hash.countP (fun h => (if 16 * t = 0 then h % 65536
        else h / 2 ^ (16 * t) % 65536) == v) = hash.countP (fun h => kf h == v) := by
      intro v
      exact List.countP_congr (fun e _ => by rw [hkf e])
    rw [this w]
    omega
  have hc4 := hth 0 (fun w => w % 65536) (fun w => by norm_num)
  have hc3 := hth 1 (fun w => w / 2 ^ 16 % 65536) (fun w => by norm_num)
  have hc2 := hth 2 (fun w => w / 2 ^ 32 % 65536) (fun w => by norm_num)
  have hc1 := hth 3 (fun w => w / 2 ^ 48 % 65536) (fun w => by norm_num)
  beta_reduce at hc4 hc3 hc2 hc1
  simp only [gf_radix_psort16]
  have hp4 := distPass_eq (fun w => w % 65536) 65536 (fun v => Nat.mod_lt _ (by norm_num))
    hash.length hash index rfl hlen (gf_radix_counts16 hash 0)
    (fun _ => 0) (fun _ => 0) hc4
  beta_reduce at hp4
  have hp4f : (distPass hash.length (fun w => w % 65536) (gf_radix_counts16 hash 0) (fun _ => 0) (fun _ => 0)
      hash index).1 = ((istab (fun p : ℕ × ℕ => p.1 % 65536) (hash.zip index)).map Prod.fst) := by rw [hp4]
  have hp4s : (distPass hash.length (fun w => w % 65536) (gf_radix_counts16 hash 0) (fun _ => 0) (fun _ => 0)
      hash index).2 = ((istab (fun p : ℕ × ℕ => p.1 % 65536) (hash.zip index)).map Prod.snd) := by rw [hp4]
  rw [hp4f, hp4s]
  have hf4 := istab_zl_facts (fun w => w % 65536) hash index hlen
  have hc3b : ∀ d, d < 65536 → gf_radix_counts16 hash 1 d =
      ebase (fun v => ((istab (fun p : ℕ × ℕ => p.1 % 65536) (hash.zip index)).map
        Prod.fst).countP (fun w => w / 2 ^ 16 % 65536 == v)) d := by
    intro d hd
    rw [hc3 d hd]
    exact ebase_congr _ _ d (fun w _ => (hf4.2.2.countP_eq _).symm)
  have hp3 := distPass_eq (fun w => w / 2 ^ 16 % 65536) 65536 (fun v => Nat.mod_lt _ (by norm_num))
    hash.length ((istab (fun p : ℕ × ℕ => p.1 % 65536) (hash.zip index)).map Prod.fst) ((istab (fun p : ℕ × ℕ => p.1 % 65536) (hash.zip index)).map Prod.snd) hf4.2.1 hf4.1 (gf_radix_counts16 hash 1)
    (fun i => hash.getD i 0) (fun i => index.getD i 0) hc3b
  beta_reduce at hp3
  rw [zip_map_fst_snd, istab_comp32] at hp3
  have hp3f : (distPass hash.length (fun w => w / 2 ^ 16 % 65536) (gf_radix_counts16 hash 1) (fun i => hash.getD i 0) (fun i => index.getD i 0)
      ((istab (fun p : ℕ × ℕ => p.1 % 65536) (hash.zip index)).map Prod.fst) ((istab (fun p : ℕ × ℕ => p.1 % 65536) (hash.zip index)).map Prod.snd)).1 = ((istab (fun p : ℕ × ℕ => p.1 % 2 ^ 32) (hash.zip index)).map Prod.fst) := by rw [hp3]
  have hp3s : (distPass hash.length (fun w => w / 2 ^ 16 % 65536) (gf_radix_counts16 hash 1) (fun i => hash.getD i 0) (fun i => index.getD i 0)
      ((istab (fun p : ℕ × ℕ => p.1 % 65536) (hash.zip index)).map Prod.fst) ((istab (fun p : ℕ × ℕ => p.1 % 65536) (hash.zip index)).map Prod.snd)).2 = ((istab (fun p : ℕ × ℕ => p.1 % 2 ^ 32) (hash.zip index)).map Prod.snd) := by rw [hp3]
  rw [hp3f, hp3s]
  have hf3 := istab_zl_facts (fun w => w % 2 ^ 32) hash index hlen
  have hc2b : ∀ d, d < 65536 → gf_radix_counts16 hash 2 d =
      ebase (fun v => ((istab (fun p : ℕ × ℕ => p.1 % 2 ^ 32) (hash.zip index)).map
        Prod.fst).countP (fun w => w / 2 ^ 32 % 65536 == v)) d := by
    intro d hd
    rw [hc2 d hd]
    exact ebase_congr _ _ d (fun w _ => (hf3.2.2.countP_eq _).symm)
  have hp2 := distPass_eq (fun w => w / 2 ^ 32 % 65536) 65536 (fun v => Nat.mod_lt _ (by norm_num))
    hash.length ((istab (fun p : ℕ × ℕ => p.1 % 2 ^ 32) (hash.zip index)).map Prod.fst) ((istab (fun p : ℕ × ℕ => p.1 % 2 ^ 32) (hash.zip index)).map Prod.snd) hf3.2.1 hf3.1 (gf_radix_counts16 hash 2)
    (fun i => ((istab (fun p : ℕ × ℕ => p.1 % 65536) (hash.zip index)).map Prod.fst).getD i 0) (fun i => ((istab (fun p : ℕ × ℕ => p.1 % 65536) (hash.zip index)).map Prod.snd).getD i 0) hc2b
  beta_reduce at hp2
  rw [zip_map_fst_snd, istab_comp48] at hp2
  have hp2f : (distPass hash.length (fun w => w / 2 ^ 32 % 65536) (gf_radix_counts16 hash 2) (fun i => ((istab (fun p : ℕ × ℕ => p.1 % 65536) (hash.zip index)).map Prod.fst).getD i 0) (fun i => ((istab (fun p : ℕ × ℕ => p.1 % 65536) (hash.zip index)).map Prod.snd).getD i 0)
      ((istab (fun p : ℕ × ℕ => p.1 % 2 ^ 32) (hash.zip index)).map Prod.fst) ((istab (fun p : ℕ × ℕ => p.1 % 2 ^ 32) (hash.zip index)).map Prod.snd)).1 = ((istab (fun p : ℕ × ℕ => p.1 % 2 ^ 48) (hash.zip index)).map Prod.fst) := by rw [hp2]
  have hp2s : (distPass hash.length (fun w => w / 2 ^ 32 % 65536) (gf_radix_counts16 hash 2) (fun i => ((istab (fun p : ℕ × ℕ => p.1 % 65536) (hash.zip index)).map Prod.fst).getD i 0) (fun i => ((istab (fun p : ℕ × ℕ => p.1 % 65536) (hash.zip index)).map Prod.snd).getD i 0)
      ((istab (fun p : ℕ × ℕ => p.1 % 2 ^ 32) (hash.zip index)).map Prod.fst) ((istab (fun p : ℕ × ℕ => p.1 % 2 ^ 32) (hash.zip index)).map Prod.snd)).2 = ((istab (fun p : ℕ × ℕ => p.1 % 2 ^ 48) (hash.zip index)).map Prod.snd) := by rw [hp2]
  rw [hp2f, hp2s]
  have hf2 := istab_zl_facts (fun w => w % 2 ^ 48) hash index hlen
  have hc1b : ∀ d, d < 65536 → gf_radix_counts16 hash 3 d =
      ebase (fun v => ((istab (fun p : ℕ × ℕ => p.1 % 2 ^ 48) (hash.zip index)).map
        Prod.fst).countP (fun w => w / 2 ^ 48 % 65536 == v)) d := by
    intro d hd
    rw [hc1 d hd]
    exact ebase_congr _ _ d (fun w _ => (hf2.2.2.countP_eq _).symm)
  have hp1 := distPass_eq (fun w => w / 2 ^ 48 % 65536) 65536 (fun v => Nat.mod_lt _ (by norm_num))
    hash.length ((istab (fun p : ℕ × ℕ => p.1 % 2 ^ 48) (hash.zip index)).map Prod.fst) ((istab (fun p : ℕ × ℕ => p.1 % 2 ^ 48) (hash.zip index)).map Prod.snd) hf2.2.1 hf2.1 (gf_radix_counts16 hash 3)
    (fun i => ((istab (fun p : ℕ × ℕ => p.1 % 2 ^ 32) (hash.zip index)).map Prod.fst).getD i 0) (fun i => ((istab (fun p : ℕ × ℕ => p.1 % 2 ^ 32) (hash.zip index)).map Prod.snd).getD i 0) hc1b
  beta_reduce at hp1
  rw [zip_map_fst_snd, istab_comp64] at hp1
  rw [hp1]

/-! ## Projections and composition steps for `gf_radix_sort8` -/

theorem istab_comp_step (M S : ℕ) (hM : 0 < M) (zl : List (ℕ × ℕ)) :
    istab (fun p : ℕ × ℕ => p.1 / M % S) (istab (fun p : ℕ × ℕ => p.1 % M) zl) =
      istab (fun p : ℕ × ℕ => p.1 % (M * S)) zl := by
  rw [istab_comp (fun p : ℕ × ℕ => p.1 / M % S) (fun p => p.1 % M) M zl
    (fun p => Nat.mod_lt _ hM)]
  refine istab_congr _ _ _ (fun e _ => ?_)
  have h := @Nat.mod_mul M S e.1
  rw [h]
  ring

theorem gf8_count_c8 : ∀ (l : List ℕ) (c : radixCounts8),
    (l.foldl gf8_countStep c).c8 = histFold (fun h => h % 256) l c.c8 := by
  intro l
  induction l with
  | nil => intro c; rfl
  | cons a t ih => intro c; rw [List.foldl_cons, ih]; rfl

theorem gf8_count_c7 : ∀ (l : List ℕ) (c : radixCounts8),
    (l.foldl gf8_countStep c).c7 = histFold (fun h => h / 2 ^ 8 % 256) l c.c7 := by
  intro l
  induction l with
  | nil => intro c; rfl
  | cons a t ih => intro c; rw [List.foldl_cons, ih]; rfl

theorem gf8_count_c6 : ∀ (l : List ℕ) (c : radixCounts8),
    (l.foldl gf8_countStep c).c6 = histFold (fun h => h / 2 ^ 16 % 256) l c.c6 := by
  intro l
  induction l with
  | nil => intro c; rfl
  | cons a t ih => intro c; rw [List.foldl_cons, ih]; rfl

theorem gf8_count_c5 : ∀ (l : List ℕ) (c : radixCounts8),
    (l.foldl gf8_countStep c).c5 = histFold (fun h => h / 2 ^ 24 % 256) l c.c5 := by
  intro l
  induction l with
  | nil => intro c; rfl
  | cons a t ih => intro c; rw [List.foldl_cons, ih]; rfl

theorem gf8_count_c4 : ∀ (l : List ℕ) (c : radixCounts8),
    (l.foldl gf8_countStep c).c4 = histFold (fun h => h / 2 ^ 32 % 256) l c.c4 := by
  intro l
  induction l with
  | nil => intro c; rfl
  | cons a t ih => intro c; rw [List.foldl_cons, ih]; rfl

theorem gf8_count_c3 : ∀ (l : List ℕ) (c : radixCounts8),
    (l.foldl gf8_countStep c).c3 = histFold (fun h => h / 2 ^ 40 % 256) l c.c3 := by
  intro l
  induction l with
  | nil => intro c; rfl
  | cons a t ih => intro c; rw [List.foldl_cons, ih]; rfl

theorem gf8_count_c2 : ∀ (l : List ℕ) (c : radixCounts8),
    (l.foldl gf8_countStep c).c2 = histFold (fun h => h / 2 ^ 48 % 256) l c.c2 := by
  intro l
  induction l with
  | nil => intro c; rfl
  | cons a t ih => intro c; rw [List.foldl_cons, ih]; rfl

theorem gf8_count_c1 : ∀ (l : List ℕ) (c : radixCounts8),
    (l.foldl gf8_countStep c).c1 = histFold (fun h => h / 2 ^ 56 % 256) l c.c1 := by
  intro l
  induction l with
  | nil => intro c; rfl
  | cons a t ih => intro c; rw [List.foldl_cons, ih]; rfl

theorem gf8_offsets_c8 : ∀ (l : List ℕ) (s : OffState8),
    ((l.foldl gf8_offsetStep s).c.c8, (l.foldl gf8_offsetStep s).o8) =
      l.foldl (fun q i => (Function.update q.1 i q.2, q.2 + q.1 i)) (s.c.c8, s.o8) := by
  intro l
  induction l with
  | nil => intro s; rfl
  | cons a t ih => intro s; rw [List.foldl_cons, ih, List.foldl_cons]; rfl

theorem gf8_offsets_c7 : ∀ (l : List ℕ) (s : OffState8),
    ((l.foldl gf8_offsetStep s).c.c7, (l.foldl gf8_offsetStep s).o7) =
      l.foldl (fun q i => (Function.update q.1 i q.2, q.2 + q.1 i)) (s.c.c7, s.o7) := by
  intro l
  induction l with
  | nil => intro s; rfl
  | cons a t ih => intro s; rw [List.foldl_cons, ih, List.foldl_cons]; rfl

theorem gf8_offsets_c6 : ∀ (l : List ℕ) (s : OffState8),
    ((l.foldl gf8_offsetStep s).c.c6, (l.foldl gf8_offsetStep s).o6) =
      l.foldl (fun q i => (Function.update q.1 i q.2, q.2 + q.1 i)) (s.c.c6, s.o6) := by
  intro l
  induction l with
  | nil => intro s; rfl
  | cons a t ih => intro s; rw [List.foldl_cons, ih, List.foldl_cons]; rfl

theorem gf8_offsets_c5 : ∀ (l : List ℕ) (s : OffState8),
    ((l.foldl gf8_offsetStep s).c.c5, (l.foldl gf8_offsetStep s).o5) =
      l.foldl (fun q i => (Function.update q.1 i q.2, q.2 + q.1 i)) (s.c.c5, s.o5) := by
  intro l
  induction l with
  | nil => intro s; rfl
  | cons a t ih => intro s; rw [List.foldl_cons, ih, List.foldl_cons]; rfl

theorem gf8_offsets_c4 : ∀ (l : List ℕ) (s : OffState8),
    ((l.foldl gf8_offsetStep s).c.c4, (l.foldl gf8_offsetStep s).o4) =
      l.foldl (fun q i => (Function.update q.1 i q.2, q.2 + q.1 i)) (s.c.c4, s.o4) := by
  intro l
  induction l with
  | nil => intro s; rfl
  | cons a t ih => intro s; rw [List.foldl_cons, ih, List.foldl_cons]; rfl

theorem gf8_offsets_c3 : ∀ (l : List ℕ) (s : OffState8),
    ((l.foldl gf8_offsetStep s).c.c3, (l.foldl gf8_offsetStep s).o3) =
      l.foldl (fun q i => (Function.update q.1 i q.2, q.2 + q.1 i)) (s.c.c3, s.o3) := by
  intro l
  induction l with
  | nil => intro s; rfl
  | cons a t ih => intro s; rw [List.foldl_cons, ih, List.foldl_cons]; rfl

theorem gf8_offsets_c2 : ∀ (l : List ℕ) (s : OffState8),
    ((l.foldl gf8_offsetStep s).c.c2, (l.foldl gf8_offsetStep s).o2) =
      l.foldl (fun q i => (Function.update q.1 i q.2, q.2 + q.1 i)) (s.c.c2, s.o2) := by
  intro l
  induction l with
  | nil => intro s; rfl
  | cons a t ih => intro s; rw [List.foldl_cons, ih, List.foldl_cons]; rfl

theorem gf8_offsets_c1 : ∀ (l : List ℕ) (s : OffState8),
    ((l.foldl gf8_offsetStep s).c.c1, (l.foldl gf8_offsetStep s).o1) =
      l.foldl (fun q i => (Function.update q.1 i q.2, q.2 + q.1 i)) (s.c.c1, s.o1) := by
  intro l
  induction l with
  | nil => intro s; rfl
  | cons a t ih => intro s; rw [List.foldl_cons, ih, List.foldl_cons]; rfl

/-! ## Composition lemmas for the eight 8-bit passes -/

/-- Composing the stable pass on bits [8, 16) after a stable sort on the low
8 bits sorts on the low 16 bits. -/
theorem istab8_comp16 (zl : List (ℕ × ℕ)) :
    istab (fun p : ℕ × ℕ => p.1 / 2 ^ 8 % 256) (istab (fun p : ℕ × ℕ => p.1 % 256) zl) =
      istab (fun p : ℕ × ℕ => p.1 % 2 ^ 16) zl := by
  rw [istab_comp (fun p : ℕ × ℕ => p.1 / 2 ^ 8 % 256) (fun p => p.1 % 256) 256 zl
    (fun p => Nat.mod_lt _ (by norm_num))]
  refine istab_congr _ _ _ (fun e _ => ?_)
  have hq0 : (2 : ℕ) ^ 8 = 256 := by norm_num
  have hq1 : (2 : ℕ) ^ 16 = 65536 := by norm_num
  rw [hq0, hq1]
  omega

/-- Composing the stable pass on bits [16, 24) after a stable sort on the low
16 bits sorts on the low 24 bits. -/
theorem istab8_comp24 (zl : List (ℕ × ℕ)) :
    istab (fun p : ℕ × ℕ => p.1 / 2 ^ 16 % 256) (istab (fun p : ℕ × ℕ => p.1 % 2 ^ 16) zl) =
      istab (fun p : ℕ × ℕ => p.1 % 2 ^ 24) zl := by
  rw [istab_comp (fun p : ℕ × ℕ => p.1 / 2 ^ 16 % 256) (fun p => p.1 % 2 ^ 16) (2 ^ 16) zl
    (fun p => Nat.mod_lt _ (by norm_num))]
  refine istab_congr _ _ _ (fun e _ => ?_)
  have hq0 : (2 : ℕ) ^ 16 = 65536 := by norm_num
  have hq1 : (2 : ℕ) ^ 24 = 16777216 := by norm_num
  rw [hq0, hq1]
  omega

/-- Composing the stable pass on bits [24, 32) after a stable sort on the low
24 bits sorts on the low 32 bits. -/
theorem istab8_comp32b (zl : List (ℕ × ℕ)) :
    istab (fun p : ℕ × ℕ => p.1 / 2 ^ 24 % 256) (istab (fun p : ℕ × ℕ => p.1 % 2 ^ 24) zl) =
      istab (fun p : ℕ × ℕ => p.1 % 2 ^ 32) zl := by
  rw [istab_comp (fun p : ℕ × ℕ => p.1 / 2 ^ 24 % 256) (fun p => p.1 % 2 ^ 24) (2 ^ 24) zl
    (fun p => Nat.mod_lt _ (by norm_num))]
  refine istab_congr _ _ _ (fun e _ => ?_)
  have hq0 : (2 : ℕ) ^ 24 = 16777216 := by norm_num
  have hq1 : (2 : ℕ) ^ 32 = 4294967296 := by norm_num
  rw [hq0, hq1]
  omega

/-- Composing the stable pass on bits [32, 40) after a stable sort on the low
32 bits sorts on the low 40 bits. -/
theorem istab8_comp40 (zl : List (ℕ × ℕ)) :
    istab (fun p : ℕ × ℕ => p.1 / 2 ^ 32 % 256) (istab (fun p : ℕ × ℕ => p.1 % 2 ^ 32) zl) =
      istab (fun p : ℕ × ℕ => p.1 % 2 ^ 40) zl := by
  rw [istab_comp (fun p : ℕ × ℕ => p.1 / 2 ^ 32 % 256) (fun p => p.1 % 2 ^ 32) (2 ^ 32) zl
    (fun p => Nat.mod_lt _ (by norm_num))]
  refine istab_congr _ _ _ (fun e _ => ?_)
  have hq0 : (2 : ℕ) ^ 32 = 4294967296 := by norm_num
  have hq1 : (2 : ℕ) ^ 40 = 1099511627776 := by norm_num
  rw [hq0, hq1]
  omega

/-- Composing the stable pass on bits [40, 48) after a stable sort on the low
40 bits sorts on the low 48 bits. -/
theorem istab8_comp48b (zl : List (ℕ × ℕ)) :
    istab (fun p : ℕ × ℕ => p.1 / 2 ^ 40 % 256) (istab (fun p : ℕ × ℕ => p.1 % 2 ^ 40) zl) =
      istab (fun p : ℕ × ℕ => p.1 % 2 ^ 48) zl := by
  rw [istab_comp (fun p : ℕ × ℕ => p.1 / 2 ^ 40 % 256) (fun p => p.1 % 2 ^ 40) (2 ^ 40) zl
    (fun p => Nat.mod_lt _ (by norm_num))]
  refine istab_congr _ _ _ (fun e _ => ?_)
  have hq0 : (2 : ℕ) ^ 40 = 1099511627776 := by norm_num
  have hq1 : (2 : ℕ) ^ 48 = 281474976710656 := by norm_num
  rw [hq0, hq1]
  omega

/-- Composing the stable pass on bits [48, 56) after a stable sort on the low
48 bits sorts on the low 56 bits. -/
theorem istab8_comp56 (zl : List (ℕ × ℕ)) :
    istab (fun p : ℕ × ℕ => p.1 / 2 ^ 48 % 256) (istab (fun p : ℕ × ℕ => p.1 % 2 ^ 48) zl) =
      istab (fun p : ℕ × ℕ => p.1 % 2 ^ 56) zl := by
  rw [istab_comp (fun p : ℕ × ℕ => p.1 / 2 ^ 48 % 256) (fun p => p.1 % 2 ^ 48) (2 ^ 48) zl
    (fun p => Nat.mod_lt _ (by norm_num))]
  refine istab_congr _ _ _ (fun e _ => ?_)
  have hq0 : (2 : ℕ) ^ 48 = 281474976710656 := by norm_num
  have hq1 : (2 : ℕ) ^ 56 = 72057594037927936 := by norm_num
  rw [hq0, hq1]
  omega

/-- Composing the stable pass on bits [56, 64) after a stable sort on the low
56 bits sorts on the low 64 bits. -/
theorem istab8_comp64b (zl : List (ℕ × ℕ)) :
    istab (fun p : ℕ × ℕ => p.1 / 2 ^ 56 % 256) (istab (fun p : ℕ × ℕ => p.1 % 2 ^ 56) zl) =
      istab (fun p : ℕ × ℕ => p.1 % 2 ^ 64) zl := by
  rw [istab_comp (fun p : ℕ × ℕ => p.1 / 2 ^ 56 % 256) (fun p => p.1 % 2 ^ 56) (2 ^ 56) zl
    (fun p => Nat.mod_lt _ (by norm_num))]
  refine istab_congr _ _ _ (fun e _ => ?_)
  have hq0 : (2 : ℕ) ^ 56 = 72057594037927936 := by norm_num
  have hq1 : (2 : ℕ) ^ 64 = 18446744073709551616 := by norm_num
  rw [hq0, hq1]
  omega

/-- The running-offset fold projected to table `c8` is the exclusive prefix scan. -/
theorem offsets8_exscan_c8 (size : ℕ) (cc : radixCounts8) :
    ((List.range size).foldl gf8_offsetStep ⟨cc, 0, 0, 0, 0, 0, 0, 0, 0⟩).c.c8 =
      (exscan1 cc.c8 size).1 := by
  have h := congrArg Prod.fst (gf8_offsets_c8 (List.range size) ⟨cc, 0, 0, 0, 0, 0, 0, 0, 0⟩)
  exact h

/-- The running-offset fold projected to table `c7` is the exclusive prefix scan. -/
theorem offsets8_exscan_c7 (size : ℕ) (cc : radixCounts8) :
    ((List.range size).foldl gf8_offsetStep ⟨cc, 0, 0, 0, 0, 0, 0, 0, 0⟩).c.c7 =
      (exscan1 cc.c7 size).1 := by
  have h := congrArg Prod.fst (gf8_offsets_c7 (List.range size) ⟨cc, 0, 0, 0, 0, 0, 0, 0, 0⟩)
  exact h

/-- The running-offset fold projected to table `c6` is the exclusive prefix scan. -/
theorem offsets8_exscan_c6 (size : ℕ) (cc : radixCounts8) :
    ((List.range size).foldl gf8_offsetStep ⟨cc, 0, 0, 0, 0, 0, 0, 0, 0⟩).c.c6 =
      (exscan1 cc.c6 size).1 := by
  have h := congrArg Prod.fst (gf8_offsets_c6 (List.range size) ⟨cc, 0, 0, 0, 0, 0, 0, 0, 0⟩)
  exact h

/-- The running-offset fold projected to table `c5` is the exclusive prefix scan. -/
theorem offsets8_exscan_c5 (size : ℕ) (cc : radixCounts8) :
    ((List.range size).foldl gf8_offsetStep ⟨cc, 0, 0, 0, 0, 0, 0, 0, 0⟩).c.c5 =
      (exscan1 cc.c5 size).1 := by
  have h := congrArg Prod.fst (gf8_offsets_c5 (List.range size) ⟨cc, 0, 0, 0, 0, 0, 0, 0, 0⟩)
  exact h

/-- The running-offset fold projected to table `c4` is the exclusive prefix scan. -/
theorem offsets8_exscan_c4 (size : ℕ) (cc : radixCounts8) :
    ((List.range size).foldl gf8_offsetStep ⟨cc, 0, 0, 0, 0, 0, 0, 0, 0⟩).c.c4 =
      (exscan1 cc.c4 size).1 := by
  have h := congrArg Prod.fst (gf8_offsets_c4 (List.range size) ⟨cc, 0, 0, 0, 0, 0, 0, 0, 0⟩)
  exact h

/-- The running-offset fold projected to table `c3` is the exclusive prefix scan. -/
theorem offsets8_exscan_c3 (size : ℕ) (cc : radixCounts8) :
    ((List.range size).foldl gf8_offsetStep ⟨cc, 0, 0, 0, 0, 0, 0, 0, 0⟩).c.c3 =
      (exscan1 cc.c3 size).1 := by
  have h := congrArg Prod.fst (gf8_offsets_c3 (List.range size) ⟨cc, 0, 0, 0, 0, 0, 0, 0, 0⟩)
  exact h

/-- The running-offset fold projected to table `c2` is the exclusive prefix scan. -/
theorem offsets8_exscan_c2 (size : ℕ) (cc : radixCounts8) :
    ((List.range size).foldl gf8_offsetStep ⟨cc, 0, 0, 0, 0, 0, 0, 0, 0⟩).c.c2 =
      (exscan1 cc.c2 size).1 := by
  have h := congrArg Prod.fst (gf8_offsets_c2 (List.range size) ⟨cc, 0, 0, 0, 0, 0, 0, 0, 0⟩)
  exact h

/-- The running-offset fold projected to table `c1` is the exclusive prefix scan. -/
theorem offsets8_exscan_c1 (size : ℕ) (cc : radixCounts8) :
    ((List.range size).foldl gf8_offsetStep ⟨cc, 0, 0, 0, 0, 0, 0, 0, 0⟩).c.c1 =
      (exscan1 cc.c1 size).1 := by
  have h := congrArg Prod.fst (gf8_offsets_c1 (List.range size) ⟨cc, 0, 0, 0, 0, 0, 0, 0, 0⟩)
  exact h

set_option maxHeartbeats 2000000 in
/-- `gf_radix_sort8` is the stable sort of the (hash, index) pairs by the low 64 bits
of the hash: each pass is a stable distribution on one digit, and the LSD
composition of the passes sorts on the full 64-bit key. -/
theorem gf_radix_sort8_char (hash index : List ℕ) (hlen : index.length = hash.length) :
    gf_radix_sort8 hash index =
      ((istab (fun p : ℕ × ℕ => p.1 % 2 ^ 64) (hash.zip index)).map Prod.fst,
       (istab (fun p : ℕ × ℕ => p.1 % 2 ^ 64) (hash.zip index)).map Prod.snd) := by
  have hcnt8 : (hash.foldl gf8_countStep ⟨(fun _ => 0), (fun _ => 0), (fun _ => 0), (fun _ => 0), (fun _ => 0), (fun _ => 0), (fun _ => 0), (fun _ => 0)⟩).c8 =
      histFold (fun h => h % 256) hash (fun _ => 0) := by
    rw [gf8_count_c8]
  have hc8 : ∀ d, d < 256 →
      (gf8_counts hash).c8 d = ebase (fun v => hash.countP (fun w => w % 256 == v)) d := by
    intro d hd
    rw [gf8_counts, offsets8_exscan_c8 256 (hash.foldl gf8_countStep ⟨(fun _ => 0), (fun _ => 0), (fun _ => 0), (fun _ => 0), (fun _ => 0), (fun _ => 0), (fun _ => 0), (fun _ => 0)⟩), hcnt8,
      (exscan1_spec (histFold (fun h => h % 256) hash (fun _ => 0)) 256).1 d,
      if_pos hd]
    refine ebase_congr _ _ d (fun w _ => ?_)
    rw [histFold_spec]
    omega
  have hcnt7 : (hash.foldl gf8_countStep ⟨(fun _ => 0), (fun _ => 0), (fun _ => 0), (fun _ => 0), (fun _ => 0), (fun _ => 0), (fun _ => 0), (fun _ => 0)⟩).c7 =
      histFold (fun h => h / 2 ^ 8 % 256) hash (fun _ => 0) := by
    rw [gf8_count_c7]
  have hc7 : ∀ d, d < 256 →
      (gf8_counts hash).c7 d = ebase (fun v => hash.countP (fun w => w / 2 ^ 8 % 256 == v)) d := by
    intro d hd
    rw [gf8_counts, offsets8_exscan_c7 256 (hash.foldl gf8_countStep ⟨(fun _ => 0), (fun _ => 0), (fun _ => 0), (fun _ => 0), (fun _ => 0), (fun _ => 0), (fun _ => 0), (fun _ => 0)⟩), hcnt7,
      (exscan1_spec (histFold (fun h => h / 2 ^ 8 % 256) hash (fun _ => 0)) 256).1 d,
      if_pos hd]
    refine ebase_congr _ _ d (fun w _ => ?_)
    rw [histFold_spec]
    omega
  have hcnt6 : (hash.foldl gf8_countStep ⟨(fun _ => 0), (fun _ => 0), (fun _ => 0), (fun _ => 0), (fun _ => 0), (fun _ => 0), (fun _ => 0), (fun _ => 0)⟩).c6 =
      histFold (fun h => h / 2 ^ 16 % 256) hash (fun _ => 0) := by
    rw [gf8_count_c6]
  have hc6 : ∀ d, d < 256 →
      (gf8_counts hash).c6 d = ebase (fun v => hash.countP (fun w => w / 2 ^ 16 % 256 == v)) d := by
    intro d hd
    rw [gf8_counts, offsets8_exscan_c6 256 (hash.foldl gf8_countStep ⟨(fun _ => 0), (fun _ => 0), (fun _ => 0), (fun _ => 0), (fun _ => 0), (fun _ => 0), (fun _ => 0), (fun _ => 0)⟩), hcnt6,
      (exscan1_spec (histFold (fun h => h / 2 ^ 16 % 256) hash (fun _ => 0)) 256).1 d,
      if_pos hd]
    refine ebase_congr _ _ d (fun w _ => ?_)
    rw [histFold_spec]
    omega
  have hcnt5 : (hash.foldl gf8_countStep ⟨(fun _ => 0), (fun _ => 0), (fun _ => 0), (fun _ => 0), (fun _ => 0), (fun _ => 0), (fun _ => 0), (fun _ => 0)⟩).c5 =
      histFold (fun h => h / 2 ^ 24 % 256) hash (fun _ => 0) := by
    rw [gf8_count_c5]
  have hc5 : ∀ d, d < 256 →
      (gf8_counts hash).c5 d = ebase (fun v => hash.countP (fun w => w / 2 ^ 24 % 256 == v)) d := by
    intro d hd
    rw [gf8_counts, offsets8_exscan_c5 256 (hash.foldl gf8_countStep ⟨(fun _ => 0), (fun _ => 0), (fun _ => 0), (fun _ => 0), (fun _ => 0), (fun _ => 0), (fun _ => 0), (fun _ => 0)⟩), hcnt5,
      (exscan1_spec (histFold (fun h => h / 2 ^ 24 % 256) hash (fun _ => 0)) 256).1 d,
      if_pos hd]
    refine ebase_congr _ _ d (fun w _ => ?_)
    rw [histFold_spec]
    omega
  have hcnt4 : (hash.foldl gf8_countStep ⟨(fun _ => 0), (fun _ => 0), (fun _ => 0), (fun _ => 0), (fun _ => 0), (fun _ => 0), (fun _ => 0), (fun _ => 0)⟩).c4 =
      histFold (fun h => h / 2 ^ 32 % 256) hash (fun _ => 0) := by
    rw [gf8_count_c4]
  have hc4 : ∀ d, d < 256 →
      (gf8_counts hash).c4 d = ebase (fun v => hash.countP (fun w => w / 2 ^ 32 % 256 == v)) d := by
    intro d hd
    rw [gf8_counts, offsets8_exscan_c4 256 (hash.foldl gf8_countStep ⟨(fun _ => 0), (fun _ => 0), (fun _ => 0), (fun _ => 0), (fun _ => 0), (fun _ => 0), (fun _ => 0), (fun _ => 0)⟩), hcnt4,
      (exscan1_spec (histFold (fun h => h / 2 ^ 32 % 256) hash (fun _ => 0)) 256).1 d,
      if_pos hd]
    refine ebase_congr _ _ d (fun w _ => ?_)
    rw [histFold_spec]
    omega
  have hcnt3 : (hash.foldl gf8_countStep ⟨(fun _ => 0), (fun _ => 0), (fun _ => 0), (fun _ => 0), (fun _ => 0), (fun _ => 0), (fun _ => 0), (fun _ => 0)⟩).c3 =
      histFold (fun h => h / 2 ^ 40 % 256) hash (fun _ => 0) := by
    rw [gf8_count_c3]
  have hc3 : ∀ d, d < 256 →
      (gf8_counts hash).c3 d = ebase (fun v => hash.countP (fun w => w / 2 ^ 40 % 256 == v)) d := by
    intro d hd
    rw [gf8_counts, offsets8_exscan_c3 256 (hash.foldl gf8_countStep ⟨(fun _ => 0), (fun _ => 0), (fun _ => 0), (fun _ => 0), (fun _ => 0), (fun _ => 0), (fun _ => 0), (fun _ => 0)⟩), hcnt3,
      (exscan1_spec (histFold (fun h => h / 2 ^ 40 % 256) hash (fun _ => 0)) 256).1 d,
      if_pos hd]
    refine ebase_congr _ _ d (fun w _ => ?_)
    rw [histFold_spec]
    omega
  have hcnt2 : (hash.foldl gf8_countStep ⟨(fun _ => 0), (fun _ => 0), (fun _ => 0), (fun _ => 0), (fun _ => 0), (fun _ => 0), (fun _ => 0), (fun _ => 0)⟩).c2 =
      histFold (fun h => h / 2 ^ 48 % 256) hash (fun _ => 0) := by
    rw [gf8_count_c2]
  have hc2 : ∀ d, d < 256 →
      (gf8_counts hash).c2 d = ebase (fun v => hash.countP (fun w => w / 2 ^ 48 % 256 == v)) d := by
    intro d hd
    rw [gf8_counts, offsets8_exscan_c2 256 (hash.foldl gf8_countStep ⟨(fun _ => 0), (fun _ => 0), (fun _ => 0), (fun _ => 0), (fun _ => 0), (fun _ => 0), (fun _ => 0), (fun _ => 0)⟩), hcnt2,
      (exscan1_spec (histFold (fun h => h / 2 ^ 48 % 256) hash (fun _ => 0)) 256).1 d,
      if_pos hd]
    refine ebase_congr _ _ d (fun w _ => ?_)
    rw [histFold_spec]
    omega
  have hcnt1 : (hash.foldl gf8_countStep ⟨(fun _ => 0), (fun _ => 0), (fun _ => 0), (fun _ => 0), (fun _ => 0), (fun _ => 0), (fun _ => 0), (fun _ => 0)⟩).c1 =
      histFold (fun h => h / 2 ^ 56 % 256) hash (fun _ => 0) := by
    rw [gf8_count_c1]
  have hc1 : ∀ d, d < 256 →
      (gf8_counts hash).c1 d = ebase (fun v => hash.countP (fun w => w / 2 ^ 56 % 256 == v)) d := by
    intro d hd
    rw [gf8_counts, offsets8_exscan_c1 256 (hash.foldl gf8_countStep ⟨(fun _ => 0), (fun _ => 0), (fun _ => 0), (fun _ => 0), (fun _ => 0), (fun _ => 0), (fun _ => 0), (fun _ => 0)⟩), hcnt1,
      (exscan1_spec (histFold (fun h => h / 2 ^ 56 % 256) hash (fun _ => 0)) 256).1 d,
      if_pos hd]
    refine ebase_congr _ _ d (fun w _ => ?_)
    rw [histFold_spec]
    omega
  simp only [gf_radix_sort8]
  have hp8 := distPass_eq (fun w => w % 256) 256 (fun v => Nat.mod_lt _ (by norm_num))
    hash.length hash index rfl hlen (gf8_counts hash).c8
    (fun _ => 0) (fun _ => 0) hc8
  beta_reduce at hp8
  have hp8f : (distPass hash.length (fun w => w % 256) (gf8_counts hash).c8 (fun _ => 0) (fun _ => 0)
      hash index).1 = ((istab (fun p : ℕ × ℕ => p.1 % 256) (hash.zip index)).map Prod.fst) := by rw [hp8]
  have hp8s : (distPass hash.length (fun w => w % 256) (gf8_counts hash).c8 (fun _ => 0) (fun _ => 0)
      hash index).2 = ((istab (fun p : ℕ × ℕ => p.1 % 256) (hash.zip index)).map Prod.snd) := by rw [hp8]
  rw [hp8f, hp8s]
  have hf8 := istab_zl_facts (fun w => w % 256) hash index hlen
  have hc7b : ∀ d, d < 256 → (gf8_counts hash).c7 d =
      ebase (fun v => ((istab (fun p : ℕ × ℕ => p.1 % 256) (hash.zip index)).map
        Prod.fst).countP (fun w => w / 2 ^ 8 % 256 == v)) d := by
    intro d hd
    rw [hc7 d hd]
    exact ebase_congr _ _ d (fun w _ => (hf8.2.2.countP_eq _).symm)
  have hp7 := distPass_eq (fun w => w / 2 ^ 8 % 256) 256 (fun v => Nat.mod_lt _ (by norm_num))
    hash.length ((istab (fun p : ℕ × ℕ => p.1 % 256) (hash.zip index)).map Prod.fst) ((istab (fun p : ℕ × ℕ => p.1 % 256) (hash.zip index)).map Prod.snd) hf8.2.1 hf8.1 (gf8_counts hash).c7
    (fun i => hash.getD i 0) (fun i => index.getD i 0) hc7b
  beta_reduce at hp7
  rw [zip_map_fst_snd, istab8_comp16] at hp7
  have hp7f : (distPass hash.length (fun w => w / 2 ^ 8 % 256) (gf8_counts hash).c7 (fun i => hash.getD i 0) (fun i => index.getD i 0)
      ((istab (fun p : ℕ × ℕ => p.1 % 256) (hash.zip index)).map Prod.fst) ((istab (fun p : ℕ × ℕ => p.1 % 256) (hash.zip index)).map Prod.snd)).1 = ((istab (fun p : ℕ × ℕ => p.1 % 2 ^ 16) (hash.zip index)).map Prod.fst) := by rw [hp7]
  have hp7s : (distPass hash.length (fun w => w / 2 ^ 8 % 256) (gf8_counts hash).c7 (fun i => hash.getD i 0) (fun i => index.getD i 0)
      ((istab (fun p : ℕ × ℕ => p.1 % 256) (hash.zip index)).map Prod.fst) ((istab (fun p : ℕ × ℕ => p.1 % 256) (hash.zip index)).map Prod.snd)).2 = ((istab (fun p : ℕ × ℕ => p.1 % 2 ^ 16) (hash.zip index)).map Prod.snd) := by rw [hp7]
  rw [hp7f, hp7s]
  have hf7 := istab_zl_facts (fun w => w % 2 ^ 16) hash index hlen
  have hc6b : ∀ d, d < 256 → (gf8_counts hash).c6 d =
      ebase (fun v => ((istab (fun p : ℕ × ℕ => p.1 % 2 ^ 16) (hash.zip index)).map
        Prod.fst).countP (fun w => w / 2 ^ 16 % 256 == v)) d := by
    intro d hd
    rw [hc6 d hd]
    exact ebase_congr _ _ d (fun w _ => (hf7.2.2.countP_eq _).symm)
  have hp6 := distPass_eq (fun w => w / 2 ^ 16 % 256) 256 (fun v => Nat.mod_lt _ (by norm_num))
    hash.length ((istab (fun p : ℕ × ℕ => p.1 % 2 ^ 16) (hash.zip index)).map Prod.fst) ((istab (fun p : ℕ × ℕ => p.1 % 2 ^ 16) (hash.zip index)).map Prod.snd) hf7.2.1 hf7.1 (gf8_counts hash).c6
    (fun i => ((istab (fun p : ℕ × ℕ => p.1 % 256) (hash.zip index)).map Prod.fst).getD i 0) (fun i => ((istab (fun p : ℕ × ℕ => p.1 % 256) (hash.zip index)).map Prod.snd).getD i 0) hc6b
  beta_reduce at hp6
  rw [zip_map_fst_snd, istab8_comp24] at hp6
  have hp6f : (distPass hash.length (fun w => w / 2 ^ 16 % 256) (gf8_counts hash).c6 (fun i => ((istab (fun p : ℕ × ℕ => p.1 % 256) (hash.zip index)).map Prod.fst).getD i 0) (fun i => ((istab (fun p : ℕ × ℕ => p.1 % 256) (hash.zip index)).map Prod.snd).getD i 0)
      ((istab (fun p : ℕ × ℕ => p.1 % 2 ^ 16) (hash.zip index)).map Prod.fst) ((istab (fun p : ℕ × ℕ => p.1 % 2 ^ 16) (hash.zip index)).map Prod.snd)).1 = ((istab (fun p : ℕ × ℕ => p.1 % 2 ^ 24) (hash.zip index)).map Prod.fst) := by rw [hp6]
  have hp6s : (distPass hash.length (fun w => w / 2 ^ 16 % 256) (gf8_counts hash).c6 (fun i => ((istab (fun p : ℕ × ℕ => p.1 % 256) (hash.zip index)).map Prod.fst).getD i 0) (fun i => ((istab (fun p : ℕ × ℕ => p.1 % 256) (hash.zip index)).map Prod.snd).getD i 0)
      ((istab (fun p : ℕ × ℕ => p.1 % 2 ^ 16) (hash.zip index)).map Prod.fst) ((istab (fun p : ℕ × ℕ => p.1 % 2 ^ 16) (hash.zip index)).map Prod.snd)).2 = ((istab (fun p : ℕ × ℕ => p.1 % 2 ^ 24) (hash.zip index)).map Prod.snd) := by rw [hp6]
  rw [hp6f, hp6s]
  have hf6 := istab_zl_facts (fun w => w % 2 ^ 24) hash index hlen
  have hc5b : ∀ d, d < 256 → (gf8_counts hash).c5 d =
      ebase (fun v => ((istab (fun p : ℕ × ℕ => p.1 % 2 ^ 24) (hash.zip index)).map
        Prod.fst).countP (fun w => w / 2 ^ 24 % 256 == v)) d := by
    intro d hd
    rw [hc5 d hd]
    exact ebase_congr _ _ d (fun w _ => (hf6.2.2.countP_eq _).symm)
  have hp5 := distPass_eq (fun w => w / 2 ^ 24 % 256) 256 (fun v => Nat.mod_lt _ (by norm_num))
    hash.length ((istab (fun p : ℕ × ℕ => p.1 % 2 ^ 24) (hash.zip index)).map Prod.fst) ((istab (fun p : ℕ × ℕ => p.1 % 2 ^ 24) (hash.zip index)).map Prod.snd) hf6.2.1 hf6.1 (gf8_counts hash).c5
    (fun i => ((istab (fun p : ℕ × ℕ => p.1 % 2 ^ 16) (hash.zip index)).map Prod.fst).getD i 0) (fun i => ((istab (fun p : ℕ × ℕ => p.1 % 2 ^ 16) (hash.zip index)).map Prod.snd).getD i 0) hc5b
  beta_reduce at hp5
  rw [zip_map_fst_snd, istab8_comp32b] at hp5
  have hp5f : (distPass hash.length (fun w => w / 2 ^ 24 % 256) (gf8_counts hash).c5 (fun i => ((istab (fun p : ℕ × ℕ => p.1 % 2 ^ 16) (hash.zip index)).map Prod.fst).getD i 0) (fun i => ((istab (fun p : ℕ × ℕ => p.1 % 2 ^ 16) (hash.zip index)).map Prod.snd).getD i 0)
      ((istab (fun p : ℕ × ℕ => p.1 % 2 ^ 24) (hash.zip index)).map Prod.fst) ((istab (fun p : ℕ × ℕ => p.1 % 2 ^ 24) (hash.zip index)).map Prod.snd)).1 = ((istab (fun p : ℕ × ℕ => p.1 % 2 ^ 32) (hash.zip index)).map Prod.fst) := by rw [hp5]
  have hp5s : (distPass hash.length (fun w => w / 2 ^ 24 % 256) (gf8_counts hash).c5 (fun i => ((istab (fun p : ℕ × ℕ => p.1 % 2 ^ 16) (hash.zip index)).map Prod.fst).getD i 0) (fun i => ((istab (fun p : ℕ × ℕ => p.1 % 2 ^ 16) (hash.zip index)).map Prod.snd).getD i 0)
      ((istab (fun p : ℕ × ℕ => p.1 % 2 ^ 24) (hash.zip index)).map Prod.fst) ((istab (fun p : ℕ × ℕ => p.1 % 2 ^ 24) (hash.zip index)).map Prod.snd)).2 = ((istab (fun p : ℕ × ℕ => p.1 % 2 ^ 32) (hash.zip index)).map Prod.snd) := by rw [hp5]
  rw [hp5f, hp5s]
  have hf5 := istab_zl_facts (fun w => w % 2 ^ 32) hash index hlen
  have hc4b : ∀ d, d < 256 → (gf8_counts hash).c4 d =
      ebase (fun v => ((istab (fun p : ℕ × ℕ => p.1 % 2 ^ 32) (hash.zip index)).map
        Prod.fst).countP (fun w => w / 2 ^ 32 % 256 == v)) d := by
    intro d hd
    rw [hc4 d hd]
    exact ebase_congr _ _ d (fun w _ => (hf5.2.2.countP_eq _).symm)
  have hp4 := distPass_eq (fun w => w / 2 ^ 32 % 256) 256 (fun v => Nat.mod_lt _ (by norm_num))
    hash.length ((istab (fun p : ℕ × ℕ => p.1 % 2 ^ 32) (hash.zip index)).map Prod.fst) ((istab (fun p : ℕ × ℕ => p.1 % 2 ^ 32) (hash.zip index)).map Prod.snd) hf5.2.1 hf5.1 (gf8_counts hash).c4
    (fun i => ((istab (fun p : ℕ × ℕ => p.1 % 2 ^ 24) (hash.zip index)).map Prod.fst).getD i 0) (fun i => ((istab (fun p : ℕ × ℕ => p.1 % 2 ^ 24) (hash.zip index)).map Prod.snd).getD i 0) hc4b
  beta_reduce at hp4
  rw [zip_map_fst_snd, istab8_comp40] at hp4
  have hp4f : (distPass hash.length (fun w => w / 2 ^ 32 % 256) (gf8_counts hash).c4 (fun i => ((istab (fun p : ℕ × ℕ => p.1 % 2 ^ 24) (hash.zip index)).map Prod.fst).getD i 0) (fun i => ((istab (fun p : ℕ × ℕ => p.1 % 2 ^ 24) (hash.zip index)).map Prod.snd).getD i 0)
      ((istab (fun p : ℕ × ℕ => p.1 % 2 ^ 32) (hash.zip index)).map Prod.fst) ((istab (fun p : ℕ × ℕ => p.1 % 2 ^ 32) (hash.zip index)).map Prod.snd)).1 = ((istab (fun p : ℕ × ℕ => p.1 % 2 ^ 40) (hash.zip index)).map Prod.fst) := by rw [hp4]
  have hp4s : (distPass hash.length (fun w => w / 2 ^ 32 % 256) (gf8_counts hash).c4 (fun i => ((istab (fun p : ℕ × ℕ => p.1 % 2 ^ 24) (hash.zip index)).map Prod.fst).getD i 0) (fun i => ((istab (fun p : ℕ × ℕ => p.1 % 2 ^ 24) (hash.zip index)).map Prod.snd).getD i 0)
      ((istab (fun p : ℕ × ℕ => p.1 % 2 ^ 32) (hash.zip index)).map Prod.fst) ((istab (fun p : ℕ × ℕ => p.1 % 2 ^ 32) (hash.zip index)).map Prod.snd)).2 = ((istab (fun p : ℕ × ℕ => p.1 % 2 ^ 40) (hash.zip index)).map Prod.snd) := by rw [hp4]
  rw [hp4f, hp4s]
  have hf4 := istab_zl_facts (fun w => w % 2 ^ 40) hash index hlen
  have hc3b : ∀ d, d < 256 → (gf8_counts hash).c3 d =
      ebase (fun v => ((istab (fun p : ℕ × ℕ => p.1 % 2 ^ 40) (hash.zip index)).map
        Prod.fst).countP (fun w => w / 2 ^ 40 % 256 == v)) d := by
    intro d hd
    rw [hc3 d hd]
    exact ebase_congr _ _ d (fun w _ => (hf4.2.2.countP_eq _).symm)
  have hp3 := distPass_eq (fun w => w / 2 ^ 40 % 256) 256 (fun v => Nat.mod_lt _ (by norm_num))
    hash.length ((istab (fun p : ℕ × ℕ => p.1 % 2 ^ 40) (hash.zip index)).map Prod.fst) ((istab (fun p : ℕ × ℕ => p.1 % 2 ^ 40) (hash.zip index)).map Prod.snd) hf4.2.1 hf4.1 (gf8_counts hash).c3
    (fun i => ((istab (fun p : ℕ × ℕ => p.1 % 2 ^ 32) (hash.zip index)).map Prod.fst).getD i 0) (fun i => ((istab (fun p : ℕ × ℕ => p.1 % 2 ^ 32) (hash.zip index)).map Prod.snd).getD i 0) hc3b
  beta_reduce at hp3
  rw [zip_map_fst_snd, istab8_comp48b] at hp3
  have hp3f : (distPass hash.length (fun w => w / 2 ^ 40 % 256) (gf8_counts hash).c3 (fun i => ((istab (fun p : ℕ × ℕ => p.1 % 2 ^ 32) (hash.zip index)).map Prod.fst).getD i 0) (fun i => ((istab (fun p : ℕ × ℕ => p.1 % 2 ^ 32) (hash.zip index)).map Prod.snd).getD i 0)
      ((istab (fun p : ℕ × ℕ => p.1 % 2 ^ 40) (hash.zip index)).map Prod.fst) ((istab (fun p : ℕ × ℕ => p.1 % 2 ^ 40) (hash.zip index)).map Prod.snd)).1 = ((istab (fun p : ℕ × ℕ => p.1 % 2 ^ 48) (hash.zip index)).map Prod.fst) := by rw [hp3]
  have hp3s : (distPass hash.length (fun w => w / 2 ^ 40 % 256) (gf8_counts hash).c3 (fun i => ((istab (fun p : ℕ × ℕ => p.1 % 2 ^ 32) (hash.zip index)).map Prod.fst).getD i 0) (fun i => ((istab (fun p : ℕ × ℕ => p.1 % 2 ^ 32) (hash.zip index)).map Prod.snd).getD i 0)
      ((istab (fun p : ℕ × ℕ => p.1 % 2 ^ 40) (hash.zip index)).map Prod.fst) ((istab (fun p : ℕ × ℕ => p.1 % 2 ^ 40) (hash.zip index)).map Prod.snd)).2 = ((istab (fun p : ℕ × ℕ => p.1 % 2 ^ 48) (hash.zip index)).map Prod.snd) := by rw [hp3]
  rw [hp3f, hp3s]
  have hf3 := istab_zl_facts (fun w => w % 2 ^ 48) hash index hlen
  have hc2b : ∀ d, d < 256 → (gf8_counts hash).c2 d =
      ebase (fun v => ((istab (fun p : ℕ × ℕ => p.1 % 2 ^ 48) (hash.zip index)).map
        Prod.fst).countP (fun w => w / 2 ^ 48 % 256 == v)) d := by
    intro d hd
    rw [hc2 d hd]
    exact ebase_congr _ _ d (fun w _ => (hf3.2.2.countP_eq _).symm)
  have hp2 := distPass_eq (fun w => w / 2 ^ 48 % 256) 256 (fun v => Nat.mod_lt _ (by norm_num))
    hash.length ((istab (fun p : ℕ × ℕ => p.1 % 2 ^ 48) (hash.zip index)).map Prod.fst) ((istab (fun p : ℕ × ℕ => p.1 % 2 ^ 48) (hash.zip index)).map Prod.snd) hf3.2.1 hf3.1 (gf8_counts hash).c2
    (fun i => ((istab (fun p : ℕ × ℕ => p.1 % 2 ^ 40) (hash.zip index)).map Prod.fst).getD i 0) (fun i => ((istab (fun p : ℕ × ℕ => p.1 % 2 ^ 40) (hash.zip index)).map Prod.snd).getD i 0) hc2b
  beta_reduce at hp2
  rw [zip_map_fst_snd, istab8_comp56] at hp2
  have hp2f : (distPass hash.length (fun w => w / 2 ^ 48 % 256) (gf8_counts hash).c2 (fun i => ((istab (fun p : ℕ × ℕ => p.1 % 2 ^ 40) (hash.zip index)).map Prod.fst).getD i 0) (fun i => ((istab (fun p : ℕ × ℕ => p.1 % 2 ^ 40) (hash.zip index)).map Prod.snd).getD i 0)
      ((istab (fun p : ℕ × ℕ => p.1 % 2 ^ 48) (hash.zip index)).map Prod.fst) ((istab (fun p : ℕ × ℕ => p.1 % 2 ^ 48) (hash.zip index)).map Prod.snd)).1 = ((istab (fun p : ℕ × ℕ => p.1 % 2 ^ 56) (hash.zip index)).map Prod.fst) := by rw [hp2]
  have hp2s : (distPass hash.length (fun w => w / 2 ^ 48 % 256) (gf8_counts hash).c2 (fun i => ((istab (fun p : ℕ × ℕ => p.1 % 2 ^ 40) (hash.zip index)).map Prod.fst).getD i 0) (fun i => ((istab (fun p : ℕ × ℕ => p.1 % 2 ^ 40) (hash.zip index)).map Prod.snd).getD i 0)
      ((istab (fun p : ℕ × ℕ => p.1 % 2 ^ 48) (hash.zip index)).map Prod.fst) ((istab (fun p : ℕ × ℕ => p.1 % 2 ^ 48) (hash.zip index)).map Prod.snd)).2 = ((istab (fun p : ℕ × ℕ => p.1 % 2 ^ 56) (hash.zip index)).map Prod.snd) := by rw [hp2]
  rw [hp2f, hp2s]
  have hf2 := istab_zl_facts (fun w => w % 2 ^ 56) hash index hlen
  have hc1b : ∀ d, d < 256 → (gf8_counts hash).c1 d =
      ebase (fun v => ((istab (fun p : ℕ × ℕ => p.1 % 2 ^ 56) (hash.zip index)).map
        Prod.fst).countP (fun w => w / 2 ^ 56 % 256 == v)) d := by
    intro d hd
    rw [hc1 d hd]
    exact ebase_congr _ _ d (fun w _ => (hf2.2.2.countP_eq _).symm)
  have hp1 := distPass_eq (fun w => w / 2 ^ 56 % 256) 256 (fun v => Nat.mod_lt _ (by norm_num))
    hash.length ((istab (fun p : ℕ × ℕ => p.1 % 2 ^ 56) (hash.zip index)).map Prod.fst) ((istab (fun p : ℕ × ℕ => p.1 % 2 ^ 56) (hash.zip index)).map Prod.snd) hf2.2.1 hf2.1 (gf8_counts hash).c1
    (fun i => ((istab (fun p : ℕ × ℕ => p.1 % 2 ^ 48) (hash.zip index)).map Prod.fst).getD i 0) (fun i => ((istab (fun p : ℕ × ℕ => p.1 % 2 ^ 48) (hash.zip index)).map Prod.snd).getD i 0) hc1b
  beta_reduce at hp1
  rw [zip_map_fst_snd, istab8_comp64b] at hp1
  rw [hp1]

/-! ## Positional stability of the reference sort -/

/-- Two positions of a list, in order, form a sublist. -/
theorem pair_sublist : ∀ (l : List α) (i j : ℕ) (hi : i < l.length) (hj : j < l.length),
    i < j → List.Sublist [l.get ⟨i, hi⟩, l.get ⟨j, hj⟩] l := by
  intro l
  induction l with
  | nil => intro i j hi; simp at hi
  | cons a t ih =>
    intro i j hi hj hij
    match i, j with
    | 0, jj + 1 =>
      have hjt : jj < t.length := by simpa using hj
      show List.Sublist [a, t.get ⟨jj, hjt⟩] (a :: t)
      exact (List.singleton_sublist.2 (t.get_mem jj hjt)).cons₂ a
    | ii + 1, jj + 1 =>
      have hit : ii < t.length := by simpa using hi
      have hjt : jj < t.length := by simpa using hj
      show List.Sublist [t.get ⟨ii, hit⟩, t.get ⟨jj, hjt⟩] (a :: t)
      exact (ih ii jj hit hjt (by omega)).cons a

/-- Stability of `istab` over a key-with-identity-index zip: if rows `i < j` carry
equal keys, the output positions carrying `i` and `j` keep that order. -/
theorem istab_stable_range (f : ℕ × ℕ → ℕ) (x : List ℕ) (i j : ℕ)
    (hi : i < x.length) (hj : j < x.length) (hij : i < j)
    (hkey : f (x.get ⟨i, hi⟩, i) = f (x.get ⟨j, hj⟩, j)) :
    stable_pair ((istab f (x.zip (List.range x.length))).map Prod.snd) i j := by
  have hllen : (x.zip (List.range x.length)).length = x.length := by
    rw [List.length_zip, List.length_range, Nat.min_self]
  have hil : i < (x.zip (List.range x.length)).length := by omega
  have hjl : j < (x.zip (List.range x.length)).length := by omega
  have hga : (x.zip (List.range x.length)).get ⟨i, hil⟩ = (x.get ⟨i, hi⟩, i) := by
    simp [List.get_eq_getElem, List.getElem_zip, List.getElem_range]
  have hgb : (x.zip (List.range x.length)).get ⟨j, hjl⟩ = (x.get ⟨j, hj⟩, j) := by
    simp [List.get_eq_getElem, List.getElem_zip, List.getElem_range]
  have hsub1 : List.Sublist [(x.get ⟨i, hi⟩, i), (x.get ⟨j, hj⟩, j)]
      (x.zip (List.range x.length)) := by
    have := pair_sublist (x.zip (List.range x.length)) i j hil hjl hij
    rwa [hga, hgb] at this
  have hpa : (fun e => f e == f (x.get ⟨i, hi⟩, i)) (x.get ⟨i, hi⟩, i) = true := by
    simp
  have hpb : (fun e => f e == f (x.get ⟨i, hi⟩, i)) (x.get ⟨j, hj⟩, j) = true := by
    show (f (x.get ⟨j, hj⟩, j) == f (x.get ⟨i, hi⟩, i)) = true
    rw [beq_iff_eq]
    exact hkey.symm
  have hfil : [(x.get ⟨i, hi⟩, i), (x.get ⟨j, hj⟩, j)].filter
      (fun e => f e == f (x.get ⟨i, hi⟩, i)) = [(x.get ⟨i, hi⟩, i), (x.get ⟨j, hj⟩, j)] := by
    rw [List.filter_cons, if_pos hpa, List.filter_cons, if_pos hpb, List.filter_nil]
  have hsub2 : List.Sublist [(x.get ⟨i, hi⟩, i), (x.get ⟨j, hj⟩, j)]
      ((x.zip (List.range x.length)).filter (fun e => f e == f (x.get ⟨i, hi⟩, i))) := by
    have := hsub1.filter (fun e => f e == f (x.get ⟨i, hi⟩, i))
    rwa [hfil] at this
  have hsub3 : List.Sublist [(x.get ⟨i, hi⟩, i), (x.get ⟨j, hj⟩, j)]
      (istab f (x.zip (List.range x.length))) := by
    have h1 := istab_filter f (x.zip (List.range x.length)) (f (x.get ⟨i, hi⟩, i))
    rw [← h1] at hsub2
    exact hsub2.trans (List.filter_sublist _)
  rcases List.sublist_eq_map_get hsub3 with ⟨is, hmap, hpw⟩
  rcases is with _ | ⟨pa, rest⟩
  · simp at hmap
  rcases rest with _ | ⟨pb, rest2⟩
  · simp at hmap
  rcases rest2 with _ | ⟨pc, rest3⟩
  · simp only [List.map_cons, List.map_nil, List.cons.injEq, and_true] at hmap
    have hpalt : pa < pb := by
      simp [List.pairwise_cons] at hpw
      exact hpw
    have hlen1 : pa.1 < ((istab f (x.zip (List.range x.length))).map Prod.snd).length := by
      rw [List.length_map]; exact pa.2
    have hlen2 : pb.1 < ((istab f (x.zip (List.range x.length))).map Prod.snd).length := by
      rw [List.length_map]; exact pb.2
    refine ⟨⟨pa.1, hlen1⟩, ⟨pb.1, hlen2⟩, hpalt, ?_, ?_⟩
    · have h1 : ((istab f (x.zip (List.range x.length))).map Prod.snd).get ⟨pa.1, hlen1⟩ =
          ((istab f (x.zip (List.range x.length))).get pa).2 := by
        simp [List.get_eq_getElem, List.getElem_map]
      rw [h1, ← hmap.1]
    · have h1 : ((istab f (x.zip (List.range x.length))).map Prod.snd).get ⟨pb.1, hlen2⟩ =
          ((istab f (x.zip (List.range x.length))).get pb).2 := by
        simp [List.get_eq_getElem, List.getElem_map]
      rw [h1, ← hmap.2]
  · have := congrArg List.length hmap
    simp at this


/-! ## Bounds of `mf_min` and `mf_max`, and the radix driver equations -/

theorem foldl_max_init : ∀ (l : List ℕ) (b : ℕ), b ≤ l.foldl max b := by
  intro l
  induction l with
  | nil => intro b; simp
  | cons a t ih =>
    intro b
    rw [List.foldl_cons]
    exact le_trans (le_max_left b a) (ih (max b a))

theorem foldl_max_le_mem : ∀ (l : List ℕ) (b v : ℕ), v ∈ l → v ≤ l.foldl max b := by
  intro l
  induction l with
  | nil => intro b v hv; simp at hv
  | cons a t ih =>
    intro b v hv
    rw [List.foldl_cons]
    rcases List.mem_cons.1 hv with h | h
    · subst h
      exact le_trans (le_max_right b v) (foldl_max_init t (max b v))
    · exact ih (max b a) v h

/-- Every key is at most `mf_max` of the array. -/
theorem le_mf_max (x : List ℕ) : ∀ v ∈ x, v ≤ mf_max x :=
  fun v hv => foldl_max_le_mem x 0 v hv

theorem foldl_min_init : ∀ (l : List ℕ) (b : ℕ), l.foldl min b ≤ b := by
  intro l
  induction l with
  | nil => intro b; simp
  | cons a t ih =>
    intro b
    rw [List.foldl_cons]
    exact le_trans (ih (min b a)) (min_le_left b a)

theorem foldl_min_le_mem : ∀ (l : List ℕ) (b v : ℕ), v ∈ l → l.foldl min b ≤ v := by
  intro l
  induction l with
  | nil => intro b v hv; simp at hv
  | cons a t ih =>
    intro b v hv
    rw [List.foldl_cons]
    rcases List.mem_cons.1 hv with h | h
    · subst h
      exact le_trans (foldl_min_init t (min b v)) (min_le_right b v)
    · exact ih (min b a) v h

/-- Every key is at least `mf_min` of the array. -/
theorem mf_min_le (x : List ℕ) : ∀ v ∈ x, mf_min x ≤ v :=
  fun v hv => foldl_min_le_mem x (x.headD 0) v hv

/-- One unfolding of the radix `do/while` driver at a positive remaining-pass count. -/
theorem mf_radix_passes_succ (shift maxv r exp : ℕ) (x index : List ℕ) :
    mf_radix_passes shift maxv (r + 1) exp x index =
      (if exp * shift % 2 ^ 64 < maxv then
        mf_radix_passes shift maxv r (exp * shift % 2 ^ 64)
          (mf_radix_sort_index_pass x index exp shift).1
          (mf_radix_sort_index_pass x index exp shift).2
      else mf_radix_sort_index_pass x index exp shift) := rfl


/-! ## The claims -/

/-- C1: the spec asserts that after `mf_radix_sort_index` returns the key array is
non-decreasing.  The driver's strict termination test `max > (exp *= shift)` stops
the pass loop as soon as `exp` reaches `max`, so for `H = [2^32, 1]` (whose maximum
is exactly `shift^2 = 2^32`) the two executed passes only inspect the low 32 bits,
which are zero resp. one, and the array comes back unsorted. -/
theorem C1_radix_termination_bug :
    mf_radix_sort_index [2 ^ 32, 1] [0, 0] RADIX_SHIFT false = ([2 ^ 32, 1], [0, 1]) ∧
    ¬ (mf_radix_sort_index [2 ^ 32, 1] [0, 0] RADIX_SHIFT false).1.Pairwise (· ≤ ·) := by
  have hun : mf_radix_sort_index [2 ^ 32, 1] [0, 0] RADIX_SHIFT false =
      (if (mf_max [2 ^ 32, 1] - mf_min [2 ^ 32, 1] + 1) % 2 ^ 64 < 2 ^ 24 then
        mf_counting_sort_index [2 ^ 32, 1] (List.range 2) (mf_min [2 ^ 32, 1])
          (mf_max [2 ^ 32, 1])
      else mf_radix_passes (2 ^ 16) (mf_max [2 ^ 32, 1]) (64 / 16 - 1) 1 [2 ^ 32, 1]
        (List.range 2)) := rfl
  have hcond : ¬ ((mf_max [2 ^ 32, 1] - mf_min [2 ^ 32, 1] + 1) % 2 ^ 64 < 2 ^ 24) := by
    decide
  have hmax : mf_max [2 ^ 32, 1] = 2 ^ 32 := by decide
  have hshift : (2 : ℕ) ^ 16 = 65536 := by norm_num
  have hloops : (64 / 16 - 1 : ℕ) = 2 + 1 := by norm_num
  have hrng : List.range 2 = [0, 1] := rfl
  have hp1 : mf_radix_sort_index_pass [2 ^ 32, 1] [0, 1] 1 65536 = ([2 ^ 32, 1], [0, 1]) := by
    rw [mf_radix_sort_index_pass_char [2 ^ 32, 1] [0, 1] 1 65536 rfl (by norm_num)]
    decide
  have hp2 : mf_radix_sort_index_pass [2 ^ 32, 1] [0, 1] 65536 65536 =
      ([2 ^ 32, 1], [0, 1]) := by
    rw [mf_radix_sort_index_pass_char [2 ^ 32, 1] [0, 1] 65536 65536 rfl (by norm_num)]
    decide
  have hmain : mf_radix_sort_index [2 ^ 32, 1] [0, 0] RADIX_SHIFT false =
      ([2 ^ 32, 1], [0, 1]) := by
    rw [hun, if_neg hcond, hmax, hshift, hloops, hrng]
    rw [mf_radix_passes_succ 65536 (2 ^ 32) 2 1 [2 ^ 32, 1] [0, 1]]
    rw [if_pos (by norm_num : (1 * 65536 % 2 ^ 64 : ℕ) < 2 ^ 32)]
    rw [hp1]
    show mf_radix_passes 65536 (2 ^ 32) (1 + 1) 65536 [2 ^ 32, 1] [0, 1] = ([2 ^ 32, 1], [0, 1])
    rw [mf_radix_passes_succ 65536 (2 ^ 32) 1 65536 [2 ^ 32, 1] [0, 1]]
    rw [if_neg (by norm_num : ¬ ((65536 * 65536 % 2 ^ 64 : ℕ) < 2 ^ 32))]
    exact hp2
  refine ⟨hmain, ?_⟩
  rw [hmain]
  decide

/-- C2: every sort of the engine is stable.  If rows `i < j` carry equal keys, then in
the output of the counting sort, of any single radix pass, of the full 8-bit radix
sort and of the full 16-bit radix sort (each started from the identity index), the
position holding original row `i` precedes the position holding original row `j`. -/
theorem C2_every_sort_stable (x : List ℕ) (i j : ℕ)
    (hi : i < x.length) (hj : j < x.length) (hij : i < j)
    (hkey : x.get ⟨i, hi⟩ = x.get ⟨j, hj⟩) :
    stable_pair (mf_counting_sort_index x (List.range x.length) (mf_min x) (mf_max x)).2 i j ∧
    (∀ exp shift : ℕ, 0 < shift →
      stable_pair (mf_radix_sort_index_pass x (List.range x.length) exp shift).2 i j) ∧
    stable_pair (gf_radix_sort8 x (List.range x.length)).2 i j ∧
    stable_pair (gf_radix_sort16 x (List.range x.length)).2 i j := by
  have hlen : (List.range x.length).length = x.length := List.length_range _
  refine ⟨?_, ?_, ?_, ?_⟩
  · rw [mf_counting_sort_index_char x (List.range x.length) (mf_min x) (mf_max x) hlen
      (mf_min_le x) (le_mf_max x)]
    exact istab_stable_range (fun p => p.1) x i j hi hj hij hkey
  · intro exp shift hs
    rw [mf_radix_sort_index_pass_char x (List.range x.length) exp shift hlen hs]
    refine istab_stable_range (fun p => p.1 / exp % shift) x i j hi hj hij ?_
    show x.get ⟨i, hi⟩ / exp % shift = x.get ⟨j, hj⟩ / exp % shift
    rw [hkey]
  · rw [gf_radix_sort8_char x (List.range x.length) hlen]
    refine istab_stable_range (fun p => p.1 % 2 ^ 64) x i j hi hj hij ?_
    show x.get ⟨i, hi⟩ % 2 ^ 64 = x.get ⟨j, hj⟩ % 2 ^ 64
    rw [hkey]
  · rw [gf_radix_sort16_char x (List.range x.length) hlen]
    refine istab_stable_range (fun p => p.1 % 2 ^ 64) x i j hi hj hij ?_
    show x.get ⟨i, hi⟩ % 2 ^ 64 = x.get ⟨j, hj⟩ % 2 ^ 64
    rw [hkey]

/-- C2 witness: rows 0 and 2 of `[5, 3, 5]` carry equal keys, and the counting sort
and the 16-bit radix sort keep them in input order. -/
theorem C2_every_sort_stable_witness :
    (0 : ℕ) < 2 ∧
    stable_pair (mf_counting_sort_index [5, 3, 5] (List.range 3) (mf_min [5, 3, 5])
      (mf_max [5, 3, 5])).2 0 2 ∧
    stable_pair (gf_radix_sort16 [5, 3, 5] (List.range 3)).2 0 2 :=
  ⟨by decide,
   (C2_every_sort_stable [5, 3, 5] 0 2 (by decide) (by decide) (by decide) (by decide)).1,
   (C2_every_sort_stable [5, 3, 5] 0 2 (by decide) (by decide) (by decide) (by decide)).2.2.2⟩

/-- C3: on the seed scenario `H1 = [7,7,7]`, `H2 = [2,1,2]`, `I = [0,1,2]`, the spec
expects the 128-bit refinement to leave `I = [1,0,2]` and report one collision, but
`mf_panelsetup128` checks `H2` only when a block is closed by a fresh `H1` value, so
the single block that is still open at loop end is never refined: the call returns
`info = [0,3]`, `J = 1`, `I` unchanged and zero collisions. -/
theorem C3_panelsetup128_skips_final_block :
    mf_panelsetup128 [7, 7, 7] [2, 1, 2] [0, 1, 2] = some ([0, 3], 1, [0, 1, 2], 0) ∧
    mf_panelsetup128 [7, 7, 7] [2, 1, 2] [0, 1, 2] ≠ some ([0, 3], 1, [1, 0, 2], 1) := by
  exact ⟨by decide, by decide⟩

/-- C4: the panel builders read `h1[0]` before any length test and their `do/while`
bodies read `h1[i]` before testing `i < N`, so `N = 0` dereferences `h1[0]` and
`N = 1` dereferences `h1[1]`, both out of bounds (modelled by `none`), instead of
returning `J = 0` resp. `info = [0,1]`, `J = 1` as the spec requires. -/
theorem C4_panel_builders_oob_read :
    mf_panelsetup ([] : List ℕ) = none ∧
    mf_panelsetup [42] = none ∧
    mf_panelsetup128 ([] : List ℕ) [] [] = none ∧
    mf_panelsetup128 [42] [7] [0] = none := by
  exact ⟨by decide, by decide, by decide, by decide⟩

/-- C5 (amended): for `V = [1,2,3,4]` the quantile routine averages the `qth` and
`(qth-1)`-th order statistics whenever `quantile · N / 100` is an exact integer, so
`quantile(50) = 5/2` as the spec says, but `quantile(25) = 3/2` (not 1) and
`quantile(75) = 7/2` (not 3); their difference still gives `iqr = 2`. -/
theorem C5_quantile_values :
    mf_array_dquantile_range [1, 2, 3, 4] 0 4 50 = 5 / 2 ∧
    mf_array_dquantile_range [1, 2, 3, 4] 0 4 25 = 3 / 2 ∧
    mf_array_dquantile_range [1, 2, 3, 4] 0 4 75 = 7 / 2 ∧
    mf_array_diqr_range [1, 2, 3, 4] 0 4 = 2 := by
  refine ⟨?_, ?_, ?_, ?_⟩ <;>
    norm_num [mf_array_diqr_range, mf_array_dquantile_range, mf_qselect_range, qsortQ,
      qinsert, mf_array_dmin_range, mf_array_dmax_range, List.range',
      show Int.toNat 2 = 2 from rfl, show Int.toNat 3 = 3 from rfl]

/-- C5 counterexample: the spec's `quantile(25) = 1` fails; the code returns `3/2`,
the average of the order statistics at `qth = 1` and `qth - 1 = 0`. -/
theorem C5_quantile25_counterexample :
    mf_array_dquantile_range [1, 2, 3, 4] 0 4 25 = 3 / 2 ∧ (3 / 2 : ℚ) ≠ 1 := by
  constructor
  · norm_num [mf_array_dquantile_range, mf_qselect_range, qsortQ, qinsert,
      mf_array_dmin_range, mf_array_dmax_range]
  · norm_num

/-- C6 (amended): `mf_code_fun` codes the thirteen names and bare percentile strings
as the spec says (`median` as 50), and `mf_switch_fun_code` dispatches the codes of
sum, mean, sd, max, min, iqr, median and bare percentiles to the matching reducers;
but the codes −6, −7, −10…−13 (count, percent, first, firstnm, last, lastnm) have no
case and fall through to the quantile routine, so those six reductions are not
computable through the code dispatch. -/
theorem C6_code_dispatch (v : List ℚ) (s e : ℕ) :
    (mf_code_fun "sum" = -1 ∧ mf_code_fun "mean" = -2 ∧ mf_code_fun "sd" = -3 ∧
     mf_code_fun "max" = -4 ∧ mf_code_fun "min" = -5 ∧ mf_code_fun "count" = -6 ∧
     mf_code_fun "percent" = -7 ∧ mf_code_fun "median" = 50 ∧ mf_code_fun "iqr" = -9 ∧
     mf_code_fun "first" = -10 ∧ mf_code_fun "firstnm" = -11 ∧ mf_code_fun "last" = -12 ∧
     mf_code_fun "lastnm" = -13 ∧ mf_code_fun "25" = 25) ∧
    (mf_switch_fun_code (mf_code_fun "sum") v s e = mf_array_dsum_range v s e ∧
     mf_switch_fun_code (mf_code_fun "mean") v s e = mf_array_dmean_range v s e ∧
     mf_switch_fun_code (mf_code_fun "sd") v s e = mf_array_dsd_range v s e ∧
     mf_switch_fun_code (mf_code_fun "max") v s e = mf_array_dmax_range v s e ∧
     mf_switch_fun_code (mf_code_fun "min") v s e = mf_array_dmin_range v s e ∧
     mf_switch_fun_code (mf_code_fun "iqr") v s e = mf_array_diqr_range v s e ∧
     mf_switch_fun_code (mf_code_fun "median") v s e = mf_array_dquantile_range v s e 50 ∧
     mf_switch_fun_code (mf_code_fun "25") v s e = mf_array_dquantile_range v s e 25) := by
  have h25 : mf_code_fun "25" = 25 := by
    rw [mf_code_fun]
    rw [if_neg (by decide), if_neg (by decide), if_neg (by decide), if_neg (by decide),
      if_neg (by decide), if_neg (by decide), if_neg (by decide), if_neg (by decide),
      if_neg (by decide), if_neg (by decide), if_neg (by decide), if_neg (by decide),
      if_neg (by decide)]
    have h2 : ("25".data.foldl (fun a c => a * 10 + digitVal c) 0 : ℕ) = 25 := by decide
    rw [atofQ, h2]
    norm_num
  refine ⟨⟨rfl, rfl, rfl, rfl, rfl, rfl, rfl, rfl, rfl, rfl, rfl, rfl, rfl, h25⟩,
    rfl, rfl, rfl, rfl, rfl, rfl, rfl, ?_⟩
  rw [h25, mf_switch_fun_code]
  rw [if_neg (by norm_num), if_neg (by norm_num), if_neg (by norm_num),
    if_neg (by norm_num), if_neg (by norm_num), if_neg (by norm_num)]

/-- C6 counterexample: `count` is coded −6, which `mf_switch_fun_code` has no case
for; on the slice `[5, 7]` the fall-through quantile call returns 5, not the count 2. -/
theorem C6_count_dispatch_counterexample :
    mf_code_fun "count" = -6 ∧
    mf_switch_fun_code (-6) [5, 7] 0 2 = 5 ∧ (5 : ℚ) ≠ 2 := by
  refine ⟨rfl, ?_, by norm_num⟩
  norm_num [mf_switch_fun_code, mf_array_dquantile_range]

/-- C7: on any input whose keys fit in 64 bits, the counting sort (over the true
min/max range), the single-threaded 16-bit radix sort and the parallel-count radix
sort return identical key and index arrays: all three equal the stable sort by the
key. -/
theorem C7_dispatcher_agreement (hash index : List ℕ)
    (hlen : index.length = hash.length) (hbnd : ∀ h ∈ hash, h < 2 ^ 64) :
    gf_counting_sort hash index (mf_min hash) (mf_max hash) = gf_radix_sort16 hash index ∧
    gf_radix_sort16 hash index = gf_radix_psort16 hash index := by
  have h16 := gf_radix_sort16_char hash index hlen
  have hps := gf_radix_psort16_char hash index hlen
  have hcnt : gf_counting_sort hash index (mf_min hash) (mf_max hash) =
      ((istab (fun p : ℕ × ℕ => p.1) (hash.zip index)).map Prod.fst,
       (istab (fun p : ℕ × ℕ => p.1) (hash.zip index)).map Prod.snd) :=
    mf_counting_sort_index_char hash index _ _ hlen (mf_min_le hash) (le_mf_max hash)
  have hcong : istab (fun p : ℕ × ℕ => p.1) (hash.zip index) =
      istab (fun p : ℕ × ℕ => p.1 % 2 ^ 64) (hash.zip index) := by
    refine istab_congr _ _ _ (fun e he => ?_)
    obtain ⟨a, b⟩ := e
    have h1 : a ∈ hash := (List.mem_zip he).1
    have h2 := hbnd a h1
    show a = a % 2 ^ 64
    omega
  constructor
  · rw [hcnt, hcong, h16]
  · rw [h16, hps]

/-- C7 witness: the three sorts agree on `hash = [5, 1, 5]`, `index = [0, 1, 2]`. -/
theorem C7_dispatcher_agreement_witness :
    ([0, 1, 2] : List ℕ).length = ([5, 1, 5] : List ℕ).length ∧
    (∀ h ∈ ([5, 1, 5] : List ℕ), h < 2 ^ 64) ∧
    (gf_counting_sort [5, 1, 5] [0, 1, 2] (mf_min [5, 1, 5]) (mf_max [5, 1, 5]) =
        gf_radix_sort16 [5, 1, 5] [0, 1, 2] ∧
      gf_radix_sort16 [5, 1, 5] [0, 1, 2] = gf_radix_psort16 [5, 1, 5] [0, 1, 2]) :=
  ⟨by decide, by decide, C7_dispatcher_agreement [5, 1, 5] [0, 1, 2] (by decide) (by decide)⟩

/-- C8 (amended): in `mf_counting_sort_index` and `mf_radix_sort_index_pass` every
scratch allocation is checked before any caller array is touched, and failure
returns the nonzero `sf_oom_error_rc` with both arrays as given.  In
`gf_radix_sort16` only `hcopy` and `ixcopy` are checked; failure of the histogram
struct or of any of its four `calloc`d tables is dereferenced unchecked and crashes
instead of returning an error. -/
theorem C8_alloc_failure_behavior (a1 a2 a3 b1 b2 b3 g1 g2 g3 g4 g5 g6 g7 : Bool)
    (x index : List ℕ) (mn mx exp shift : ℕ) :
    sf_oom_error_rc ≠ 0 ∧
    mf_counting_sort_index_alloc a1 a2 a3 x index mn mx =
      (if a1 && a2 && a3 then
        AllocOutcome.ok (mf_counting_sort_index x index mn mx).1
          (mf_counting_sort_index x index mn mx).2
      else AllocOutcome.oom sf_oom_error_rc x index) ∧
    mf_radix_sort_index_pass_alloc b1 b2 b3 x index exp shift =
      (if b1 && b2 && b3 then
        AllocOutcome.ok (mf_radix_sort_index_pass x index exp shift).1
          (mf_radix_sort_index_pass x index exp shift).2
      else AllocOutcome.oom sf_oom_error_rc x index) ∧
    gf_radix_sort16_alloc g1 g2 g3 g4 g5 g6 g7 x index =
      (if g1 && g2 then
        (if g3 && g4 && g5 && g6 && g7 then
          AllocOutcome.ok (gf_radix_sort16 x index).1 (gf_radix_sort16 x index).2
        else AllocOutcome.crash)
      else AllocOutcome.oom sf_oom_error_rc x index) := by
  refine ⟨by decide, ?_, ?_, ?_⟩
  · cases a1 <;> cases a2 <;> cases a3 <;> rfl
  · cases b1 <;> cases b2 <;> cases b3 <;> rfl
  · cases g1 <;> cases g2 <;> cases g3 <;> cases g4 <;> cases g5 <;> cases g6 <;>
      cases g7 <;> rfl

/-- C8 counterexample: when the histogram struct allocation fails in
`gf_radix_sort16`, the routine crashes instead of returning the nonzero error code
with untouched arrays. -/
theorem C8_histogram_alloc_crash :
    gf_radix_sort16_alloc true true false true true true true [5] [0] =
      AllocOutcome.crash ∧
    AllocOutcome.crash ≠ AllocOutcome.oom sf_oom_error_rc [5] [0] := by
  exact ⟨rfl, by decide⟩

/-- C9: on the radix path (range at least `2^24`), `gf_sort_hash` returns exactly the
output of the single-threaded `gf_radix_sort16` on the caller arrays; the parallel
`gf_radix_psort16` runs only on private copies and its result is discarded. -/
theorem C9_psort_discarded (hash index : List ℕ)
    (hrange : ¬ ((mf_max hash - mf_min hash + 1) % 2 ^ 64 < 2 ^ 24)) :
    gf_sort_hash hash index = gf_radix_sort16 hash index := by
  simp only [gf_sort_hash]
  rw [if_neg hrange]

/-- C9 witness: `hash = [0, 2^24]` has range `2^24 + 1`, which takes the radix path. -/
theorem C9_psort_discarded_witness :
    ¬ ((mf_max [0, 2 ^ 24] - mf_min [0, 2 ^ 24] + 1) % 2 ^ 64 < 2 ^ 24) ∧
    gf_sort_hash [0, 2 ^ 24] [0, 1] = gf_radix_sort16 [0, 2 ^ 24] [0, 1] :=
  ⟨by decide, C9_psort_discarded [0, 2 ^ 24] [0, 1] (by decide)⟩

/-- C10: `mf_radix_sort_index` overwrites the index array with the identity
permutation before sorting, so its result is independent of the incoming index
contents. -/
theorem C10_index_independent (x index1 index2 : List ℕ) (dshift : ℕ) (raw : Bool) :
    mf_radix_sort_index x index1 dshift raw = mf_radix_sort_index x index2 dshift raw := rfl

end Gtools
